import Mathlib

/-!
Verification of the glob-cpp extended glob matcher
(`include/glob-cpp/glob.h`): a shallow embedding of the lexer, the
recursive-descent parser (including brace expansion), the automaton
compiler (`AstConsumer`) and the automaton interpreter
(`Automata::ExecAux` and the `State` classes), together with theorems
about the behaviour of the public `glob_match` interface.

Conventions of the embedding:
* `char` is modelled by `Char`, `std::basic_string` by `List Char`.
* Machine loops that are not structurally terminating (the interpreter's
  main loop and the recursive-descent parser) take an explicit fuel
  argument; `none`/`PErr.fuelErr` means the fuel ran out.  Fuel
  exhaustion never counts as an answer of the modelled program.
* The source mutates `matched_str_` and `match_one_` in place; the
  embedding threads the containing `Automaton` value through every
  function and returns the updated value.
* Out-of-range vector/string accesses that the C++ source never performs
  on reachable paths are given junk defaults (`getD`), and genuinely
  undefined behaviour that is unreachable from the parser output is
  mapped to `PErr.ubErr`.
-/

namespace GlobCpp

/-- Group kinds: `StateGroup::Type` / `GroupNode::GroupType`
(BASIC, ANY, STAR, PLUS, NEG, AT). -/
inductive GType where
  | gbasic | gany | gstar | gplus | gneg | gat
deriving DecidableEq

/-- `SetItem`: either a single char (`SetItemChar`) or a range
(`SetItemRange`).  `SetItemRange` normalises its bounds in the
constructor: it stores `(min, max)`. -/
inductive SItem where
  | chr (c : Char)
  | rng (lo : Char) (hi : Char)
deriving DecidableEq

mutual
/-- The variant part of a `State`: `StateMatch`, `StateFail`,
`StateChar`, `StateAny` (type QUESTION), `StateStar` (type MULT),
`StateSet`, `StateGroup`.  A group state carries its sub-automata
(`automatas_`) and its `match_one_` flag. -/
inductive StKind where
  | smatch
  | sfail
  | schar (c : Char)
  | sany
  | sstar
  | sset (items : List SItem) (neg : Bool)
  | sgroup (t : GType) (subs : List Automaton) (matchOne : Bool)

/-- A `State`: its kind, its `next_states_` list and its
`matched_str_` scratch. -/
inductive St where
  | mk (kind : StKind) (next : List Nat) (matchedStr : List Char)

/-- An `Automata<charT>`: the owned state list plus `match_state_`
and `fail_state_`. -/
inductive Automaton where
  | mk (states : List St) (matchIdx : Nat) (failIdx : Nat)
end

/-- `StateType`: the runtime tag each state carries (`type_`); the
source compares states by this tag (`state->Type() == StateType::...`).
The UNION member of the C++ enum is never used as a state tag. -/
inductive StTag where
  | tmatch | tfail | tchar | tquestion | tmult | tset | tgroup
deriving DecidableEq

def StKind.tag : StKind → StTag
  | .smatch => .tmatch
  | .sfail => .tfail
  | .schar _ => .tchar
  | .sany => .tquestion
  | .sstar => .tmult
  | .sset _ _ => .tset
  | .sgroup _ _ _ => .tgroup

def St.kind : St → StKind
  | .mk k _ _ => k

def St.next : St → List Nat
  | .mk _ n _ => n

def St.matchedStr : St → List Char
  | .mk _ _ m => m

def Automaton.states : Automaton → List St
  | .mk s _ _ => s

def Automaton.matchIdx : Automaton → Nat
  | .mk _ m _ => m

def Automaton.failIdx : Automaton → Nat
  | .mk _ _ f => f

/-- Junk state used as the `getD` default for state-vector accesses
that the C++ source never performs out of range. -/
def dfltSt : St := .mk .sfail [] []

/-- `states_[i]` (in-range on all reachable paths). -/
def Automaton.getSt (a : Automaton) (i : Nat) : St :=
  a.states.getD i dfltSt

/-- Replace state `i` (models in-place mutation of `states_[i]`). -/
def Automaton.setSt (a : Automaton) (i : Nat) (st : St) : Automaton :=
  .mk (a.states.set i st) a.matchIdx a.failIdx

/-- `State::SetMatchedStr` on state `i` (assignment, not append). -/
def Automaton.putStr (a : Automaton) (i : Nat) (str : List Char) : Automaton :=
  a.setSt i (.mk (a.getSt i).kind (a.getSt i).next str)

/-- Replace the sub-automata (and `match_one_`) stored in group state
`i`; a no-op on non-group states (never happens in the source). -/
def Automaton.putGroup (a : Automaton) (i : Nat) (subs : List Automaton)
    (m1 : Bool) : Automaton :=
  match (a.getSt i).kind with
  | .sgroup t _ _ =>
      a.setSt i (.mk (.sgroup t subs m1) (a.getSt i).next (a.getSt i).matchedStr)
  | _ => a

/-- `str[pos]`: `std::basic_string::operator[]` yields the null
character at `pos == length()` (and the interpreter never goes
further). -/
def charAt (s : List Char) (p : Nat) : Char :=
  s.getD p (Char.ofNat 0)

/-- `StateSet::SetCheck`: true iff any item matches the char. -/
def setCheck (items : List SItem) (c : Char) : Bool :=
  items.any fun it =>
    match it with
    | .chr d => c = d
    | .rng lo hi => lo ≤ c ∧ c ≤ hi

/-- `StateSet::Check`: `SetCheck`, negated for `[!...]` sets. -/
def setCheckNeg (items : List SItem) (neg : Bool) (c : Char) : Bool :=
  if neg then !(setCheck items c) else setCheck items c

/-- `State::ResetState`: the base class and all states except
`StateGroup` do nothing; `StateGroup::ResetState` clears only
`match_one_` (the matched string is *not* cleared). -/
def St.resetSt : St → St
  | .mk (.sgroup t subs _) n ms => .mk (.sgroup t subs false) n ms
  | st => st

/-- `Automata::ResetStates`: reset every state of this automaton
(non-recursive: sub-automata reset themselves inside `BasicCheck`). -/
def resetStatesTop (a : Automaton) : Automaton :=
  .mk (a.states.map St.resetSt) a.matchIdx a.failIdx

/-- Interpreter requests: the five mutually recursive procedures of the
automaton interpreter (`ExecAux`'s loop, `State::Next`, `State::Check`,
`StateGroup::BasicCheck`, `Automata::ExecAux`), combined into one
fuel-indexed function so the embedding reduces by structural recursion. -/
inductive EngQ where
  | qRun (a : Automaton) (s : List Char) (sp pp : Nat)
  | qNext (a : Automaton) (idx : Nat) (s : List Char) (pos : Nat)
  | qCheck (a : Automaton) (idx : Nat) (s : List Char) (pos : Nat)
  | qBasic (subs : List Automaton) (sp : List Char) (ce : Bool)
  | qExec (a : Automaton) (s : List Char) (ce : Bool)

/-- Interpreter results (one shape per request family). -/
inductive EngR where
  | rTrip (sp pp : Nat) (a : Automaton)
  | rChk (b : Bool) (a : Automaton)
  | rBas (b : Bool) (q : Nat) (subs : List Automaton)
  | rExe (b : Bool) (p : Nat) (a : Automaton)

/-- The interpreter.  Each request mirrors one C++ member function:

* `qRun`: the main loop of `Automata::ExecAux`: run `Next` of the
  current state until the fail or match state is reached or the string
  is exhausted;
* `qNext`: `State::Next` dispatch on the state at index `idx`;
* `qCheck`: `State::Check` dispatch;
* `qBasic`: `StateGroup::BasicCheck` on the remaining string, stopping
  at the first succeeding alternative, each alternative running through
  `Automata::Exec` (= `ExecAux` followed by `ResetStates`);
* `qExec`: `Automata::ExecAux`: the loop from state 0, the trailing-star
  adjustment, and the verdict (`ce` = `comp_end`). -/
def engine : Nat → EngQ → Option EngR
  | 0, _ => none
  | fuel + 1, q =>
    match q with
    | .qRun a s sp pp =>
      if sp = a.failIdx ∨ sp = a.matchIdx ∨ s.length ≤ pp then
        some (.rTrip sp pp a)
      else
        match engine fuel (.qNext a sp s pp) with
        | some (.rTrip sp2 pp2 a2) => engine fuel (.qRun a2 s sp2 pp2)
        | _ => none
    | .qNext a idx s pos =>
      let st := a.getSt idx
      match st.kind with
      | .smatch => some (.rTrip 0 (pos + 1) a)
      | .sfail => some (.rTrip 0 (pos + 1) a)
      | .schar c =>
        if c = charAt s pos then
          some (.rTrip (st.next.getD 0 0) (pos + 1) (a.putStr idx [c]))
        else
          some (.rTrip a.failIdx (pos + 1) a)
      | .sany =>
        some (.rTrip (st.next.getD 0 0) (pos + 1) (a.putStr idx [charAt s pos]))
      | .sstar =>
        -- StateStar::Next
        if (a.getSt (st.next.getD 1 0)).kind.tag = .tmatch then
          some (.rTrip (st.next.getD 1 0) s.length (a.putStr idx (s.drop pos)))
        else
          match engine fuel (.qCheck a (st.next.getD 1 0) s pos) with
          | some (.rChk res a1) =>
            if res then
              some (.rTrip (st.next.getD 1 0) pos a1)
            else
              some (.rTrip (st.next.getD 0 0) (pos + 1)
                (a1.putStr idx ((a1.getSt idx).matchedStr ++ [charAt s pos])))
          | _ => none
      | .sset items neg =>
        if setCheckNeg items neg (charAt s pos) then
          some (.rTrip (st.next.getD 0 0) (pos + 1) (a.putStr idx [charAt s pos]))
        else
          some (.rTrip a.failIdx (pos + 1) a)
      | .sgroup t subs m1 =>
        match engine fuel (.qBasic subs (s.drop pos) (decide (pos = 0))) with
        | some (.rBas r q2 subs2) =>
          let newPos := pos + q2
          let a1 := a.putGroup idx subs2 m1
          match t with
          | .gbasic =>
            -- StateGroup::NextBasic
            if r then
              some (.rTrip (st.next.getD 1 0) newPos
                (a1.putStr idx ((a1.getSt idx).matchedStr ++ (s.drop pos).take q2)))
            else
              some (.rTrip a.failIdx newPos a1)
          | .gat =>
            -- StateGroup::NextBasic (AT groups share it)
            if r then
              some (.rTrip (st.next.getD 1 0) newPos
                (a1.putStr idx ((a1.getSt idx).matchedStr ++ (s.drop pos).take q2)))
            else
              some (.rTrip a.failIdx newPos a1)
          | .gany =>
            -- StateGroup::NextAny
            if r then
              some (.rTrip (st.next.getD 1 0) newPos
                (a1.putStr idx ((a1.getSt idx).matchedStr ++ (s.drop pos).take q2)))
            else
              some (.rTrip (st.next.getD 1 0) pos a1)
          | .gstar =>
            -- StateGroup::NextStar
            if r then
              let a2 := a1.putStr idx ((a1.getSt idx).matchedStr ++ (s.drop pos).take q2)
              if (a2.getSt (st.next.getD 1 0)).kind.tag = .tmatch ∧ newPos = s.length then
                some (.rTrip (st.next.getD 1 0) newPos a2)
              else
                some (.rTrip (st.next.getD 0 0) newPos a2)
            else
              some (.rTrip (st.next.getD 1 0) pos a1)
          | .gplus =>
            -- StateGroup::NextPlus
            if r then
              let a2 := (a.putGroup idx subs2 true).putStr idx
                ((a.getSt idx).matchedStr ++ (s.drop pos).take q2)
              if (a2.getSt (st.next.getD 1 0)).kind.tag = .tmatch ∧ newPos = s.length then
                some (.rTrip (st.next.getD 1 0) newPos a2)
              else
                some (.rTrip (st.next.getD 0 0) newPos a2)
            else
              match engine fuel (.qCheck a1 (st.next.getD 1 0) s pos) with
              | some (.rChk res a2) =>
                if res ∧ m1 then some (.rTrip (st.next.getD 1 0) pos a2)
                else if m1 then some (.rTrip (st.next.getD 1 0) pos a2)
                else some (.rTrip a.failIdx newPos a2)
              | _ => none
          | .gneg =>
            -- StateGroup::NextNeg
            if r then
              some (.rTrip a.failIdx newPos
                (a1.putStr idx ((a1.getSt idx).matchedStr ++ (s.drop pos).take q2)))
            else
              some (.rTrip (st.next.getD 1 0) pos a1)
        | _ => none
    | .qCheck a idx s pos =>
      let st := a.getSt idx
      match st.kind with
      | .smatch => some (.rChk true a)
      | .sfail => some (.rChk false a)
      | .schar c => some (.rChk (decide (c = charAt s pos)) a)
      | .sany => some (.rChk true a)
      | .sstar => some (.rChk true a)
      | .sset items neg => some (.rChk (setCheckNeg items neg (charAt s pos)) a)
      | .sgroup t subs m1 =>
        match engine fuel (.qBasic subs (s.drop pos) (decide (pos = 0))) with
        | some (.rBas r _ subs2) =>
          some (.rChk (if t = .gneg then !r else r) (a.putGroup idx subs2 m1))
        | _ => none
    | .qBasic subs sp ce =>
      match subs with
      | [] => some (.rBas false 0 [])
      | sub :: rest =>
        match engine fuel (.qExec sub sp ce) with
        | some (.rExe r q2 sub2) =>
          let sub3 := resetStatesTop sub2
          if r then some (.rBas true q2 (sub3 :: rest))
          else
            match engine fuel (.qBasic rest sp ce) with
            | some (.rBas r2 q3 rest2) => some (.rBas r2 q3 (sub3 :: rest2))
            | _ => none
        | _ => none
    | .qExec a s ce =>
      match engine fuel (.qRun a s 0 0) with
      | some (.rTrip sp pp a1) =>
        let spFinal :=
          if pp = s.length ∧ ¬sp = a1.failIdx ∧ ¬sp = a1.matchIdx ∧
              (a1.getSt sp).kind.tag = .tmult ∧ 1 < (a1.getSt sp).next.length ∧
              (a1.getSt ((a1.getSt sp).next.getD 1 0)).kind.tag = .tmatch then
            (a1.getSt sp).next.getD 1 0
          else sp
        if ce then
          if spFinal = a1.matchIdx ∧ pp = s.length then some (.rExe true pp a1)
          else some (.rExe false pp a1)
        else
          some (.rExe (decide (spFinal = a1.matchIdx)) pp a1)
      | _ => none

/-- The main loop of `Automata::ExecAux` (wrapper around `engine`). -/
def runLoopA (fuel : Nat) (a : Automaton) (s : List Char) (sp pp : Nat) :
    Option (Nat × Nat × Automaton) :=
  match engine fuel (.qRun a s sp pp) with
  | some (.rTrip sp2 pp2 a2) => some (sp2, pp2, a2)
  | _ => none

/-- `State::Next` (wrapper around `engine`). -/
def stNextA (fuel : Nat) (a : Automaton) (idx : Nat) (s : List Char) (pos : Nat) :
    Option (Nat × Nat × Automaton) :=
  match engine fuel (.qNext a idx s pos) with
  | some (.rTrip sp2 pp2 a2) => some (sp2, pp2, a2)
  | _ => none

/-- `State::Check` (wrapper around `engine`). -/
def stCheckA (fuel : Nat) (a : Automaton) (idx : Nat) (s : List Char) (pos : Nat) :
    Option (Bool × Automaton) :=
  match engine fuel (.qCheck a idx s pos) with
  | some (.rChk b a2) => some (b, a2)
  | _ => none

/-- `StateGroup::BasicCheck` (wrapper around `engine`). -/
def basicCheckA (fuel : Nat) (subs : List Automaton) (sp : List Char) (ce : Bool) :
    Option (Bool × Nat × List Automaton) :=
  match engine fuel (.qBasic subs sp ce) with
  | some (.rBas b q subs2) => some (b, q, subs2)
  | _ => none

/-- `Automata::ExecAux` (wrapper around `engine`). -/
def execAuxA (fuel : Nat) (a : Automaton) (s : List Char) (ce : Bool) :
    Option (Bool × Nat × Automaton) :=
  match engine fuel (.qExec a s ce) with
  | some (.rExe b p a2) => some (b, p, a2)
  | _ => none

/-- `Automata::Exec`: `ExecAux` followed by `ResetStates`. -/
def execTopA (fuel : Nat) (a : Automaton) (s : List Char) (ce : Bool) :
    Option (Bool × Nat × Automaton) :=
  match execAuxA fuel a s ce with
  | none => none
  | some (r, p, a1) => some (r, p, resetStatesTop a1)

/-- The boolean verdict of `glob_match(str, glob)` (which is
`automata_.Exec(str)` with `comp_end = true`), at a given fuel. -/
def execBool (fuel : Nat) (a : Automaton) (s : List Char) : Option Bool :=
  (execTopA fuel a s true).map fun x => x.1

/-- The automaton object after one `glob_match` call, at a given fuel. -/
def execAfter (fuel : Nat) (a : Automaton) (s : List Char) : Option Automaton :=
  (execTopA fuel a s true).map fun x => x.2.2

/-- The pattern `a` matches the string `s`: the interpreter run
terminates (some fuel suffices) with verdict `true`. -/
def MatchesE (a : Automaton) (s : List Char) : Prop :=
  ∃ fuel, execBool fuel a s = some true

/-- `Automata::GetMatchedStrings`: the `matched_str_` of every
MULT/QUESTION/GROUP/SET state, in state order. -/
def getMatchedStrings (a : Automaton) : List (List Char) :=
  a.states.filterMap fun st =>
    match st.kind with
    | .sstar => some st.matchedStr
    | .sany => some st.matchedStr
    | .sgroup _ _ _ => some st.matchedStr
    | .sset _ _ => some st.matchedStr
    | _ => none

/-- `glob_match(str, res, glob)`: the verdict together with the capture
list that `MatchResults` receives (it is set regardless of the
verdict). -/
def globMatchCapt (fuel : Nat) (a : Automaton) (s : List Char) :
    Option (Bool × List (List Char) × Automaton) :=
  (execTopA fuel a s true).map fun x => (x.1, getMatchedStrings x.2.2, x.2.2)

/-! ## Lexer (`Lexer::Scanner`) -/

/-- The null character (used as the payload of payload-less tokens,
whose `value_` member the source leaves uninitialised and never
reads). -/
def nul : Char := Char.ofNat 0

/-- `TokenKind` (members generated from `token.def`, which is not part
of the source tree; the members and their meaning are fully determined
by their uses in `glob.h`). -/
inductive TokKind where
  | tChar
  | tQuestion
  | tStar
  | tQuestLParen
  | tStarLParen
  | tPlusLParen
  | tNegLParen
  | tAtLParen
  | tLParen
  | tRParen
  | tLBracket
  | tNegLBracket
  | tRBracket
  | tLBrace
  | tRBrace
  | tSub
  | tUnion
  | tEOS
deriving DecidableEq

/-- `Token<charT>`: a kind plus an optional char payload. -/
structure Tok where
  kind : TokKind
  val : Char
deriving DecidableEq

/-- `Lexer::IsSpecialChar`. -/
def isSpecialChar (c : Char) : Bool :=
  c = '?' || c = '*' || c = '+' || c = '(' || c = ')' || c = '[' || c = ']' ||
  c = '|' || c = '!' || c = '@' || c = '{' || c = '}' || c = '\\'

/-- Syntax errors thrown as `glob::Error` are `synErr`; `ubErr` marks
spots where the C++ source has undefined behaviour (all unreachable
from parser output); `fuelErr` is fuel exhaustion of the embedding,
never an answer of the program. -/
inductive PErr where
  | synErr (msg : String)
  | ubErr (msg : String)
  | fuelErr
deriving DecidableEq

/-- `Lexer::Scanner`, as a recursion over the remaining characters
(`Advance` = drop one char, `c_ == kEndOfInput` = the list is empty).
The empty-pattern case (where the C++ scanner reads past the buffer)
is given the bare `[EOS]` token list; no theorem below uses it. -/
def scanAux : List Char → Except PErr (List Tok)
  | [] => .ok [⟨.tEOS, nul⟩]
  | '?' :: '(' :: r2 => (scanAux r2).map (⟨.tQuestLParen, nul⟩ :: ·)
  | '?' :: rest => (scanAux rest).map (⟨.tQuestion, nul⟩ :: ·)
  | '*' :: '(' :: r2 => (scanAux r2).map (⟨.tStarLParen, nul⟩ :: ·)
  | '*' :: rest => (scanAux rest).map (⟨.tStar, nul⟩ :: ·)
  | '+' :: '(' :: r2 => (scanAux r2).map (⟨.tPlusLParen, nul⟩ :: ·)
  | '+' :: rest => (scanAux rest).map (⟨.tChar, '+'⟩ :: ·)
  | '-' :: rest => (scanAux rest).map (⟨.tSub, nul⟩ :: ·)
  | '|' :: rest => (scanAux rest).map (⟨.tUnion, nul⟩ :: ·)
  | '@' :: '(' :: r2 => (scanAux r2).map (⟨.tAtLParen, nul⟩ :: ·)
  | '@' :: rest => (scanAux rest).map (⟨.tChar, '@'⟩ :: ·)
  | '!' :: '(' :: r2 => (scanAux r2).map (⟨.tNegLParen, nul⟩ :: ·)
  | '!' :: rest => (scanAux rest).map (⟨.tChar, '!'⟩ :: ·)
  | '(' :: rest => (scanAux rest).map (⟨.tLParen, nul⟩ :: ·)
  | ')' :: rest => (scanAux rest).map (⟨.tRParen, nul⟩ :: ·)
  | '[' :: '!' :: r2 => (scanAux r2).map (⟨.tNegLBracket, nul⟩ :: ·)
  | '[' :: rest => (scanAux rest).map (⟨.tLBracket, nul⟩ :: ·)
  | ']' :: rest => (scanAux rest).map (⟨.tRBracket, nul⟩ :: ·)
  | '{' :: rest => (scanAux rest).map (⟨.tLBrace, nul⟩ :: ·)
  | '}' :: rest => (scanAux rest).map (⟨.tRBrace, nul⟩ :: ·)
  | '\\' :: [] => .error (.synErr "No valid char after backslash")
  | '\\' :: c2 :: r2 =>
    if isSpecialChar c2 then (scanAux r2).map (⟨.tChar, c2⟩ :: ·)
    else scanAux (c2 :: r2)
  | c :: rest => (scanAux rest).map (⟨.tChar, c⟩ :: ·)

/-! ## AST (`AstNode` hierarchy) -/

/-- The AST node variants built by the parser (`CharNode`, `RangeNode`,
`SetItemsNode`, `PositiveSetNode`, `NegativeSetNode`, `StarNode`,
`AnyNode`, `GroupNode`, `ConcatNode`, `UnionNode`, `GlobNode`). -/
inductive Ast where
  | achar (c : Char)
  | arange (first : Ast) (last : Ast)
  | asetItems (items : List Ast)
  | aposSet (items : Ast)
  | anegSet (items : Ast)
  | astar
  | aany
  | agroup (t : GType) (body : Ast)
  | aconcat (parts : List Ast)
  | aunion (items : List Ast)
  | aglob (root : Ast)

mutual
/-- `Parser::CloneNode` (deep copy used by brace expansion; throws on
`GLOB` nodes, the only throwing case among the node types the embedding
has). -/
def cloneNode : Ast → Except PErr Ast
  | .achar c => .ok (.achar c)
  | .astar => .ok .astar
  | .aany => .ok .aany
  | .aconcat parts => (cloneList parts).map .aconcat
  | .aunion items => (cloneList items).map .aunion
  | .aposSet s => (cloneNode s).map .aposSet
  | .anegSet s => (cloneNode s).map .anegSet
  | .asetItems items => (cloneList items).map .asetItems
  | .arange s e => do
      let s2 ← cloneNode s
      let e2 ← cloneNode e
      .ok (.arange s2 e2)
  | .agroup t g => (cloneNode g).map (.agroup t)
  | .aglob _ =>
      .error (.synErr "Unsupported node type for cloning in brace expansion")

def cloneList : List Ast → Except PErr (List Ast)
  | [] => .ok []
  | n :: rest => do
      let n2 ← cloneNode n
      let r2 ← cloneList rest
      .ok (n2 :: r2)
end

/-! ## Parser (`Parser`) -/

/-- The default token used for out-of-range accesses (the C++ parser
keeps `pos_` in range; the scanner output always ends in EOS). -/
def dfltTok : Tok := ⟨.tEOS, nul⟩

/-- `Parser::GetToken`. -/
def getTok (tv : List Tok) (p : Nat) : Tok := tv.getD p dfltTok

/-- `Parser::PeekAhead`. -/
def peekAhead (tv : List Tok) (p : Nat) : Tok :=
  if tv.length ≤ p + 1 then tv.getLastD dfltTok else tv.getD (p + 1) dfltTok

/-- `Parser::NextToken`: the token consumed and the new position
(the position sticks at the final token). -/
def nextTok (tv : List Tok) (p : Nat) : Tok × Nat :=
  if tv.length ≤ p + 1 then (tv.getLastD dfltTok, p)
  else (tv.getD p dfltTok, p + 1)

/-- `Parser::Advance`. -/
def advanceP (tv : List Tok) (p : Nat) : Nat :=
  if tv.length ≤ p + 1 then p else p + 1

/-- `Parser::ParserChar`. -/
def pChar (tv : List Tok) (p : Nat) : Except PErr (Ast × Nat) :=
  let (tk, p1) := nextTok tv p
  if tk.kind = .tChar then .ok (.achar tk.val, p1)
  else .error (.synErr "char expected")

/-- `Parser::ParserRange`. -/
def pRange (tv : List Tok) (p : Nat) : Except PErr (Ast × Nat) := do
  let (cs, p1) ← pChar tv p
  let (tk, p2) := nextTok tv p1
  if tk.kind = .tSub then do
    let (ce, p3) ← pChar tv p2
    .ok (.arange cs ce, p3)
  else .error (.synErr "range expected")

/-- `Parser::ParserSetItem`. -/
def pSetItem (tv : List Tok) (p : Nat) : Except PErr (Ast × Nat) :=
  if (peekAhead tv p).kind = .tSub then pRange tv p else pChar tv p

/-- The `check_end` lambda of `Parser::ParserConcat`. -/
def checkEndConcat (tk : Tok) : Bool :=
  tk.kind = .tEOS || tk.kind = .tRParen || tk.kind = .tUnion ||
  tk.kind = .tRBrace || (tk.kind = .tChar && tk.val = ',')

/-- The `check_end` lambda of `Parser::ParserBraceItem` (it also stops
when the position has run past the token vector). -/
def checkEndBraceItem (tv : List Tok) (p : Nat) : Bool :=
  tv.length ≤ p || checkEndConcat (getTok tv p)

/-- The brace-expansion rewrite at the end of `Parser::ParserConcat`:
expand a union part of a brace item into one variant per alternative
(the `item_variants` loop). -/
def expandUnionVariants : List Ast → List (List Ast) →
    Except PErr (List (List Ast))
  | [], variants => .ok variants
  | part :: rest, variants => do
    let variants2 ←
      match part with
      | .aunion uitems => do
          let groups ← variants.mapM fun v => uitems.mapM fun ui => do
            let vclone ← cloneList v
            match ui with
            | .aconcat ups => do
                let upsClone ← cloneList ups
                pure (vclone ++ upsClone)
            | _ => Except.error (.ubErr "union item is not a concat")
          pure groups.flatten
      | other => variants.mapM fun v => do
          let c ← cloneNode other
          pure (v ++ [c])
    expandUnionVariants rest variants2

/-- The final assembly for a brace item containing a union: prefix a
clone of the prefix parts to each variant and take the cartesian
product with the suffix variants. -/
def joinVariantsSuffix (variants : List (List Ast)) (prefixParts : List Ast)
    (suffixVariants : List (List Ast)) : Except PErr (List Ast) := do
  let groups ← variants.mapM fun v => do
    let pre ← cloneList prefixParts
    let expandedParts := pre ++ v
    suffixVariants.mapM fun sv => do
      let ep ← cloneList expandedParts
      let s2 ← cloneList sv
      pure (Ast.aconcat (ep ++ s2))
  pure groups.flatten

/-- The per-brace-item expansion loop of `Parser::ParserConcat`
(`for brace_item in brace_items`). -/
def expandBraceItems (braceItems : List Ast) (prefixParts : List Ast)
    (suffixVariants : List (List Ast)) : Except PErr (List Ast) := do
  let groups ← braceItems.mapM fun bi =>
    match bi with
    | .aconcat biParts =>
      if biParts.any (fun part => match part with | .aunion _ => true | _ => false) then do
        let variants ← expandUnionVariants biParts [[]]
        joinVariantsSuffix variants prefixParts suffixVariants
      else
        suffixVariants.mapM fun sv => do
          let pre ← cloneList prefixParts
          let mid ← cloneList biParts
          let suf ← cloneList sv
          pure (Ast.aconcat (pre ++ mid ++ suf))
    | _ => .error (.synErr "Invalid brace item type")
  pure groups.flatten

/-- Parser requests: the mutually recursive procedures of the
recursive-descent parser, combined into one fuel-indexed function so
the embedding reduces by structural recursion.  Loops inside a C++
member function appear as their own request kind. -/
inductive ParQ where
  | qSetItemsLoop (tv : List Tok) (p : Nat) (acc : List Ast)
  | qSet (tv : List Tok) (p : Nat)
  | qBasicGlob (tv : List Tok) (p : Nat)
  | qGroup (tv : List Tok) (p : Nat)
  | qUnion (tv : List Tok) (p : Nat)
  | qUnionLoop (tv : List Tok) (p : Nat) (acc : List Ast)
  | qConcatLoop (tv : List Tok) (p : Nat) (acc : List Ast)
  | qConcat (tv : List Tok) (p : Nat)
  | qBraceExp (tv : List Tok) (p : Nat)
  | qBraceLoop (tv : List Tok) (p : Nat) (acc : List Ast)
  | qBraceItemLoop (tv : List Tok) (p : Nat) (parts : List Ast)

/-- Parser results (one shape per request family). -/
inductive ParR where
  | rAst (n : Ast) (p : Nat)
  | rParts (parts : List Ast) (p : Nat) (brace : Bool)
  | rItems (items : List Ast) (p : Nat)

/-- The recursive-descent parser.  Request-by-request it mirrors:

* `qSetItemsLoop`: the do-while loop of `Parser::ParserSetItems`
  followed by the trailing `Advance`;
* `qSet`: `Parser::ParserSet`;
* `qBasicGlob`: `Parser::ParserBasicGlob`;
* `qGroup`: `Parser::ParserGroup`;
* `qUnion` and `qUnionLoop`: `Parser::ParserUnion` and its
  `while (GetToken() == UNION)` loop;
* `qConcatLoop`: the first collection loop of `Parser::ParserConcat`
  (collect parts until `check_end` or an opening brace);
* `qConcat`: `Parser::ParserConcat` (including the brace-expansion
  rewrite of prefix, brace alternatives and recursively parsed suffix);
* `qBraceExp` and `qBraceLoop`: `Parser::ParserBraceExpansion` and its
  item-collection loop;
* `qBraceItemLoop`: the `while (!check_end())` loop of
  `Parser::ParserBraceItem`.

A result of the wrong shape for the request never occurs; those match
arms are mapped to an `ubErr`. -/
def parserGo : Nat → ParQ → Except PErr ParR
  | 0, _ => .error .fuelErr
  | fuel + 1, q =>
    match q with
    | .qSetItemsLoop tv p acc =>
      match pSetItem tv p with
      | .error e => .error e
      | .ok (it, p1) =>
        if (getTok tv p1).kind = .tRBracket then
          .ok (.rAst (.asetItems (acc ++ [it])) (advanceP tv p1))
        else parserGo fuel (.qSetItemsLoop tv p1 (acc ++ [it]))
    | .qSet tv p =>
      let (tk, p1) := nextTok tv p
      if tk.kind = .tLBracket then
        match parserGo fuel (.qSetItemsLoop tv p1 []) with
        | .error e => .error e
        | .ok (.rAst items p2) => .ok (.rAst (.aposSet items) p2)
        | .ok _ => .error (.ubErr "wrong parser result shape")
      else if tk.kind = .tNegLBracket then
        match parserGo fuel (.qSetItemsLoop tv p1 []) with
        | .error e => .error e
        | .ok (.rAst items p2) => .ok (.rAst (.anegSet items) p2)
        | .ok _ => .error (.ubErr "wrong parser result shape")
      else .error (.synErr "set expected")
    | .qBasicGlob tv p =>
      match (getTok tv p).kind with
      | .tQuestion => .ok (.rAst .aany (advanceP tv p))
      | .tStar => .ok (.rAst .astar (advanceP tv p))
      | .tSub => .ok (.rAst (.achar '-') (advanceP tv p))
      | .tChar =>
        match pChar tv p with
        | .error e => .error e
        | .ok (n, p1) => .ok (.rAst n p1)
      | .tLBracket => parserGo fuel (.qSet tv p)
      | .tNegLBracket => parserGo fuel (.qSet tv p)
      | .tLParen => parserGo fuel (.qGroup tv p)
      | .tQuestLParen => parserGo fuel (.qGroup tv p)
      | .tStarLParen => parserGo fuel (.qGroup tv p)
      | .tPlusLParen => parserGo fuel (.qGroup tv p)
      | .tNegLParen => parserGo fuel (.qGroup tv p)
      | .tAtLParen => parserGo fuel (.qGroup tv p)
      | _ => .error (.synErr "basic glob expected")
    | .qGroup tv p =>
      let (tk, p1) := nextTok tv p
      let ty : Except PErr GType :=
        match tk.kind with
        | .tLParen => .ok .gbasic
        | .tQuestLParen => .ok .gany
        | .tStarLParen => .ok .gstar
        | .tPlusLParen => .ok .gplus
        | .tNegLParen => .ok .gneg
        | .tAtLParen => .ok .gat
        | _ => .error (.synErr "Not valid group")
      match ty with
      | .error e => .error e
      | .ok t =>
        match parserGo fuel (.qUnion tv p1) with
        | .error e => .error e
        | .ok (.rAst body p2) =>
          let (tk2, p3) := nextTok tv p2
          if tk2.kind = .tRParen then .ok (.rAst (.agroup t body) p3)
          else .error (.synErr "Expected close paren at and of group")
        | .ok _ => .error (.ubErr "wrong parser result shape")
    | .qUnion tv p =>
      match parserGo fuel (.qConcat tv p) with
      | .error e => .error e
      | .ok (.rAst first p1) => parserGo fuel (.qUnionLoop tv p1 [first])
      | .ok _ => .error (.ubErr "wrong parser result shape")
    | .qUnionLoop tv p acc =>
      if (getTok tv p).kind = .tUnion then
        match parserGo fuel (.qConcat tv (advanceP tv p)) with
        | .error e => .error e
        | .ok (.rAst it p2) => parserGo fuel (.qUnionLoop tv p2 (acc ++ [it]))
        | .ok _ => .error (.ubErr "wrong parser result shape")
      else .ok (.rAst (.aunion acc) p)
    | .qConcatLoop tv p acc =>
      if checkEndConcat (getTok tv p) then .ok (.rParts acc p false)
      else if (getTok tv p).kind = .tLBrace then .ok (.rParts acc p true)
      else
        match parserGo fuel (.qBasicGlob tv p) with
        | .error e => .error e
        | .ok (.rAst n p1) => parserGo fuel (.qConcatLoop tv p1 (acc ++ [n]))
        | .ok _ => .error (.ubErr "wrong parser result shape")
    | .qConcat tv p =>
      match parserGo fuel (.qConcatLoop tv p []) with
      | .error e => .error e
      | .ok (.rParts parts p1 braceFound) =>
        if braceFound = false then .ok (.rAst (.aconcat parts) p1)
        else
          match parserGo fuel (.qBraceExp tv p1) with
          | .error e => .error e
          | .ok (.rItems braceItems p2) =>
            match parserGo fuel (.qConcat tv p2) with
            | .error e => .error e
            | .ok (.rAst suffixNode p3) =>
              let suffixVariants : Except PErr (List (List Ast)) :=
                match suffixNode with
                | .aunion sitems => sitems.mapM fun it =>
                    match it with
                    | .aconcat ps => cloneList ps
                    | _ => .error (.ubErr "suffix union item is not a concat")
                | .aconcat ps => (cloneList ps).map ([·])
                | _ => .error (.ubErr "suffix is not a concat")
              match suffixVariants with
              | .error e => .error e
              | .ok svs =>
                match expandBraceItems braceItems parts svs with
                | .error e => .error e
                | .ok expanded => .ok (.rAst (.aunion expanded) p3)
            | .ok _ => .error (.ubErr "wrong parser result shape")
          | .ok _ => .error (.ubErr "wrong parser result shape")
      | .ok _ => .error (.ubErr "wrong parser result shape")
    | .qBraceExp tv p =>
      let (tk, p1) := nextTok tv p
      if tk.kind = .tLBrace then
        if (getTok tv p1).kind = .tRBrace then
          .ok (.rItems [.aconcat []] (nextTok tv p1).2)
        else
          match parserGo fuel (.qBraceItemLoop tv p1 []) with
          | .error e => .error e
          | .ok (.rAst it1 p2) =>
            match parserGo fuel (.qBraceLoop tv p2 [it1]) with
            | .error e => .error e
            | .ok (.rItems items p3) =>
              let (tk2, p4) := nextTok tv p3
              if tk2.kind = .tRBrace then .ok (.rItems items p4)
              else .error (.synErr "Expected close brace at end of brace expansion")
            | .ok _ => .error (.ubErr "wrong parser result shape")
          | .ok _ => .error (.ubErr "wrong parser result shape")
      else .error (.synErr "Expected open brace at start of brace expansion")
    | .qBraceLoop tv p acc =>
      let cur := getTok tv p
      if cur.kind = .tRBrace then .ok (.rItems acc p)
      else if cur.kind = .tChar ∧ cur.val = ',' then
        let p1 := advanceP tv p
        if (getTok tv p1).kind = .tRBrace then .ok (.rItems (acc ++ [.aconcat []]) p1)
        else
          match parserGo fuel (.qBraceItemLoop tv p1 []) with
          | .error e => .error e
          | .ok (.rAst it p2) => parserGo fuel (.qBraceLoop tv p2 (acc ++ [it]))
          | .ok _ => .error (.ubErr "wrong parser result shape")
      else .error (.synErr "Expected comma or close brace in brace expansion")
    | .qBraceItemLoop tv p parts =>
      if checkEndBraceItem tv p then .ok (.rAst (.aconcat parts) p)
      else if (getTok tv p).kind = .tLBrace then
        match parserGo fuel (.qBraceExp tv p) with
        | .error e => .error e
        | .ok (.rItems nested p1) =>
          match nested with
          | [single] =>
            match single with
            | .aconcat nparts =>
              match cloneList nparts with
              | .error e => .error e
              | .ok cl => parserGo fuel (.qBraceItemLoop tv p1 (parts ++ cl))
            | _ => .error (.ubErr "nested brace item is not a concat")
          | _ => parserGo fuel (.qBraceItemLoop tv p1 (parts ++ [.aunion nested]))
        | .ok _ => .error (.ubErr "wrong parser result shape")
      else
        match parserGo fuel (.qBasicGlob tv p) with
        | .error e => .error e
        | .ok (.rAst n p1) => parserGo fuel (.qBraceItemLoop tv p1 (parts ++ [n]))
        | .ok _ => .error (.ubErr "wrong parser result shape")

/-- `Parser::ParserConcat` (wrapper around `parserGo`). -/
def pConcat (fuel : Nat) (tv : List Tok) (p : Nat) : Except PErr (Ast × Nat) :=
  match parserGo fuel (.qConcat tv p) with
  | .error e => .error e
  | .ok (.rAst n p1) => .ok (n, p1)
  | .ok _ => .error (.ubErr "wrong parser result shape")

/-- `Parser::ParserBasicGlob` (wrapper around `parserGo`). -/
def pBasicGlob (fuel : Nat) (tv : List Tok) (p : Nat) : Except PErr (Ast × Nat) :=
  match parserGo fuel (.qBasicGlob tv p) with
  | .error e => .error e
  | .ok (.rAst n p1) => .ok (n, p1)
  | .ok _ => .error (.ubErr "wrong parser result shape")

/-- `Parser::ParserUnion` (wrapper around `parserGo`). -/
def pUnion (fuel : Nat) (tv : List Tok) (p : Nat) : Except PErr (Ast × Nat) :=
  match parserGo fuel (.qUnion tv p) with
  | .error e => .error e
  | .ok (.rAst n p1) => .ok (n, p1)
  | .ok _ => .error (.ubErr "wrong parser result shape")

/-- `Parser::ParserGlob` (entry point `Parser::GenAst`). -/
def pGlob : Nat → List Tok → Except PErr Ast
  | 0, _ => .error .fuelErr
  | fuel + 1, tv =>
    match pConcat fuel tv 0 with
    | .error e => .error e
    | .ok (g, p1) =>
      if (getTok tv p1).kind = .tEOS then .ok (.aglob g)
      else .error (.synErr "Expected the end of glob")

/-! ## Automaton compiler (`AstConsumer`) -/

/-- The consumer's build state: the states emitted so far and
`preview_state_` (`none` models the initial `-1`). -/
abbrev BState := List St × Option Nat

/-- `State::AddNextState` on state `i` of a state list. -/
def addNextTo (sts : List St) (i : Nat) (tgt : Nat) : List St :=
  sts.set i (.mk (sts.getD i dfltSt).kind
    ((sts.getD i dfltSt).next ++ [tgt]) (sts.getD i dfltSt).matchedStr)

/-- `AstConsumer::NewState`: append a state, link the previous state to
it, advance `preview_state_`. -/
def newStateC (b : BState) (k : StKind) : BState :=
  let pos := b.1.length
  let sts := b.1 ++ [.mk k [] []]
  let sts2 :=
    match b.2 with
    | some pv => addNextTo sts pv pos
    | none => sts
  (sts2, some pos)

/-- The self-loop edge added after emitting a star or group state
(`automata.GetState(current_state_).AddNextState(current_state_)`). -/
def addSelfLoop (b : BState) : BState :=
  match b.2 with
  | some cur => (addNextTo b.1 cur cur, b.2)
  | none => b

/-- `AstConsumer::ProcessSetItem` (the `SetItemRange` constructor
stores the normalised `(min, max)` pair). -/
def processSetItem : Ast → Except PErr SItem
  | .achar c => .ok (.chr c)
  | .arange (.achar s) (.achar e) => .ok (.rng (min s e) (max s e))
  | .arange _ _ => .error (.ubErr "range endpoint is not a char node")
  | _ => .error (.synErr "Not valid set item")

/-- `AstConsumer::ProcessSetItems`. -/
def processSetItems : Ast → Except PErr (List SItem)
  | .asetItems items => items.mapM processSetItem
  | _ => .error (.ubErr "set items cast")

/-- Close a built state list into an `Automata`: append the match
state, link the preview state to it, set `match_state_`, append the
fail state, set `fail_state_` (shared tail of `AstConsumer::ExecUnion`
and `AstConsumer::GenAutomata`). -/
def closeAutomaton (b : BState) : Except PErr Automaton :=
  match b.2 with
  | none => .error (.ubErr "GetState(-1) on empty concatenation")
  | some pv =>
    let mIdx := b.1.length
    let sts := addNextTo (b.1 ++ [.mk .smatch [] []]) pv mIdx
    let fIdx := sts.length
    .ok (.mk (sts ++ [.mk .sfail [] []]) mIdx fIdx)

mutual
/-- `AstConsumer::ExecBasicGlob` (node kinds not listed in its switch
are skipped). -/
def execBasicGlobC : Ast → BState → Except PErr BState
  | .achar c, b => .ok (newStateC b (.schar c))
  | .aany, b => .ok (newStateC b .sany)
  | .astar, b => .ok (addSelfLoop (newStateC b .sstar))
  | .aposSet s, b =>
    match processSetItems s with
    | .error e => .error e
    | .ok items => .ok (newStateC b (.sset items false))
  | .anegSet s, b =>
    match processSetItems s with
    | .error e => .error e
    | .ok items => .ok (newStateC b (.sset items true))
  | .agroup t body, b =>
    match execUnionC body with
    | .error e => .error e
    | .ok subs => .ok (addSelfLoop (newStateC b (.sgroup t subs false)))
  | _, b => .ok b

/-- `AstConsumer::ExecConcat` (casts its argument to `ConcatNode`). -/
def execConcatC : Ast → BState → Except PErr BState
  | .aconcat parts, b => execConcatList parts b
  | _, _ => .error (.ubErr "concat cast")

def execConcatList : List Ast → BState → Except PErr BState
  | [], b => .ok b
  | part :: rest, b =>
    match execBasicGlobC part b with
    | .error e => .error e
    | .ok b1 => execConcatList rest b1

/-- `AstConsumer::ExecUnion` (casts its argument to `UnionNode`, then
compiles each item into its own complete automaton). -/
def execUnionC : Ast → Except PErr (List Automaton)
  | .aunion items => execUnionItems items
  | _ => .error (.ubErr "union cast")

def execUnionItems : List Ast → Except PErr (List Automaton)
  | [] => .ok []
  | item :: rest =>
    match execConcatC item ([], none) with
    | .error e => .error e
    | .ok b =>
      match closeAutomaton b with
      | .error e => .error e
      | .ok a =>
        match execUnionItems rest with
        | .error e => .error e
        | .ok more => .ok (a :: more)
end

/-- `AstConsumer::GenAutomata`: compile the root of a `GlobNode`.  A
top-level union (from brace expansion) becomes one BASIC group state
over the per-alternative automata, with a dummy fail state at successor
index 0 and the match state at successor index 1. -/
def genAutomata : Ast → Except PErr Automaton
  | .aglob root =>
    match root with
    | .aunion items =>
      match execUnionItems items with
      | .error e => .error e
      | .ok subs =>
        let b1 := newStateC ([], none) (.sgroup .gbasic subs false)
        let sts := addNextTo (b1.1 ++ [.mk .sfail [] []]) 0 1
        let sts := addNextTo (sts ++ [.mk .smatch [] []]) 0 2
        .ok (.mk (sts ++ [.mk .sfail [] []]) 2 3)
    | other => execConcatC other ([], none) >>= closeAutomaton
  | _ => .error (.ubErr "root is not a GlobNode")

/-! ## Compilation facade (`ExtendedGlob`, `BasicGlob`, `glob_match`) -/

/-- Fuel given to the parser by the embedding; ample for every pattern
(the recursive-descent parser advances its position on every loop
iteration and its call depth is bounded by the token count). -/
def parserFuel (tv : List Tok) : Nat := 4 * tv.length + 16

/-- Strict-mode compilation (`GLOBSTAR_NOEXCEPT_ENABLED == 0`):
`ExtendedGlob::ExtendedGlob` with errors propagated to the caller. -/
def compileStrict (pat : List Char) : Except PErr Automaton := do
  let toks ← scanAux pat
  let ast ← pGlob (parserFuel toks) toks
  genAutomata ast

/-- The always-failing automaton built on the failure path of the
safe-mode constructor: a fail state at 0 (= `fail_state_`) and a match
state at 1 (= `match_state_`). -/
def failsafeAuto : Automaton := .mk [.mk .sfail [] [], .mk .smatch [] []] 1 0

/-- Safe-mode compilation (the default `GLOBSTAR_NOEXCEPT_ENABLED == 1`):
errors are caught and the always-failing automaton is returned. -/
def compileSafeA (pat : List Char) : Automaton :=
  match compileStrict pat with
  | .ok a => a
  | .error _ => failsafeAuto

/-- True iff strict-mode compilation raises a `glob::Error`. -/
def isSynErr (r : Except PErr Automaton) : Bool :=
  match r with
  | .error (.synErr _) => true
  | _ => false

/-! ## Fuel monotonicity of the interpreter

The interpreter functions are deterministic once they return an answer:
giving more fuel can only turn `none` into an answer, never change
one. -/

theorem engineMono : ∀ n : Nat, ∀ n', n ≤ n' →
    ∀ q r, engine n q = some r → engine n' q = some r := by
  intro n
  induction n with
  | zero => intro n' _ q r h; simp [engine] at h
  | succ n ih =>
    intro n' hle q r h
    obtain ⟨m, rfl⟩ : ∃ m, n' = m + 1 := ⟨n' - 1, by omega⟩
    have IH := ih m (by omega)
    cases q with
    | qRun a s sp pp =>
      simp only [engine] at h ⊢
      split at h
      · rename_i hc; rw [if_pos hc]; exact h
      · rename_i hc
        rw [if_neg hc]
        cases h1 : engine n (.qNext a sp s pp) with
        | none => simp only [h1] at h; cases h
        | some x =>
          simp only [h1] at h
          rw [IH _ _ h1]
          cases x with
          | rTrip sp2 pp2 a2 => exact IH _ _ h
          | rChk b a2 => exact h
          | rBas b q2 subs2 => exact h
          | rExe b p a2 => exact h
    | qNext a idx s pos =>
      simp only [engine] at h ⊢
      cases hk : (a.getSt idx).kind <;> simp only [hk] at h ⊢
      case smatch => exact h
      case sfail => exact h
      case schar c => exact h
      case sany => exact h
      case sstar =>
        split at h
        · rename_i hc; rw [if_pos hc]; exact h
        · rename_i hc
          rw [if_neg hc]
          cases h1 : engine n (.qCheck a ((a.getSt idx).next.getD 1 0) s pos) with
          | none => simp only [h1] at h; cases h
          | some x =>
            simp only [h1] at h
            rw [IH _ _ h1]
            cases x with
            | rTrip sp2 pp2 a2 => exact h
            | rChk b a2 => exact h
            | rBas b q2 subs2 => exact h
            | rExe b p a2 => exact h
      case sset items neg => exact h
      case sgroup t subs m1 =>
        cases h1 : engine n (.qBasic subs (List.drop pos s) (decide (pos = 0))) with
        | none => simp only [h1] at h; cases h
        | some x =>
          simp only [h1] at h
          rw [IH _ _ h1]
          cases x with
          | rTrip sp2 pp2 a2 => exact h
          | rChk b a2 => exact h
          | rExe b p a2 => exact h
          | rBas r q2 subs2 =>
            cases t
            case gplus =>
              try simp only [] at h
              try simp only []
              split at h
              · rename_i hr; rw [if_pos hr]; exact h
              · rename_i hr
                rw [if_neg hr]
                cases h2 : engine n (.qCheck (a.putGroup idx subs2 m1)
                    ((a.getSt idx).next.getD 1 0) s pos) with
                | none => simp only [h2] at h; cases h
                | some y =>
                  simp only [h2] at h
                  rw [IH _ _ h2]
                  cases y with
                  | rTrip sp2 pp2 a2 => exact h
                  | rChk b a2 => exact h
                  | rBas b q3 subs3 => exact h
                  | rExe b p a2 => exact h
            all_goals exact h
    | qCheck a idx s pos =>
      simp only [engine] at h ⊢
      cases hk : (a.getSt idx).kind <;> simp only [hk] at h ⊢
      case sgroup t subs m1 =>
        cases h1 : engine n (.qBasic subs (List.drop pos s) (decide (pos = 0))) with
        | none => simp only [h1] at h; cases h
        | some x =>
          simp only [h1] at h
          rw [IH _ _ h1]
          cases x with
          | rTrip sp2 pp2 a2 => exact h
          | rChk b a2 => exact h
          | rBas b q2 subs2 => exact h
          | rExe b p a2 => exact h
      all_goals exact h
    | qBasic subs sp ce =>
      cases subs with
      | nil => simp only [engine] at h ⊢; exact h
      | cons sub rest =>
        simp only [engine] at h ⊢
        cases h1 : engine n (.qExec sub sp ce) with
        | none => simp only [h1] at h; cases h
        | some x =>
          simp only [h1] at h
          rw [IH _ _ h1]
          cases x with
          | rTrip sp2 pp2 a2 => exact h
          | rChk b a2 => exact h
          | rBas b q2 subs2 => exact h
          | rExe r q2 sub2 =>
            try simp only [] at h
            try simp only []
            split at h
            · rename_i hr; rw [if_pos hr]; exact h
            · rename_i hr
              rw [if_neg hr]
              cases h2 : engine n (.qBasic rest sp ce) with
              | none => simp only [h2] at h; cases h
              | some y =>
                simp only [h2] at h
                rw [IH _ _ h2]
                cases y with
                | rTrip sp2 pp2 a2 => exact h
                | rChk b a2 => exact h
                | rBas b q3 subs3 => exact h
                | rExe b p a2 => exact h
    | qExec a s ce =>
      simp only [engine] at h ⊢
      cases h1 : engine n (.qRun a s 0 0) with
      | none => simp only [h1] at h; cases h
      | some x =>
        simp only [h1] at h
        rw [IH _ _ h1]
        cases x with
        | rTrip sp2 pp2 a2 => exact h
        | rChk b a2 => exact h
        | rBas b q2 subs2 => exact h
        | rExe b p a2 => exact h

theorem runLoopA_mono {n n' : Nat} (h : n ≤ n') {a s sp pp r}
    (hr : runLoopA n a s sp pp = some r) : runLoopA n' a s sp pp = some r := by
  unfold runLoopA at hr ⊢
  cases h1 : engine n (.qRun a s sp pp) with
  | none => rw [h1] at hr; cases hr
  | some x => rw [h1] at hr; rw [engineMono n n' h _ _ h1]; exact hr

theorem execAuxA_mono {n n' : Nat} (h : n ≤ n') {a s ce r}
    (hr : execAuxA n a s ce = some r) : execAuxA n' a s ce = some r := by
  unfold execAuxA at hr ⊢
  cases h1 : engine n (.qExec a s ce) with
  | none => rw [h1] at hr; cases hr
  | some x => rw [h1] at hr; rw [engineMono n n' h _ _ h1]; exact hr
theorem execTopA_mono {n n' : Nat} (h : n ≤ n') {a s ce r}
    (hr : execTopA n a s ce = some r) : execTopA n' a s ce = some r := by
  unfold execTopA at hr ⊢
  cases h1 : execAuxA n a s ce with
  | none => rw [h1] at hr; cases hr
  | some x => rw [h1] at hr; rw [execAuxA_mono h h1]; exact hr

theorem execBool_mono {n n' : Nat} (h : n ≤ n') {a s b}
    (hr : execBool n a s = some b) : execBool n' a s = some b := by
  unfold execBool at hr ⊢
  cases h1 : execTopA n a s true with
  | none => rw [h1] at hr; cases hr
  | some x => rw [h1] at hr; rw [execTopA_mono h h1]; exact hr

/-- Determinism across fuels: two terminating runs agree. -/
theorem execBool_det {n n' : Nat} {a s b b'}
    (h1 : execBool n a s = some b) (h2 : execBool n' a s = some b') : b = b' := by
  have e1 := execBool_mono (Nat.le_max_left n n') h1
  have e2 := execBool_mono (Nat.le_max_right n n') h2
  rw [e1] at e2
  exact Option.some.inj e2

/-- A terminating run with verdict `false` refutes `MatchesE`. -/
theorem not_matchesE {n : Nat} {a s}
    (h : execBool n a s = some false) : ¬ MatchesE a s := by
  rintro ⟨f, hf⟩
  cases execBool_det hf h

/-- The fail-safe automaton rejects every string. -/
theorem failsafeAuto_execBool (s : List Char) :
    execBool 2 failsafeAuto s = some false := by
  simp [execBool, execTopA, execAuxA, engine, failsafeAuto, Automaton.failIdx,
    Automaton.matchIdx, resetStatesTop]

/-- The fail-safe automaton matches nothing. -/
theorem failsafeAuto_no_match (s : List Char) : ¬ MatchesE failsafeAuto s :=
  not_matchesE (failsafeAuto_execBool s)

/-! ## Concrete patterns and inputs used by the claims -/

def patBracketOpen : List Char := "[abc".toList
def patParenOpen : List Char := "(abc".toList
def patStarParenOpen : List Char := "*(abc".toList
def patBackslash : List Char := "\\".toList
def patRangeNoEnd : List Char := "[a-]".toList
def patRangeNoStart : List Char := "[-a]".toList
def patPipe : List Char := "a|b".toList
def patComma : List Char := "a,b".toList
def patUrl : List Char := "https://**.google.com".toList
def patBraceNested : List Char := ['\x7b', 'a', ',', 'b', '\x7b', '1', ',', '2', '\x7d', '\x7d', '*', '.', 't', 'x', 't']
def patBraceRangeAsc : List Char := ['\x7b', 'a', '.', '.', 'c', '\x7d']
def patBraceRangeDesc : List Char := ['\x7b', 'c', '.', '.', 'a', '\x7d']
def patPlusNegGroup : List Char := "x+(!(a))".toList
def patAStar : List Char := "a*".toList
def patStarOnly : List Char := "*".toList
def patStarAB : List Char := "*ab".toList

/-! ## Claim theorems: error handling and concrete behaviour -/

/-- C3: each of the malformed patterns `[abc`, `(abc`, `*(abc`, a
pattern that is a single backslash, `[a-]` and `[-a]` raises a Syntax
error (`glob::Error`) when compiled in strict mode, and in the default
safe mode compiles to a pattern that matches no input string. -/
theorem c3_malformed_patterns :
    (isSynErr (compileStrict patBracketOpen) = true ∧
     isSynErr (compileStrict patParenOpen) = true ∧
     isSynErr (compileStrict patStarParenOpen) = true ∧
     isSynErr (compileStrict patBackslash) = true ∧
     isSynErr (compileStrict patRangeNoEnd) = true ∧
     isSynErr (compileStrict patRangeNoStart) = true) ∧
    ((∀ s, ¬ MatchesE (compileSafeA patBracketOpen) s) ∧
     (∀ s, ¬ MatchesE (compileSafeA patParenOpen) s) ∧
     (∀ s, ¬ MatchesE (compileSafeA patStarParenOpen) s) ∧
     (∀ s, ¬ MatchesE (compileSafeA patBackslash) s) ∧
     (∀ s, ¬ MatchesE (compileSafeA patRangeNoEnd) s) ∧
     (∀ s, ¬ MatchesE (compileSafeA patRangeNoStart) s)) := by
  refine ⟨⟨by decide, by decide, by decide, by decide, by decide, by decide⟩,
    ⟨?_, ?_, ?_, ?_, ?_, ?_⟩⟩ <;>
  exact fun s => failsafeAuto_no_match s

set_option maxRecDepth 40000 in
/-- C4: the compiled pattern `https://**.google.com` rejects
`https://a.b.c.google.com` (the claim and the repository's own test
suite expect a match: the star state commits to its successor at the
first `.` of the input and never backtracks) and also rejects
`https://google.com` (as the claim states). -/
theorem c4_globstar_multi_component_rejected :
    ¬ MatchesE (compileSafeA patUrl) "https://a.b.c.google.com".toList ∧
    ¬ MatchesE (compileSafeA patUrl) "https://google.com".toList :=
  ⟨not_matchesE (n := 200) (by rfl), not_matchesE (n := 200) (by rfl)⟩

set_option maxRecDepth 40000 in
/-- C9: the compiled pattern `{a,b{1,2}}*.txt` matches `a.txt`,
`b1.txt`, `b2.txt` and `afile.txt` and rejects `b.txt`: nested braces
expand by cartesian product with the surrounding prefix and suffix. -/
theorem c9_nested_brace_cartesian :
    MatchesE (compileSafeA patBraceNested) "a.txt".toList ∧
    MatchesE (compileSafeA patBraceNested) "b1.txt".toList ∧
    MatchesE (compileSafeA patBraceNested) "b2.txt".toList ∧
    MatchesE (compileSafeA patBraceNested) "afile.txt".toList ∧
    ¬ MatchesE (compileSafeA patBraceNested) "b.txt".toList :=
  ⟨⟨120, by rfl⟩, ⟨120, by rfl⟩, ⟨120, by rfl⟩, ⟨120, by rfl⟩,
    not_matchesE (n := 120) (by rfl)⟩

/-- C7 counterexample: `compile("a|b")` and `compile("a,b")` do *not*
succeed in strict mode: the lexer emits `|` as a UNION token with no
depth tracking, and the parser treats a top-level `,` as a
concatenation terminator, so both compilations raise a Syntax error. -/
theorem c7_counterexample_strict_fails :
    isSynErr (compileStrict patPipe) = true ∧
    isSynErr (compileStrict patComma) = true := by
  exact ⟨by decide, by decide⟩

/-- C7 amended: `|` is lexed as an alternation token at any depth and a
top-level `,` terminates the concatenation, so `compile("a|b")` and
`compile("a,b")` fail with a Syntax error in strict mode; in the
default safe mode they compile to a pattern that matches no input (in
particular neither matches its own literal spelling). -/
theorem c7_amended_pipe_comma_are_rejected :
    (isSynErr (compileStrict patPipe) = true ∧
     isSynErr (compileStrict patComma) = true) ∧
    (∀ s, ¬ MatchesE (compileSafeA patPipe) s) ∧
    (∀ s, ¬ MatchesE (compileSafeA patComma) s) := by
  refine ⟨⟨by decide, by decide⟩, ?_, ?_⟩ <;>
  exact fun s => failsafeAuto_no_match s

/-- C8 counterexample: `compile("{a..c}")` matches the literal
five-character string `a..c` and does not match `b`, refuting the
claimed range expansion into the alternatives `a`, `b`, `c`. -/
theorem c8_counterexample_range_not_expanded :
    MatchesE (compileSafeA patBraceRangeAsc) ['a', '.', '.', 'c'] ∧
    ¬ MatchesE (compileSafeA patBraceRangeAsc) ['b'] :=
  ⟨⟨60, by rfl⟩, not_matchesE (n := 60) (by rfl)⟩

/-- C8 amended: the parser has no `..` range token: the two dots of a
brace item are ordinary characters, so `compile("{a..c}")` matches the
literal string `a..c` and none of `a`, `b`, `c`, and `compile("{c..a}")`
matches the literal string `c..a` and none of `a`, `b`, `c`. -/
theorem c8_amended_brace_dots_literal :
    (MatchesE (compileSafeA patBraceRangeAsc) ['a', '.', '.', 'c'] ∧
     ¬ MatchesE (compileSafeA patBraceRangeAsc) ['a'] ∧
     ¬ MatchesE (compileSafeA patBraceRangeAsc) ['b'] ∧
     ¬ MatchesE (compileSafeA patBraceRangeAsc) ['c']) ∧
    (MatchesE (compileSafeA patBraceRangeDesc) ['c', '.', '.', 'a'] ∧
     ¬ MatchesE (compileSafeA patBraceRangeDesc) ['a'] ∧
     ¬ MatchesE (compileSafeA patBraceRangeDesc) ['b'] ∧
     ¬ MatchesE (compileSafeA patBraceRangeDesc) ['c']) :=
  ⟨⟨⟨60, by rfl⟩, not_matchesE (n := 60) (by rfl), not_matchesE (n := 60) (by rfl),
     not_matchesE (n := 60) (by rfl)⟩,
   ⟨⟨60, by rfl⟩, not_matchesE (n := 60) (by rfl), not_matchesE (n := 60) (by rfl),
     not_matchesE (n := 60) (by rfl)⟩⟩

/-- C5 counterexample: `glob_match("b", res, glob)` with the pattern
`a*` fails, yet the capture sequence handed to `MatchResults` is the
one-element list `[""]` (one entry for the star state), not the empty
sequence the claim requires on failure. -/
theorem c5_counterexample_captures_on_failure :
    (globMatchCapt 60 (compileSafeA patAStar) ['b']).map
      (fun x => (x.1, x.2.1)) = some (false, [[]]) ∧
    ([[]] : List (List Char)) ≠ [] :=
  ⟨by rfl, by decide⟩

/-- C6 counterexample: before any execution the star state of the
pattern `*` holds the empty matched string; after one top-level `Exec`
on the input `ab` (including the end-of-`Exec` `ResetStates`) it holds
`ab`: the per-execution matched substring is *not* reset, so the
Pattern is not left in its pre-call state. -/
theorem c6_counterexample_matched_str_persists :
    ((compileSafeA patStarOnly).getSt 0).matchedStr = [] ∧
    (execAfter 60 (compileSafeA patStarOnly) ['a', 'b']).map
      (fun a => (a.getSt 0).matchedStr) = some ['a', 'b'] :=
  ⟨by rfl, by rfl⟩

/-- C1 counterexample: with the literal fragments `p1 = ""` and
`p2 = "ab"`, the input `aab` decomposes as `p1 ++ "a" ++ p2`, yet the
compiled pattern `*ab` rejects it (the star state commits to the char
chain at the first `a` and never backtracks). -/
theorem c1_counterexample_star_commits_early :
    ("aab".toList = [] ++ ['a'] ++ "ab".toList) ∧
    ¬ MatchesE (compileSafeA patStarAB) "aab".toList :=
  ⟨by decide, not_matchesE (n := 60) (by rfl)⟩

/-! ## C2: non-termination of the interpreter on a one-or-more group
with a zero-width body

On the pattern `x+(!(a))` and the input `xb`, the PLUS group's
`BasicCheck` succeeds without consuming anything (its negated-group
alternative reaches its match state at offset 0 because the inner `a`
does not match `b`), so `NextPlus` loops back to the same state at the
same input position forever. -/

def c2s : List Char := ['x', 'b']

/-- The automaton compiled from `x+(!(a))`, written out: a `x` char
state, a PLUS group state whose single alternative is an automaton
holding one NEG group state over the automaton of `a`. -/
def c2A0 : Automaton :=
  .mk [.mk (.schar 'x') [1] [],
       .mk (.sgroup .gplus
             [.mk [.mk (.sgroup .gneg
                         [.mk [.mk (.schar 'a') [1] [],
                               .mk .smatch [] [],
                               .mk .sfail [] []] 1 2]
                         false) [0, 1] [],
                   .mk .smatch [] [],
                   .mk .sfail [] []] 1 2]
             false) [1, 2] [],
       .mk .smatch [] [],
       .mk .sfail [] []] 2 3

/-- `c2A0` after the `x` char state has consumed the first input char. -/
def c2A1 : Automaton :=
  .mk [.mk (.schar 'x') [1] ['x'],
       .mk (.sgroup .gplus
             [.mk [.mk (.sgroup .gneg
                         [.mk [.mk (.schar 'a') [1] [],
                               .mk .smatch [] [],
                               .mk .sfail [] []] 1 2]
                         false) [0, 1] [],
                   .mk .smatch [] [],
                   .mk .sfail [] []] 1 2]
             false) [1, 2] [],
       .mk .smatch [] [],
       .mk .sfail [] []] 2 3

/-- `c2A1` after one `NextPlus` step: `match_one_` is now set; nothing
else changed, and every further `NextPlus` step maps this automaton,
state 1 and offset 1 to themselves. -/
def c2A2 : Automaton :=
  .mk [.mk (.schar 'x') [1] ['x'],
       .mk (.sgroup .gplus
             [.mk [.mk (.sgroup .gneg
                         [.mk [.mk (.schar 'a') [1] [],
                               .mk .smatch [] [],
                               .mk .sfail [] []] 1 2]
                         false) [0, 1] [],
                   .mk .smatch [] [],
                   .mk .sfail [] []] 1 2]
             true) [1, 2] [],
       .mk .smatch [] [],
       .mk .sfail [] []] 2 3

theorem c2_compile_eq : compileSafeA patPlusNegGroup = c2A0 := rfl

theorem c2_compile_ok : (compileStrict patPlusNegGroup).isOk = true := rfl

/-- Any result the engine ever returns for a fixed request equals the
result returned at one particular fuel (by monotonicity). -/
theorem engine_cases_of {F : Nat} {q : EngQ} {r0 : EngR}
    (hF : engine F q = some r0) (f : Nat) :
    engine f q = none ∨ engine f q = some r0 := by
  cases h : engine f q with
  | none => exact .inl rfl
  | some r =>
    right
    have h1 := engineMono f (max f F) (Nat.le_max_left f F) _ _ h
    have h2 := engineMono F (max f F) (Nat.le_max_right f F) _ _ hF
    rw [h1] at h2
    rw [Option.some.inj h2]

theorem c2_next_fix : engine 10 (.qNext c2A2 1 c2s 1) = some (.rTrip 1 1 c2A2) := rfl

theorem c2_stuck2 : ∀ f, engine f (.qRun c2A2 c2s 1 1) = none := by
  intro f
  induction f with
  | zero => rfl
  | succ f ih =>
    have hexit : ¬(1 = c2A2.failIdx ∨ 1 = c2A2.matchIdx ∨ c2s.length ≤ 1) := by decide
    simp only [engine]
    rw [if_neg hexit]
    rcases engine_cases_of c2_next_fix f with h | h
    · rw [h]
    · rw [h]
      exact ih

theorem c2_next1 : engine 10 (.qNext c2A1 1 c2s 1) = some (.rTrip 1 1 c2A2) := rfl

theorem c2_stuck1 : ∀ f, engine f (.qRun c2A1 c2s 1 1) = none := by
  intro f
  cases f with
  | zero => rfl
  | succ f =>
    have hexit : ¬(1 = c2A1.failIdx ∨ 1 = c2A1.matchIdx ∨ c2s.length ≤ 1) := by decide
    simp only [engine]
    rw [if_neg hexit]
    rcases engine_cases_of c2_next1 f with h | h
    · rw [h]
    · rw [h]
      exact c2_stuck2 f

theorem c2_next0 : engine 1 (.qNext c2A0 0 c2s 0) = some (.rTrip 1 1 c2A1) := rfl

theorem c2_run0 : ∀ f, engine f (.qRun c2A0 c2s 0 0) = none := by
  intro f
  cases f with
  | zero => rfl
  | succ f =>
    have hexit : ¬(0 = c2A0.failIdx ∨ 0 = c2A0.matchIdx ∨ c2s.length ≤ 0) := by decide
    simp only [engine]
    rw [if_neg hexit]
    rcases engine_cases_of c2_next0 f with h | h
    · rw [h]
    · rw [h]
      exact c2_stuck1 f

/-- C2 (refuted by the code): the pattern `x+(!(a))` compiles
successfully, yet matching it against `xb` never terminates: at every
fuel the interpreter is still running.  (`NextPlus` re-enters state 1
at offset 1 after every zero-width success of its negated-group
body.) -/
theorem c2_plus_group_nontermination :
    (compileStrict patPlusNegGroup).isOk = true ∧
    ∀ fuel, execBool fuel (compileSafeA patPlusNegGroup) c2s = none := by
  refine ⟨c2_compile_ok, ?_⟩
  intro fuel
  rw [c2_compile_eq]
  cases fuel with
  | zero => rfl
  | succ f =>
    show (execTopA (f + 1) c2A0 c2s true).map _ = none
    show (match execAuxA (f + 1) c2A0 c2s true with
      | none => none
      | some (r, p, a1) => some (r, p, resetStatesTop a1)).map _ = none
    unfold execAuxA
    simp only [engine]
    rw [c2_run0 f]
    rfl

/-! ## Scratch-erasure views of an automaton

`strip` erases every `matched_str_` (recursively, through group
sub-automata) and keeps the `match_one_` flags; `scrub` erases both.
The interpreter's boolean verdict only reads what `strip` keeps, and
the interpreter only ever writes what `scrub` erases. -/

mutual
def stripKind : StKind → StKind
  | .sgroup t subs m1 => .sgroup t (stripAL subs) m1
  | k => k

def stripSt : St → St
  | .mk k n _ => .mk (stripKind k) n []

def stripStL : List St → List St
  | [] => []
  | s :: r => stripSt s :: stripStL r

def stripAuto : Automaton → Automaton
  | .mk sts m f => .mk (stripStL sts) m f

def stripAL : List Automaton → List Automaton
  | [] => []
  | a :: r => stripAuto a :: stripAL r
end

mutual
def scrubKind : StKind → StKind
  | .sgroup t subs _ => .sgroup t (scrubAL subs) false
  | k => k

def scrubSt : St → St
  | .mk k n _ => .mk (scrubKind k) n []

def scrubStL : List St → List St
  | [] => []
  | s :: r => scrubSt s :: scrubStL r

def scrubAuto : Automaton → Automaton
  | .mk sts m f => .mk (scrubStL sts) m f

def scrubAL : List Automaton → List Automaton
  | [] => []
  | a :: r => scrubAuto a :: scrubAL r
end

mutual
/-- All `match_one_` flags of this state (and of everything it owns)
are `false`. -/
def flagsClearSt : St → Bool
  | .mk (.sgroup _ subs m1) _ _ => !m1 && flagsClearAL subs
  | _ => true

def flagsClearStL : List St → Bool
  | [] => true
  | s :: r => flagsClearSt s && flagsClearStL r

/-- All `match_one_` flags anywhere in the automaton are `false` (the
state a compiled pattern is in before its first execution). -/
def flagsClearB : Automaton → Bool
  | .mk sts _ _ => flagsClearStL sts

def flagsClearAL : List Automaton → Bool
  | [] => true
  | a :: r => flagsClearB a && flagsClearAL r
end

/-- The sub-automata owned by this state are fully flag-clear (the
state's own flag is unconstrained). -/
def subsClearSt (st : St) : Bool :=
  match st.kind with
  | .sgroup _ subs _ => flagsClearAL subs
  | _ => true

/-- Every group state's sub-automata are fully flag-clear (the
invariant that holds *during* a run, whose top-level flags vary). -/
def subsClearB (a : Automaton) : Bool :=
  a.states.all subsClearSt

theorem scrubAL_cons (a : Automaton) (l : List Automaton) :
    scrubAL (a :: l) = scrubAuto a :: scrubAL l := by
  simp [scrubAL]

theorem flagsClearAL_cons (a : Automaton) (l : List Automaton) :
    flagsClearAL (a :: l) = (flagsClearB a && flagsClearAL l) := by
  simp [flagsClearAL]

theorem stripStL_eq_map (l : List St) : stripStL l = l.map stripSt := by
  induction l with
  | nil => rfl
  | cons s r ih => simp [stripStL, ih]

theorem scrubStL_eq_map (l : List St) : scrubStL l = l.map scrubSt := by
  induction l with
  | nil => rfl
  | cons s r ih => simp [scrubStL, ih]

theorem flagsClearStL_eq_all (l : List St) : flagsClearStL l = l.all flagsClearSt := by
  induction l with
  | nil => rfl
  | cons s r ih => simp [flagsClearStL, ih, List.all_cons]

theorem stripAuto_states (a : Automaton) : (stripAuto a).states = stripStL a.states := by
  cases a; rfl

theorem stripAuto_matchIdx (a : Automaton) : (stripAuto a).matchIdx = a.matchIdx := by
  cases a; rfl

theorem stripAuto_failIdx (a : Automaton) : (stripAuto a).failIdx = a.failIdx := by
  cases a; rfl

theorem scrubAuto_states (a : Automaton) : (scrubAuto a).states = scrubStL a.states := by
  cases a; rfl

theorem scrubAuto_matchIdx (a : Automaton) : (scrubAuto a).matchIdx = a.matchIdx := by
  cases a; rfl

theorem scrubAuto_failIdx (a : Automaton) : (scrubAuto a).failIdx = a.failIdx := by
  cases a; rfl

theorem stripSt_dflt : stripSt dfltSt = dfltSt := rfl

theorem scrubSt_dflt : scrubSt dfltSt = dfltSt := rfl

/-- Lists with equal images under a function have equal images of
their `getD` entries. -/
theorem map_getD_congr {α β : Type} (f : α → β) (d : α) :
    ∀ (l1 l2 : List α), l1.map f = l2.map f →
      ∀ i, f (l1.getD i d) = f (l2.getD i d) := by
  intro l1 l2 hmap i
  have h1 : (l1.map f)[i]? = (l2.map f)[i]? := by rw [hmap]
  rw [List.getElem?_map, List.getElem?_map] at h1
  rw [List.getD_eq_getElem?_getD, List.getD_eq_getElem?_getD]
  cases e1 : l1[i]? with
  | none =>
    cases e2 : l2[i]? with
    | none => simp
    | some y => rw [e1, e2] at h1; cases h1
  | some x =>
    cases e2 : l2[i]? with
    | none => rw [e1, e2] at h1; cases h1
    | some y =>
      rw [e1, e2] at h1
      simpa using h1

/-- Strip-equal automata have strip-equal states at every index. -/
theorem stripSt_getSt {a b : Automaton} (h : stripAuto a = stripAuto b) (i : Nat) :
    stripSt (a.getSt i) = stripSt (b.getSt i) := by
  have hs : stripStL a.states = stripStL b.states := by
    have h2 := congrArg Automaton.states h
    rwa [stripAuto_states, stripAuto_states] at h2
  rw [stripStL_eq_map, stripStL_eq_map] at hs
  exact map_getD_congr stripSt dfltSt a.states b.states hs i

/-- Scrub-equal automata have scrub-equal states at every index. -/
theorem scrubSt_getSt {a b : Automaton} (h : scrubAuto a = scrubAuto b) (i : Nat) :
    scrubSt (a.getSt i) = scrubSt (b.getSt i) := by
  have hs : scrubStL a.states = scrubStL b.states := by
    have h2 := congrArg Automaton.states h
    rwa [scrubAuto_states, scrubAuto_states] at h2
  rw [scrubStL_eq_map, scrubStL_eq_map] at hs
  exact map_getD_congr scrubSt dfltSt a.states b.states hs i

/-! ## How the interpreter's mutations interact with the erasures -/

theorem getD_map {α β : Type} (f : α → β) (l : List α) (i : Nat) (d : α) :
    (l.map f).getD i (f d) = f (l.getD i d) := by
  induction l generalizing i with
  | nil => rfl
  | cons x r ih =>
    cases i with
    | zero => rfl
    | succ j => simpa using ih j

theorem set_getD {α : Type} (l : List α) (i : Nat) (d : α) :
    l.set i (l.getD i d) = l := by
  induction l generalizing i with
  | nil => rfl
  | cons x r ih =>
    cases i with
    | zero => rfl
    | succ j => simpa using ih j

theorem all_getD {α : Type} (p : α → Bool) (l : List α) (i : Nat) (d : α)
    (hl : l.all p = true) (hd : p d = true) : p (l.getD i d) = true := by
  induction l generalizing i with
  | nil => exact hd
  | cons x r ih =>
    rw [List.all_cons, Bool.and_eq_true] at hl
    cases i with
    | zero => exact hl.1
    | succ j => exact ih j hl.2

theorem all_set {α : Type} (p : α → Bool) (l : List α) (i : Nat) (x : α)
    (hl : l.all p = true) (hx : p x = true) : (l.set i x).all p = true := by
  induction l generalizing i with
  | nil => exact hl
  | cons y r ih =>
    rw [List.all_cons, Bool.and_eq_true] at hl
    cases i with
    | zero =>
      show (x :: r).all p = true
      rw [List.all_cons, Bool.and_eq_true]
      exact ⟨hx, hl.2⟩
    | succ j =>
      show (y :: r.set j x).all p = true
      rw [List.all_cons, Bool.and_eq_true]
      exact ⟨hl.1, ih j hl.2⟩

/-- `scrubSt` ignores the matched string. -/
theorem scrubSt_putStr (st : St) (str : List Char) :
    scrubSt (.mk st.kind st.next str) = scrubSt st := by
  cases st; rfl

theorem stripSt_putStr (st : St) (str : List Char) :
    stripSt (.mk st.kind st.next str) = stripSt st := by
  cases st; rfl

theorem scrubAuto_setSt (a : Automaton) (i : Nat) (st : St) :
    scrubAuto (a.setSt i st) =
      .mk (scrubStL a.states |>.set i (scrubSt st)) a.matchIdx a.failIdx := by
  cases a with
  | mk sts m f =>
    show scrubAuto (.mk (sts.set i st) m f) = _
    simp [scrubAuto, Automaton.states, Automaton.matchIdx, Automaton.failIdx,
      scrubStL_eq_map, List.map_set]

theorem stripAuto_setSt (a : Automaton) (i : Nat) (st : St) :
    stripAuto (a.setSt i st) =
      .mk (stripStL a.states |>.set i (stripSt st)) a.matchIdx a.failIdx := by
  cases a with
  | mk sts m f =>
    show stripAuto (.mk (sts.set i st) m f) = _
    simp [stripAuto, Automaton.states, Automaton.matchIdx, Automaton.failIdx,
      stripStL_eq_map, List.map_set]

/-- Writing a matched string is invisible to `scrub`. -/
theorem scrubAuto_putStr (a : Automaton) (i : Nat) (str : List Char) :
    scrubAuto (a.putStr i str) = scrubAuto a := by
  unfold Automaton.putStr
  rw [scrubAuto_setSt]
  rw [show scrubSt (.mk (a.getSt i).kind (a.getSt i).next str) = scrubSt (a.getSt i) from
    scrubSt_putStr _ _]
  unfold Automaton.getSt
  rw [scrubStL_eq_map]
  rw [show scrubSt (a.states.getD i dfltSt) =
    (a.states.map scrubSt).getD i (scrubSt dfltSt) from (getD_map scrubSt a.states i dfltSt).symm]
  rw [set_getD, ← scrubStL_eq_map]
  cases a; rfl

/-- Writing a matched string is invisible to `strip`. -/
theorem stripAuto_putStr (a : Automaton) (i : Nat) (str : List Char) :
    stripAuto (a.putStr i str) = stripAuto a := by
  unfold Automaton.putStr
  rw [stripAuto_setSt]
  rw [show stripSt (.mk (a.getSt i).kind (a.getSt i).next str) = stripSt (a.getSt i) from
    stripSt_putStr _ _]
  unfold Automaton.getSt
  rw [stripStL_eq_map]
  rw [show stripSt (a.states.getD i dfltSt) =
    (a.states.map stripSt).getD i (stripSt dfltSt) from (getD_map stripSt a.states i dfltSt).symm]
  rw [set_getD, ← stripStL_eq_map]
  cases a; rfl

/-- Replacing a group state's sub-automata and flag is invisible to
`scrub` as long as the new sub-automata scrub to the same value. -/
theorem scrubAuto_putGroup {a : Automaton} {i : Nat} {t subs m1}
    (hk : (a.getSt i).kind = .sgroup t subs m1) {subs2 : List Automaton} (m1' : Bool)
    (hsub : scrubAL subs2 = scrubAL subs) :
    scrubAuto (a.putGroup i subs2 m1') = scrubAuto a := by
  unfold Automaton.putGroup
  rw [hk]
  rw [scrubAuto_setSt]
  have he : scrubSt (.mk (.sgroup t subs2 m1') (a.getSt i).next (a.getSt i).matchedStr) =
      scrubSt (a.getSt i) := by
    cases hsg : a.getSt i with
    | mk k n ms =>
      rw [hsg] at hk
      simp [St.kind] at hk
      subst hk
      simp [scrubSt, scrubKind, St.next, St.matchedStr, hsub]
  rw [he]
  unfold Automaton.getSt
  rw [scrubStL_eq_map]
  rw [show scrubSt (a.states.getD i dfltSt) =
    (a.states.map scrubSt).getD i (scrubSt dfltSt) from (getD_map scrubSt a.states i dfltSt).symm]
  rw [set_getD, ← scrubStL_eq_map]
  cases a; rfl

/-- `ResetStates` only touches flags: invisible to `scrub`. -/
theorem scrubAuto_reset (a : Automaton) : scrubAuto (resetStatesTop a) = scrubAuto a := by
  cases a with
  | mk sts m f =>
    show scrubAuto (.mk (sts.map St.resetSt) m f) = _
    have : ∀ st, scrubSt (St.resetSt st) = scrubSt st := by
      intro st
      cases st with
      | mk k n ms => cases k <;> rfl
    simp [scrubAuto, scrubStL_eq_map, Automaton.states, this, Function.comp]

/-- `ResetStates` commutes with `strip`. -/
theorem stripSt_reset (st : St) : stripSt (St.resetSt st) = St.resetSt (stripSt st) := by
  cases st with
  | mk k n ms => cases k <;> rfl

theorem stripAuto_reset (a : Automaton) :
    stripAuto (resetStatesTop a) = resetStatesTop (stripAuto a) := by
  cases a with
  | mk sts m f =>
    show stripAuto (.mk (sts.map St.resetSt) m f) = resetStatesTop (.mk (stripStL sts) m f)
    show Automaton.mk (stripStL (sts.map St.resetSt)) m f =
      .mk ((stripStL sts).map St.resetSt) m f
    rw [stripStL_eq_map, stripStL_eq_map, List.map_map, List.map_map]
    have : List.map (stripSt ∘ St.resetSt) sts = List.map (St.resetSt ∘ stripSt) sts :=
      List.map_congr_left fun st _ => stripSt_reset st
    rw [this]

/-- A fully flag-clear automaton is in particular subs-clear. -/
theorem flagsClear_to_subsClear {a : Automaton} (h : flagsClearB a = true) :
    subsClearB a = true := by
  cases a with
  | mk sts m f =>
    show sts.all subsClearSt = true
    have h2 : flagsClearStL sts = true := h
    rw [flagsClearStL_eq_all] at h2
    rw [List.all_eq_true] at h2 ⊢
    intro st hst
    have h3 := h2 st hst
    cases st with
    | mk k n ms =>
      cases k with
      | sgroup t subs m1 =>
        simp [flagsClearSt, Bool.and_eq_true] at h3
        simp [subsClearSt, St.kind]
        exact h3.2
      | _ => rfl

/-- After `ResetStates`, a subs-clear automaton is fully flag-clear. -/
theorem flagsClear_reset {a : Automaton} (h : subsClearB a = true) :
    flagsClearB (resetStatesTop a) = true := by
  cases a with
  | mk sts m f =>
    show flagsClearStL (sts.map St.resetSt) = true
    rw [flagsClearStL_eq_all, List.all_eq_true]
    intro st hst
    rw [List.mem_map] at hst
    obtain ⟨st0, hst0, rfl⟩ := hst
    have h2 : subsClearSt st0 = true := by
      have := (List.all_eq_true.mp h) st0 hst0
      exact this
    cases st0 with
    | mk k n ms =>
      cases k with
      | sgroup t subs m1 =>
        simp [subsClearSt, St.kind] at h2
        simp [St.resetSt, flagsClearSt, h2]
      | _ => rfl

/-- `putStr` does not affect subs-clearness. -/
theorem subsClear_putStr {a : Automaton} (h : subsClearB a = true) (i : Nat)
    (str : List Char) : subsClearB (a.putStr i str) = true := by
  unfold Automaton.putStr Automaton.setSt
  show (a.states.set i _).all subsClearSt = true
  refine all_set _ _ _ _ h ?_
  have h2 : subsClearSt (a.getSt i) = true := by
    refine all_getD _ _ _ _ h rfl
  cases hsg : a.getSt i with
  | mk k n ms =>
    rw [hsg] at h2
    cases k <;> simpa [subsClearSt, St.kind] using h2

/-- `putGroup` keeps subs-clearness when the new sub-automata are
flag-clear. -/
theorem subsClear_putGroup {a : Automaton} (h : subsClearB a = true) (i : Nat)
    {subs2 : List Automaton} (hsub : flagsClearAL subs2 = true) (m1' : Bool) :
    subsClearB (a.putGroup i subs2 m1') = true := by
  unfold Automaton.putGroup
  cases hk : (a.getSt i).kind with
  | sgroup t subs m1 =>
    unfold Automaton.setSt
    show (a.states.set i _).all subsClearSt = true
    refine all_set _ _ _ _ h ?_
    simp [subsClearSt, St.kind, hsub]
  | _ => exact h

/-! ## What one interpreter step can change

The interpreter only ever writes matched strings and `match_one_`
flags (`scrub` of every automaton it returns equals `scrub` of the
input), and it maintains the invariant that the sub-automata stored in
group states are fully flag-clear (each `BasicCheck` runs them through
`Exec`, which ends in `ResetStates`). -/

theorem subsClear_group_flags {a : Automaton} {i : Nat} {t subs m1}
    (h : subsClearB a = true) (hk : (a.getSt i).kind = .sgroup t subs m1) :
    flagsClearAL subs = true := by
  have h2 : subsClearSt (a.getSt i) = true := all_getD _ _ i _ h rfl
  unfold subsClearSt at h2
  rw [hk] at h2
  exact h2

def EngOK : EngQ → EngR → Prop
  | .qRun a _ _ _, .rTrip _ _ a' =>
      scrubAuto a' = scrubAuto a ∧ (subsClearB a = true → subsClearB a' = true)
  | .qNext a _ _ _, .rTrip _ _ a' =>
      scrubAuto a' = scrubAuto a ∧ (subsClearB a = true → subsClearB a' = true)
  | .qCheck a _ _ _, .rChk _ a' =>
      scrubAuto a' = scrubAuto a ∧ (subsClearB a = true → subsClearB a' = true)
  | .qBasic subs _ _, .rBas _ _ subs' =>
      scrubAL subs' = scrubAL subs ∧ (flagsClearAL subs = true → flagsClearAL subs' = true)
  | .qExec a _ _, .rExe _ _ a' =>
      scrubAuto a' = scrubAuto a ∧ (subsClearB a = true → subsClearB a' = true)
  | _, _ => False

theorem engineScrub : ∀ f q r, engine f q = some r → EngOK q r := by
  intro f
  induction f with
  | zero => intro q r h; simp [engine] at h
  | succ n ih =>
    intro q r h
    cases q with
    | qRun a s sp pp =>
      simp only [engine] at h
      split at h
      · cases h
        exact ⟨rfl, fun hc => hc⟩
      · cases h1 : engine n (.qNext a sp s pp) with
        | none => rw [h1] at h; cases h
        | some x =>
          rw [h1] at h
          have ih1 := ih _ _ h1
          cases x with
          | rTrip sp2 pp2 a2 =>
            have ih2 := ih _ _ h
            cases hr : r with
            | rTrip sp3 pp3 a3 =>
              rw [hr] at ih2
              obtain ⟨hs2, hf2⟩ := ih2
              obtain ⟨hs1, hf1⟩ := ih1
              exact ⟨hs2.trans hs1, fun hc => hf2 (hf1 hc)⟩
            | rChk b a3 => rw [hr] at ih2; exact ih2.elim
            | rBas b q2 subs2 => rw [hr] at ih2; exact ih2.elim
            | rExe b p a3 => rw [hr] at ih2; exact ih2.elim
          | rChk b a2 => cases h
          | rBas b q2 subs2 => cases h
          | rExe b p a2 => cases h
    | qNext a idx s pos =>
      simp only [engine] at h
      cases hk : (a.getSt idx).kind <;> simp only [hk] at h
      case smatch => cases h; exact ⟨rfl, fun hc => hc⟩
      case sfail => cases h; exact ⟨rfl, fun hc => hc⟩
      case schar c =>
        split at h <;> cases h
        · exact ⟨scrubAuto_putStr _ _ _, fun hc => subsClear_putStr hc _ _⟩
        · exact ⟨rfl, fun hc => hc⟩
      case sany =>
        cases h
        exact ⟨scrubAuto_putStr _ _ _, fun hc => subsClear_putStr hc _ _⟩
      case sstar =>
        split at h
        · cases h
          exact ⟨scrubAuto_putStr _ _ _, fun hc => subsClear_putStr hc _ _⟩
        · cases h1 : engine n (.qCheck a ((a.getSt idx).next.getD 1 0) s pos) with
          | none => rw [h1] at h; cases h
          | some x =>
            rw [h1] at h
            have ih1 := ih _ _ h1
            cases x with
            | rChk res a1 =>
              obtain ⟨hs1, hf1⟩ := ih1
              try simp only [] at h
              split at h <;> cases h
              · exact ⟨hs1, hf1⟩
              · refine ⟨(scrubAuto_putStr _ _ _).trans hs1, fun hc => subsClear_putStr (hf1 hc) _ _⟩
            | rTrip sp2 pp2 a2 => cases h
            | rBas b q2 subs2 => cases h
            | rExe b p a2 => cases h
      case sset items neg =>
        split at h <;> cases h
        · exact ⟨scrubAuto_putStr _ _ _, fun hc => subsClear_putStr hc _ _⟩
        · exact ⟨rfl, fun hc => hc⟩
      case sgroup t subs m1 =>
        cases h1 : engine n (.qBasic subs (List.drop pos s) (decide (pos = 0))) with
        | none => rw [h1] at h; cases h
        | some x =>
          rw [h1] at h
          have ih1 := ih _ _ h1
          cases x with
          | rBas r1 q2 subs2 =>
            obtain ⟨hs1, hf1⟩ := ih1
            try simp only [] at h
            have hput : scrubAuto (a.putGroup idx subs2 m1) = scrubAuto a :=
              scrubAuto_putGroup hk m1 hs1
            have hputT : scrubAuto (a.putGroup idx subs2 true) = scrubAuto a :=
              scrubAuto_putGroup hk true hs1
            have hflag : subsClearB a = true → subsClearB (a.putGroup idx subs2 m1) = true := by
              intro hc
              exact subsClear_putGroup hc idx (hf1 (subsClear_group_flags hc hk)) m1
            have hflagT : subsClearB a = true → subsClearB (a.putGroup idx subs2 true) = true := by
              intro hc
              exact subsClear_putGroup hc idx (hf1 (subsClear_group_flags hc hk)) true
            cases t
            case gbasic =>
              try simp only [] at h
              split at h <;> cases h
              · exact ⟨(scrubAuto_putStr _ _ _).trans hput,
                  fun hc => subsClear_putStr (hflag hc) _ _⟩
              · exact ⟨hput, hflag⟩
            case gat =>
              try simp only [] at h
              split at h <;> cases h
              · exact ⟨(scrubAuto_putStr _ _ _).trans hput,
                  fun hc => subsClear_putStr (hflag hc) _ _⟩
              · exact ⟨hput, hflag⟩
            case gany =>
              try simp only [] at h
              split at h <;> cases h
              · exact ⟨(scrubAuto_putStr _ _ _).trans hput,
                  fun hc => subsClear_putStr (hflag hc) _ _⟩
              · exact ⟨hput, hflag⟩
            case gstar =>
              try simp only [] at h
              split at h
              · split at h <;> cases h <;>
                  exact ⟨(scrubAuto_putStr _ _ _).trans hput,
                    fun hc => subsClear_putStr (hflag hc) _ _⟩
              · cases h
                exact ⟨hput, hflag⟩
            case gneg =>
              try simp only [] at h
              split at h <;> cases h
              · exact ⟨(scrubAuto_putStr _ _ _).trans hput,
                  fun hc => subsClear_putStr (hflag hc) _ _⟩
              · exact ⟨hput, hflag⟩
            case gplus =>
              try simp only [] at h
              split at h
              · split at h <;> cases h <;>
                  exact ⟨(scrubAuto_putStr _ _ _).trans hputT,
                    fun hc => subsClear_putStr (hflagT hc) _ _⟩
              · cases h2 : engine n (.qCheck (a.putGroup idx subs2 m1)
                    ((a.getSt idx).next.getD 1 0) s pos) with
                | none => rw [h2] at h; cases h
                | some y =>
                  rw [h2] at h
                  have ih2 := ih _ _ h2
                  cases y with
                  | rChk res a2 =>
                    obtain ⟨hs2, hf2⟩ := ih2
                    try simp only [] at h
                    split at h <;> try split at h
                    all_goals cases h
                    all_goals exact ⟨hs2.trans hput, fun hc => hf2 (hflag hc)⟩
                  | rTrip sp2 pp2 a2 => cases h
                  | rBas b q3 subs3 => cases h
                  | rExe b p a2 => cases h
          | rTrip sp2 pp2 a2 => cases h
          | rChk b a2 => cases h
          | rExe b p a2 => cases h
    | qCheck a idx s pos =>
      simp only [engine] at h
      cases hk : (a.getSt idx).kind <;> simp only [hk] at h
      case smatch => cases h; exact ⟨rfl, fun hc => hc⟩
      case sfail => cases h; exact ⟨rfl, fun hc => hc⟩
      case schar c => cases h; exact ⟨rfl, fun hc => hc⟩
      case sany => cases h; exact ⟨rfl, fun hc => hc⟩
      case sstar => cases h; exact ⟨rfl, fun hc => hc⟩
      case sset items neg => cases h; exact ⟨rfl, fun hc => hc⟩
      case sgroup t subs m1 =>
        cases h1 : engine n (.qBasic subs (List.drop pos s) (decide (pos = 0))) with
        | none => rw [h1] at h; cases h
        | some x =>
          rw [h1] at h
          have ih1 := ih _ _ h1
          cases x with
          | rBas r1 q2 subs2 =>
            obtain ⟨hs1, hf1⟩ := ih1
            try simp only [] at h
            cases h
            refine ⟨scrubAuto_putGroup hk m1 hs1, fun hc => ?_⟩
            exact subsClear_putGroup hc idx (hf1 (subsClear_group_flags hc hk)) m1
          | rTrip sp2 pp2 a2 => cases h
          | rChk b a2 => cases h
          | rExe b p a2 => cases h
    | qBasic subs sp ce =>
      cases subs with
      | nil =>
        simp only [engine] at h
        cases h
        exact ⟨rfl, fun hc => hc⟩
      | cons sub rest =>
        simp only [engine] at h
        cases h1 : engine n (.qExec sub sp ce) with
        | none => rw [h1] at h; cases h
        | some x =>
          rw [h1] at h
          have ih1 := ih _ _ h1
          cases x with
          | rExe r1 q2 sub2 =>
            obtain ⟨hs1, hf1⟩ := ih1
            try simp only [] at h
            have hscrub3 : scrubAuto (resetStatesTop sub2) = scrubAuto sub :=
              (scrubAuto_reset sub2).trans hs1
            have hflags3 : flagsClearAL (sub :: rest) = true →
                flagsClearB (resetStatesTop sub2) = true := by
              intro hc
              rw [flagsClearAL_cons, Bool.and_eq_true] at hc
              exact flagsClear_reset (hf1 (flagsClear_to_subsClear hc.1))
            have hrest : flagsClearAL (sub :: rest) = true → flagsClearAL rest = true := by
              intro hc
              rw [flagsClearAL_cons, Bool.and_eq_true] at hc
              exact hc.2
            split at h
            · cases h
              constructor
              · rw [scrubAL_cons, scrubAL_cons, hscrub3]
              · intro hc
                rw [flagsClearAL_cons, hflags3 hc, hrest hc]
                rfl
            · cases h2 : engine n (.qBasic rest sp ce) with
              | none => rw [h2] at h; cases h
              | some y =>
                rw [h2] at h
                have ih2 := ih _ _ h2
                cases y with
                | rBas r2 q3 rest2 =>
                  obtain ⟨hs2, hf2⟩ := ih2
                  cases h
                  constructor
                  · rw [scrubAL_cons, scrubAL_cons, hscrub3, hs2]
                  · intro hc
                    rw [flagsClearAL_cons, hflags3 hc, hf2 (hrest hc)]
                    rfl
                | rTrip sp2 pp2 a2 => cases h
                | rChk b a2 => cases h
                | rExe b p a2 => cases h
          | rTrip sp2 pp2 a2 => cases h
          | rChk b a2 => cases h
          | rBas b q3 subs3 => cases h
    | qExec a s ce =>
      simp only [engine] at h
      cases h1 : engine n (.qRun a s 0 0) with
      | none => rw [h1] at h; cases h
      | some x =>
        rw [h1] at h
        have ih1 := ih _ _ h1
        cases x with
        | rTrip sp pp a1 =>
          obtain ⟨hs1, hf1⟩ := ih1
          try simp only [] at h
          split at h
          · rcases ite_eq_iff.mp h with ⟨hc, he⟩ | ⟨hc, he⟩ <;> (cases he; exact ⟨hs1, hf1⟩)
          · cases h
            exact ⟨hs1, hf1⟩
        | rChk b a2 => cases h
        | rBas b q2 subs2 => cases h
        | rExe b p a2 => cases h

/-! ## Noninterference of stored matched strings

The verdict of a run depends only on the `strip` projection of the
automaton (structure plus `match_one_` flags): the stored matched
strings are write-only as far as control flow is concerned. -/

theorem stripSt_next (st : St) : (stripSt st).next = st.next := by
  cases st; rfl

theorem stripSt_kind (st : St) : (stripSt st).kind = stripKind st.kind := by
  cases st; rfl

theorem stripKind_tag (k : StKind) : (stripKind k).tag = k.tag := by
  cases k <;> rfl

theorem stripKind_smatch {k : StKind} (h : stripKind k = .smatch) : k = .smatch := by
  cases k <;> simp_all [stripKind]

theorem stripKind_sfail {k : StKind} (h : stripKind k = .sfail) : k = .sfail := by
  cases k <;> simp_all [stripKind]

theorem stripKind_schar {k : StKind} {c : Char} (h : stripKind k = .schar c) :
    k = .schar c := by
  cases k <;> simp_all [stripKind]

theorem stripKind_sany {k : StKind} (h : stripKind k = .sany) : k = .sany := by
  cases k <;> simp_all [stripKind]

theorem stripKind_sstar {k : StKind} (h : stripKind k = .sstar) : k = .sstar := by
  cases k <;> simp_all [stripKind]

theorem stripKind_sset {k : StKind} {items neg} (h : stripKind k = .sset items neg) :
    k = .sset items neg := by
  cases k <;> simp_all [stripKind]

theorem stripKind_sgroup {k : StKind} {t subs2 m1} (h : stripKind k = .sgroup t subs2 m1) :
    ∃ subs, k = .sgroup t subs m1 ∧ stripAL subs = subs2 := by
  cases k <;> simp_all [stripKind]

theorem stripAL_cons (a : Automaton) (l : List Automaton) :
    stripAL (a :: l) = stripAuto a :: stripAL l := by
  simp [stripAL]

/-- The automaton components the interpreter branches on, extracted
from a strip equality. -/
theorem strip_pack {a b : Automaton} (h : stripAuto a = stripAuto b) :
    a.failIdx = b.failIdx ∧ a.matchIdx = b.matchIdx ∧
    (∀ i, (a.getSt i).next = (b.getSt i).next) ∧
    (∀ i, stripKind (a.getSt i).kind = stripKind (b.getSt i).kind) ∧
    (∀ i, (a.getSt i).kind.tag = (b.getSt i).kind.tag) := by
  refine ⟨?_, ?_, ?_, ?_, ?_⟩
  · have h2 := congrArg Automaton.failIdx h
    rwa [stripAuto_failIdx, stripAuto_failIdx] at h2
  · have h2 := congrArg Automaton.matchIdx h
    rwa [stripAuto_matchIdx, stripAuto_matchIdx] at h2
  · intro i
    have h2 := congrArg St.next (stripSt_getSt h i)
    rwa [stripSt_next, stripSt_next] at h2
  · intro i
    have h2 := congrArg St.kind (stripSt_getSt h i)
    rwa [stripSt_kind, stripSt_kind] at h2
  · intro i
    have h2 := congrArg St.kind (stripSt_getSt h i)
    rw [stripSt_kind, stripSt_kind] at h2
    have h3 := congrArg StKind.tag h2
    rwa [stripKind_tag, stripKind_tag] at h3

/-- Replacing the sub-automata of matching group states keeps two
automata strip-equal as long as the new sub-lists are strip-equal. -/
theorem stripAuto_putGroup_congr {a b : Automaton} {i : Nat} {t : GType}
    {subsA subsB : List Automaton} {mA mB : Bool}
    (h : stripAuto a = stripAuto b)
    (hka : (a.getSt i).kind = .sgroup t subsA mA)
    (hkb : (b.getSt i).kind = .sgroup t subsB mB)
    {subsA2 subsB2 : List Automaton} (hsubs : stripAL subsA2 = stripAL subsB2) (m : Bool) :
    stripAuto (a.putGroup i subsA2 m) = stripAuto (b.putGroup i subsB2 m) := by
  obtain ⟨_, _, hnext, _, _⟩ := strip_pack h
  unfold Automaton.putGroup
  rw [hka, hkb]
  rw [stripAuto_setSt, stripAuto_setSt]
  have hstL : stripStL a.states = stripStL b.states := by
    have h2 := congrArg Automaton.states h
    rwa [stripAuto_states, stripAuto_states] at h2
  have hmi : a.matchIdx = b.matchIdx := by
    have h2 := congrArg Automaton.matchIdx h
    rwa [stripAuto_matchIdx, stripAuto_matchIdx] at h2
  have hfi : a.failIdx = b.failIdx := by
    have h2 := congrArg Automaton.failIdx h
    rwa [stripAuto_failIdx, stripAuto_failIdx] at h2
  have hst : stripSt (.mk (.sgroup t subsA2 m) (a.getSt i).next (a.getSt i).matchedStr) =
      stripSt (.mk (.sgroup t subsB2 m) (b.getSt i).next (b.getSt i).matchedStr) := by
    show St.mk (stripKind (.sgroup t subsA2 m)) (a.getSt i).next [] =
      St.mk (stripKind (.sgroup t subsB2 m)) (b.getSt i).next []
    rw [hnext i]
    show St.mk (.sgroup t (stripAL subsA2) m) _ [] = St.mk (.sgroup t (stripAL subsB2) m) _ []
    rw [hsubs]
  rw [hstL, hmi, hfi, hst]

/-- The strip projection of an interpreter request. -/
def stripQ : EngQ → EngQ
  | .qRun a s sp pp => .qRun (stripAuto a) s sp pp
  | .qNext a idx s pos => .qNext (stripAuto a) idx s pos
  | .qCheck a idx s pos => .qCheck (stripAuto a) idx s pos
  | .qBasic subs sp ce => .qBasic (stripAL subs) sp ce
  | .qExec a s ce => .qExec (stripAuto a) s ce

/-- The strip projection of an interpreter result. -/
def stripR : EngR → EngR
  | .rTrip sp pp a => .rTrip sp pp (stripAuto a)
  | .rChk b a => .rChk b (stripAuto a)
  | .rBas b q subs => .rBas b q (stripAL subs)
  | .rExe b q a => .rExe b q (stripAuto a)

/-- Strip-equal results are the same constructor with the same
non-automaton data and strip-equal automata. -/
theorem stripR_rel {r1 r2 : EngR} (h : stripR r1 = stripR r2) :
    (∃ sp pp a1 a2, r1 = .rTrip sp pp a1 ∧ r2 = .rTrip sp pp a2 ∧
      stripAuto a1 = stripAuto a2) ∨
    (∃ b a1 a2, r1 = .rChk b a1 ∧ r2 = .rChk b a2 ∧ stripAuto a1 = stripAuto a2) ∨
    (∃ b q l1 l2, r1 = .rBas b q l1 ∧ r2 = .rBas b q l2 ∧ stripAL l1 = stripAL l2) ∨
    (∃ b q a1 a2, r1 = .rExe b q a1 ∧ r2 = .rExe b q a2 ∧ stripAuto a1 = stripAuto a2) := by
  cases r1 <;> cases r2 <;> simp only [stripR] at h <;> try (cases h)
  case rTrip.rTrip sp pp a1 sp2 pp2 a2 =>
    injection h with h1 h2 h3
    subst h1; subst h2
    exact Or.inl ⟨sp, pp, a1, a2, rfl, rfl, h3⟩
  case rChk.rChk b a1 b2 a2 =>
    injection h with h1 h2
    subst h1
    exact Or.inr (Or.inl ⟨b, a1, a2, rfl, rfl, h2⟩)
  case rBas.rBas b q l1 b2 q2 l2 =>
    injection h with h1 h2 h3
    subst h1; subst h2
    exact Or.inr (Or.inr (Or.inl ⟨b, q, l1, l2, rfl, rfl, h3⟩))
  case rExe.rExe b q a1 b2 q2 a2 =>
    injection h with h1 h2 h3
    subst h1; subst h2
    exact Or.inr (Or.inr (Or.inr ⟨b, q, a1, a2, rfl, rfl, h3⟩))

theorem relOpt_cases {o1 o2 : Option EngR} (h : o1.map stripR = o2.map stripR) :
    (o1 = none ∧ o2 = none) ∨
    ∃ r1 r2, o1 = some r1 ∧ o2 = some r2 ∧ stripR r1 = stripR r2 := by
  cases o1 with
  | none =>
    cases o2 with
    | none => exact Or.inl ⟨rfl, rfl⟩
    | some r2 => simp only [Option.map_none', Option.map_some'] at h; cases h
  | some r1 =>
    cases o2 with
    | none => simp only [Option.map_none', Option.map_some'] at h; cases h
    | some r2 =>
      simp only [Option.map_some'] at h
      exact Or.inr ⟨r1, r2, rfl, rfl, Option.some.inj h⟩

theorem map_strip_ite {c : Prop} [Decidable c] {o1 o2 o1' o2' : Option EngR}
    (hx : o1.map stripR = o2.map stripR) (hy : Option.map stripR o1' = Option.map stripR o2') :
    (if c then o1 else o1').map stripR = (if c then o2 else o2').map stripR := by
  split
  · exact hx
  · exact hy

theorem engineStrip : ∀ f q1 q2, stripQ q1 = stripQ q2 →
    (engine f q1).map stripR = (engine f q2).map stripR := by
  intro f
  induction f with
  | zero => intro q1 q2 hq; simp [engine]
  | succ n ih =>
    intro q1 q2 hq
    cases q1 <;> cases q2 <;> simp only [stripQ] at hq <;> try (cases hq)
    case qRun.qRun a1 s sp pp a2 s2 sp2 pp2 =>
      injection hq with hA h1 h2 h3
      subst h1; subst h2; subst h3
      obtain ⟨hfail, hmatch, hnext, hkind, htag⟩ := strip_pack hA
      simp only [engine]
      rw [hfail, hmatch]
      by_cases hc : sp = a2.failIdx ∨ sp = a2.matchIdx ∨ s.length ≤ pp
      · rw [if_pos hc, if_pos hc]
        simp only [Option.map_some', stripR]
        rw [hA]
      · rw [if_neg hc, if_neg hc]
        rcases relOpt_cases (ih (.qNext a1 sp s pp) (.qNext a2 sp s pp)
            (by simp only [stripQ, hA])) with ⟨e1, e2⟩ | ⟨r1, r2, e1, e2, hrr⟩
        · rw [e1, e2]
        · rw [e1, e2]
          rcases stripR_rel hrr with ⟨sp3, pp3, b1, b2, rfl, rfl, hB⟩ |
            ⟨b, b1, b2, rfl, rfl, hB⟩ | ⟨b, q, l1, l2, rfl, rfl, hB⟩ |
            ⟨b, q, b1, b2, rfl, rfl, hB⟩
          · exact ih (.qRun b1 s sp3 pp3) (.qRun b2 s sp3 pp3) (by simp only [stripQ, hB])
          · rfl
          · rfl
          · rfl
    case qNext.qNext a1 idx s pos a2 idx2 s2 pos2 =>
      injection hq with hA h1 h2 h3
      subst h1; subst h2; subst h3
      obtain ⟨hfail, hmatch, hnext, hkind, htag⟩ := strip_pack hA
      simp only [engine]
      have hkk := hkind idx
      cases hk1 : (a1.getSt idx).kind
      case smatch =>
        rw [hk1] at hkk
        have hk2 := stripKind_smatch hkk.symm
        simp only [hk1, hk2, Option.map_some', stripR]
        rw [hA]
      case sfail =>
        rw [hk1] at hkk
        have hk2 := stripKind_sfail hkk.symm
        simp only [hk1, hk2, Option.map_some', stripR]
        rw [hA]
      case schar c =>
        rw [hk1] at hkk
        have hk2 := stripKind_schar hkk.symm
        simp only [hk1, hk2]
        refine map_strip_ite ?_ ?_
        · simp only [Option.map_some', stripR]
          rw [stripAuto_putStr, stripAuto_putStr, hA, hnext idx]
        · simp only [Option.map_some', stripR]
          rw [hA, hfail]
      case sany =>
        rw [hk1] at hkk
        have hk2 := stripKind_sany hkk.symm
        simp only [hk1, hk2, Option.map_some', stripR]
        rw [stripAuto_putStr, stripAuto_putStr, hA, hnext idx]
      case sstar =>
        rw [hk1] at hkk
        have hk2 := stripKind_sstar hkk.symm
        simp only [hk1, hk2]
        rw [hnext idx, htag ((a2.getSt idx).next.getD 1 0)]
        refine map_strip_ite ?_ ?_
        · simp only [Option.map_some', stripR]
          rw [stripAuto_putStr, stripAuto_putStr, hA]
        · rcases relOpt_cases (ih (.qCheck a1 ((a2.getSt idx).next.getD 1 0) s pos)
              (.qCheck a2 ((a2.getSt idx).next.getD 1 0) s pos)
              (by simp only [stripQ, hA])) with ⟨e1, e2⟩ | ⟨r1, r2, e1, e2, hrr⟩
          · rw [e1, e2]
          · rw [e1, e2]
            rcases stripR_rel hrr with ⟨sp3, pp3, b1, b2, rfl, rfl, hB⟩ |
              ⟨b, b1, b2, rfl, rfl, hB⟩ | ⟨b, q, l1, l2, rfl, rfl, hB⟩ |
              ⟨b, q, b1, b2, rfl, rfl, hB⟩
            · rfl
            · refine map_strip_ite ?_ ?_
              · simp only [Option.map_some', stripR]
                rw [hB]
              · simp only [Option.map_some', stripR]
                rw [stripAuto_putStr, stripAuto_putStr, hB]
            · rfl
            · rfl
      case sset items neg =>
        rw [hk1] at hkk
        have hk2 := stripKind_sset hkk.symm
        simp only [hk1, hk2]
        refine map_strip_ite ?_ ?_
        · simp only [Option.map_some', stripR]
          rw [stripAuto_putStr, stripAuto_putStr, hA, hnext idx]
        · simp only [Option.map_some', stripR]
          rw [hA, hfail]
      case sgroup t subs1 m1 =>
        rw [hk1] at hkk
        obtain ⟨subs2, hk2, hsubs⟩ := stripKind_sgroup hkk.symm
        simp only [hk1, hk2]
        rw [hnext idx]
        rcases relOpt_cases (ih (.qBasic subs1 (s.drop pos) (decide (pos = 0)))
            (.qBasic subs2 (s.drop pos) (decide (pos = 0)))
            (by simp only [stripQ, hsubs])) with ⟨e1, e2⟩ | ⟨r1, r2, e1, e2, hrr⟩
        · rw [e1, e2]
        · rw [e1, e2]
          rcases stripR_rel hrr with ⟨sp3, pp3, b1, b2, rfl, rfl, hB⟩ |
            ⟨b, b1, b2, rfl, rfl, hB⟩ | ⟨b, q, l1, l2, rfl, rfl, hB⟩ |
            ⟨b, q, b1, b2, rfl, rfl, hB⟩
          · rfl
          · rfl
          · have hPG := stripAuto_putGroup_congr hA hk1 hk2 hB m1
            have hPGt := stripAuto_putGroup_congr hA hk1 hk2 hB true
            cases t
            case gbasic =>
              try simp only []
              refine map_strip_ite ?_ ?_
              · simp only [Option.map_some', stripR]
                rw [stripAuto_putStr, stripAuto_putStr, hPG]
              · simp only [Option.map_some', stripR]
                rw [hPG, hfail]
            case gat =>
              try simp only []
              refine map_strip_ite ?_ ?_
              · simp only [Option.map_some', stripR]
                rw [stripAuto_putStr, stripAuto_putStr, hPG]
              · simp only [Option.map_some', stripR]
                rw [hPG, hfail]
            case gany =>
              try simp only []
              refine map_strip_ite ?_ ?_
              · simp only [Option.map_some', stripR]
                rw [stripAuto_putStr, stripAuto_putStr, hPG]
              · simp only [Option.map_some', stripR]
                rw [hPG]
            case gstar =>
              try simp only []
              refine map_strip_ite ?_ ?_
              · have hPS : stripAuto ((a1.putGroup idx l1 m1).putStr idx
                      (((a1.putGroup idx l1 m1).getSt idx).matchedStr ++ (s.drop pos).take q)) =
                    stripAuto ((a2.putGroup idx l2 m1).putStr idx
                      (((a2.putGroup idx l2 m1).getSt idx).matchedStr ++ (s.drop pos).take q)) := by
                  rw [stripAuto_putStr, stripAuto_putStr]
                  exact hPG
                rw [(strip_pack hPS).2.2.2.2 ((a2.getSt idx).next.getD 1 0)]
                refine map_strip_ite ?_ ?_
                · simp only [Option.map_some', stripR]
                  rw [hPS]
                · simp only [Option.map_some', stripR]
                  rw [hPS]
              · simp only [Option.map_some', stripR]
                rw [hPG]
            case gplus =>
              try simp only []
              refine map_strip_ite ?_ ?_
              · have hPS : stripAuto ((a1.putGroup idx l1 true).putStr idx
                      ((a1.getSt idx).matchedStr ++ (s.drop pos).take q)) =
                    stripAuto ((a2.putGroup idx l2 true).putStr idx
                      ((a2.getSt idx).matchedStr ++ (s.drop pos).take q)) := by
                  rw [stripAuto_putStr, stripAuto_putStr]
                  exact hPGt
                rw [(strip_pack hPS).2.2.2.2 ((a2.getSt idx).next.getD 1 0)]
                refine map_strip_ite ?_ ?_
                · simp only [Option.map_some', stripR]
                  rw [hPS]
                · simp only [Option.map_some', stripR]
                  rw [hPS]
              · rcases relOpt_cases (ih
                    (.qCheck (a1.putGroup idx l1 m1) ((a2.getSt idx).next.getD 1 0) s pos)
                    (.qCheck (a2.putGroup idx l2 m1) ((a2.getSt idx).next.getD 1 0) s pos)
                    (by simp only [stripQ, hPG])) with ⟨e1, e2⟩ | ⟨r1, r2, e1, e2, hrr2⟩
                · rw [e1, e2]
                · rw [e1, e2]
                  rcases stripR_rel hrr2 with ⟨sp3, pp3, c1, c2, rfl, rfl, hC⟩ |
                    ⟨b2, c1, c2, rfl, rfl, hC⟩ | ⟨b2, q2, l3, l4, rfl, rfl, hC⟩ |
                    ⟨b2, q2, c1, c2, rfl, rfl, hC⟩
                  · rfl
                  · refine map_strip_ite ?_ (map_strip_ite ?_ ?_)
                    · simp only [Option.map_some', stripR]
                      rw [hC]
                    · simp only [Option.map_some', stripR]
                      rw [hC]
                    · simp only [Option.map_some', stripR]
                      rw [hC, hfail]
                  · rfl
                  · rfl
            case gneg =>
              try simp only []
              refine map_strip_ite ?_ ?_
              · simp only [Option.map_some', stripR]
                rw [stripAuto_putStr, stripAuto_putStr, hPG, hfail]
              · simp only [Option.map_some', stripR]
                rw [hPG]
          · rfl
    case qCheck.qCheck a1 idx s pos a2 idx2 s2 pos2 =>
      injection hq with hA h1 h2 h3
      subst h1; subst h2; subst h3
      obtain ⟨hfail, hmatch, hnext, hkind, htag⟩ := strip_pack hA
      simp only [engine]
      have hkk := hkind idx
      cases hk1 : (a1.getSt idx).kind
      case smatch =>
        rw [hk1] at hkk
        have hk2 := stripKind_smatch hkk.symm
        simp only [hk1, hk2, Option.map_some', stripR]
        rw [hA]
      case sfail =>
        rw [hk1] at hkk
        have hk2 := stripKind_sfail hkk.symm
        simp only [hk1, hk2, Option.map_some', stripR]
        rw [hA]
      case schar c =>
        rw [hk1] at hkk
        have hk2 := stripKind_schar hkk.symm
        simp only [hk1, hk2, Option.map_some', stripR]
        rw [hA]
      case sany =>
        rw [hk1] at hkk
        have hk2 := stripKind_sany hkk.symm
        simp only [hk1, hk2, Option.map_some', stripR]
        rw [hA]
      case sstar =>
        rw [hk1] at hkk
        have hk2 := stripKind_sstar hkk.symm
        simp only [hk1, hk2, Option.map_some', stripR]
        rw [hA]
      case sset items neg =>
        rw [hk1] at hkk
        have hk2 := stripKind_sset hkk.symm
        simp only [hk1, hk2, Option.map_some', stripR]
        rw [hA]
      case sgroup t subs1 m1 =>
        rw [hk1] at hkk
        obtain ⟨subs2, hk2, hsubs⟩ := stripKind_sgroup hkk.symm
        simp only [hk1, hk2]
        rcases relOpt_cases (ih (.qBasic subs1 (s.drop pos) (decide (pos = 0)))
            (.qBasic subs2 (s.drop pos) (decide (pos = 0)))
            (by simp only [stripQ, hsubs])) with ⟨e1, e2⟩ | ⟨r1, r2, e1, e2, hrr⟩
        · rw [e1, e2]
        · rw [e1, e2]
          rcases stripR_rel hrr with ⟨sp3, pp3, b1, b2, rfl, rfl, hB⟩ |
            ⟨b, b1, b2, rfl, rfl, hB⟩ | ⟨b, q, l1, l2, rfl, rfl, hB⟩ |
            ⟨b, q, b1, b2, rfl, rfl, hB⟩
          · rfl
          · rfl
          · have hPG := stripAuto_putGroup_congr hA hk1 hk2 hB m1
            simp only [Option.map_some', stripR]
            rw [hPG]
          · rfl
    case qBasic.qBasic subs1 sp ce subs2 sp2 ce2 =>
      injection hq with hL h1 h2
      subst h1; subst h2
      cases subs1 with
      | nil =>
        cases subs2 with
        | nil => rfl
        | cons b l => rw [stripAL_cons] at hL; cases hL
      | cons s1 r1 =>
        cases subs2 with
        | nil => rw [stripAL_cons] at hL; cases hL
        | cons s2 r2 =>
          rw [stripAL_cons, stripAL_cons] at hL
          injection hL with hH hT
          simp only [engine]
          rcases relOpt_cases (ih (.qExec s1 sp ce) (.qExec s2 sp ce)
              (by simp only [stripQ, hH])) with ⟨e1, e2⟩ | ⟨r1', r2', e1, e2, hrr⟩
          · rw [e1, e2]
          · rw [e1, e2]
            rcases stripR_rel hrr with ⟨sp3, pp3, b1, b2, rfl, rfl, hB⟩ |
              ⟨b, b1, b2, rfl, rfl, hB⟩ | ⟨b, q, l1, l2, rfl, rfl, hB⟩ |
              ⟨b, q, b1, b2, rfl, rfl, hB⟩
            · rfl
            · rfl
            · rfl
            · have hreset : stripAuto (resetStatesTop b1) = stripAuto (resetStatesTop b2) := by
                rw [stripAuto_reset, stripAuto_reset, hB]
              refine map_strip_ite ?_ ?_
              · simp only [Option.map_some', stripR]
                rw [stripAL_cons, stripAL_cons, hreset, hT]
              · rcases relOpt_cases (ih (.qBasic r1 sp ce) (.qBasic r2 sp ce)
                    (by simp only [stripQ, hT])) with ⟨e3, e4⟩ | ⟨r3, r4, e3, e4, hrr2⟩
                · rw [e3, e4]
                · rw [e3, e4]
                  rcases stripR_rel hrr2 with ⟨sp4, pp4, c1, c2, rfl, rfl, hC⟩ |
                    ⟨b2', c1, c2, rfl, rfl, hC⟩ | ⟨b2', q2, l1, l2, rfl, rfl, hC⟩ |
                    ⟨b2', q2, c1, c2, rfl, rfl, hC⟩
                  · rfl
                  · rfl
                  · simp only [Option.map_some', stripR]
                    rw [stripAL_cons, stripAL_cons, hreset, hC]
                  · rfl
    case qExec.qExec a1 s ce a2 s2 ce2 =>
      injection hq with hA h1 h2
      subst h1; subst h2
      simp only [engine]
      rcases relOpt_cases (ih (.qRun a1 s 0 0) (.qRun a2 s 0 0)
          (by simp only [stripQ, hA])) with ⟨e1, e2⟩ | ⟨r1, r2, e1, e2, hrr⟩
      · rw [e1, e2]
      · rw [e1, e2]
        rcases stripR_rel hrr with ⟨sp, pp, b1, b2, rfl, rfl, hB⟩ |
          ⟨b, b1, b2, rfl, rfl, hB⟩ | ⟨b, q, l1, l2, rfl, rfl, hB⟩ |
          ⟨b, q, b1, b2, rfl, rfl, hB⟩
        · obtain ⟨hfail2, hmatch2, hnext2, hkind2, htag2⟩ := strip_pack hB
          simp only [hfail2, hmatch2, hnext2, htag2]
          refine map_strip_ite (map_strip_ite ?_ ?_) ?_ <;>
            (simp only [Option.map_some', stripR]; rw [hB])
        · rfl
        · rfl
        · rfl

/-! ## On a fully flag-clear automaton, `strip` and `scrub` agree -/

mutual
theorem stripSt_eq_scrubSt_clear : ∀ st : St, flagsClearSt st = true → stripSt st = scrubSt st
  | .mk (.sgroup t subs m1) n ms, h => by
    have h2 : (!m1 && flagsClearAL subs) = true := h
    rw [Bool.and_eq_true] at h2
    have hm : m1 = false := by
      cases m1
      · rfl
      · cases h2.1
    have hsubs := stripAL_eq_scrubAL_clear subs h2.2
    show St.mk (stripKind (.sgroup t subs m1)) n [] = .mk (scrubKind (.sgroup t subs m1)) n []
    show St.mk (.sgroup t (stripAL subs) m1) n [] = .mk (.sgroup t (scrubAL subs) false) n []
    rw [hm, hsubs]
  | .mk .smatch n ms, _ => rfl
  | .mk .sfail n ms, _ => rfl
  | .mk (.schar c) n ms, _ => rfl
  | .mk .sany n ms, _ => rfl
  | .mk .sstar n ms, _ => rfl
  | .mk (.sset items neg) n ms, _ => rfl

theorem stripStL_eq_scrubStL_clear : ∀ l : List St, flagsClearStL l = true →
    stripStL l = scrubStL l
  | [], _ => rfl
  | s :: r, h => by
    have h2 : (flagsClearSt s && flagsClearStL r) = true := h
    rw [Bool.and_eq_true] at h2
    show stripSt s :: stripStL r = scrubSt s :: scrubStL r
    rw [stripSt_eq_scrubSt_clear s h2.1, stripStL_eq_scrubStL_clear r h2.2]

theorem stripAuto_eq_scrubAuto_clear : ∀ a : Automaton, flagsClearB a = true →
    stripAuto a = scrubAuto a
  | .mk sts m f, h => by
    show Automaton.mk (stripStL sts) m f = .mk (scrubStL sts) m f
    rw [stripStL_eq_scrubStL_clear sts h]

theorem stripAL_eq_scrubAL_clear : ∀ l : List Automaton, flagsClearAL l = true →
    stripAL l = scrubAL l
  | [], _ => rfl
  | a :: r, h => by
    have h2 : (flagsClearB a && flagsClearAL r) = true := h
    rw [Bool.and_eq_true] at h2
    show stripAuto a :: stripAL r = scrubAuto a :: scrubAL r
    rw [stripAuto_eq_scrubAuto_clear a h2.1, stripAL_eq_scrubAL_clear r h2.2]
end

/-! ## What a top-level `Exec` leaves behind -/

/-- `Automata::Exec` (at any fuel) returns an automaton whose scrub
projection equals the input automaton (only matched strings and flags
were touched), and that is fully flag-clear whenever the input was
(the `ResetStates` at the end clears the top-level flags and
`BasicCheck` keeps the stored sub-automata clear). -/
theorem execTopA_scrub {f : Nat} {a : Automaton} {s : List Char} {ce : Bool}
    {r : Bool} {p : Nat} {a' : Automaton}
    (h : execTopA f a s ce = some (r, p, a')) :
    scrubAuto a' = scrubAuto a ∧ (flagsClearB a = true → flagsClearB a' = true) := by
  unfold execTopA at h
  cases h1 : execAuxA f a s ce with
  | none => rw [h1] at h; cases h
  | some x =>
    rw [h1] at h
    obtain ⟨rr, pp, a1⟩ := x
    simp only [] at h
    cases h
    unfold execAuxA at h1
    cases h2 : engine f (.qExec a s ce) with
    | none => rw [h2] at h1; cases h1
    | some y =>
      rw [h2] at h1
      cases y with
      | rExe b q a2 =>
        simp only [] at h1
        cases h1
        obtain ⟨hs, hf⟩ := engineScrub f _ _ h2
        constructor
        · rw [scrubAuto_reset]
          exact hs
        · intro hc
          exact flagsClear_reset (hf (flagsClear_to_subsClear hc))
      | rTrip sp2 pp2 a3 => cases h1
      | rChk b a3 => cases h1
      | rBas b q subs => cases h1

/-- The boolean verdict only depends on the strip projection of the
automaton object (stored matched strings never steer control flow). -/
theorem execBool_strip_congr {x y : Automaton} (h : stripAuto x = stripAuto y)
    (f : Nat) (s : List Char) : execBool f x s = execBool f y s := by
  unfold execBool execTopA execAuxA
  rcases relOpt_cases (engineStrip f (.qExec x s true) (.qExec y s true)
      (by simp only [stripQ, h])) with ⟨e1, e2⟩ | ⟨r1, r2, e1, e2, hrr⟩
  · rw [e1, e2]
  · rw [e1, e2]
    rcases stripR_rel hrr with ⟨sp, pp, b1, b2, rfl, rfl, hB⟩ |
      ⟨b, b1, b2, rfl, rfl, hB⟩ | ⟨b, q, l1, l2, rfl, rfl, hB⟩ |
      ⟨b, q, b1, b2, rfl, rfl, hB⟩ <;> rfl

/-! ## Capture counting (for the `matches_with_captures` claim) -/

/-- The states whose `matched_str_` is reported by
`GetMatchedStrings`: MULT, QUESTION, GROUP and SET states. -/
def isWildSt (st : St) : Bool :=
  match st.kind with
  | .sstar => true
  | .sany => true
  | .sgroup _ _ _ => true
  | .sset _ _ => true
  | _ => false

/-- How many Star/AnySingle/Set/Group states the automaton holds, in
other words the number of wildcards of the compiled pattern. -/
def countWild (a : Automaton) : Nat := a.states.countP isWildSt

/-- List-level view of `GetMatchedStrings`. -/
def wildStrs (l : List St) : List (List Char) :=
  l.filterMap fun st =>
    match st.kind with
    | .sstar => some st.matchedStr
    | .sany => some st.matchedStr
    | .sgroup _ _ _ => some st.matchedStr
    | .sset _ _ => some st.matchedStr
    | _ => none

theorem getMatchedStrings_eq_wildStrs (a : Automaton) :
    getMatchedStrings a = wildStrs a.states := rfl

theorem wildStrs_cons (st : St) (l : List St) :
    wildStrs (st :: l) =
      (if isWildSt st then [st.matchedStr] else []) ++ wildStrs l := by
  obtain ⟨k, n, ms⟩ := st
  cases k <;> rfl

theorem wildStrs_length (l : List St) : (wildStrs l).length = l.countP isWildSt := by
  induction l with
  | nil => rfl
  | cons st l ihl =>
    rw [wildStrs_cons, List.countP_cons]
    by_cases hw : isWildSt st = true
    · simp [hw, ihl]
    · simp [hw, ihl]

theorem getMatchedStrings_length (a : Automaton) :
    (getMatchedStrings a).length = countWild a := by
  rw [getMatchedStrings_eq_wildStrs, wildStrs_length]
  rfl

theorem isWildSt_scrub (st : St) : isWildSt (scrubSt st) = isWildSt st := by
  obtain ⟨k, n, ms⟩ := st
  cases k <;> rfl

theorem countWild_scrub_congr {x y : Automaton} (h : scrubAuto x = scrubAuto y) :
    countWild x = countWild y := by
  have hs : x.states.map scrubSt = y.states.map scrubSt := by
    have h2 := congrArg Automaton.states h
    rwa [scrubAuto_states, scrubAuto_states, scrubStL_eq_map, scrubStL_eq_map] at h2
  have h1 : ∀ (l : List St), l.countP isWildSt = (l.map scrubSt).countP isWildSt := by
    intro l
    rw [List.countP_map]
    apply List.countP_congr
    intro st _
    simp only [Function.comp_apply, isWildSt_scrub]
  unfold countWild
  rw [h1 x.states, h1 y.states, hs]

/-! ## Claims C5, C6 and C10 -/

/-- C6 (amended): at the end of every top-level `Exec` call on a
compiled (initially flag-clear) pattern, the "matched at least once"
flags of one-or-more groups are reset and nothing but per-execution
scratch was touched (the scrub projection is unchanged); the
last-matched substrings, however, are *not* reset (see the
counterexample theorem). -/
theorem c6_amended_exec_resets_flags_not_strings {f : Nat} {a : Automaton}
    {s : List Char} {r : Bool} {p : Nat} {a' : Automaton}
    (hflags : flagsClearB a = true)
    (h : execTopA f a s true = some (r, p, a')) :
    flagsClearB a' = true ∧ scrubAuto a' = scrubAuto a := by
  obtain ⟨hs, hf⟩ := execTopA_scrub h
  exact ⟨hf hflags, hs⟩

/-- The automaton of `compile("a*")` after one `Exec` over `"ab"`:
matched strings persist, flags are clear. -/
def c6A1 : Automaton :=
  .mk [.mk (.schar 'a') [1] ['a'], .mk .sstar [1, 2] ['b'],
    .mk .smatch [] [], .mk .sfail [] []] 2 3

theorem c6_amended_exec_resets_flags_not_strings_witness :
    flagsClearB (compileSafeA patAStar) = true ∧
    execTopA 50 (compileSafeA patAStar) "ab".toList true = some (true, 2, c6A1) ∧
    (flagsClearB c6A1 = true ∧ scrubAuto c6A1 = scrubAuto (compileSafeA patAStar)) :=
  ⟨by rfl, by rfl,
    c6_amended_exec_resets_flags_not_strings
      (show flagsClearB (compileSafeA patAStar) = true by rfl)
      (show execTopA 50 (compileSafeA patAStar) "ab".toList true =
        some (true, 2, c6A1) by rfl)⟩

/-- C5 (amended): `glob_match(str, res, glob)` always hands
`MatchResults` exactly one entry per Star/AnySingle/Set/Group state of
the compiled pattern (in state order), whatever the verdict; in
particular the capture list is *not* empty when the overall match
failed (see the counterexample theorem). -/
theorem c5_amended_one_capture_per_wildcard {f : Nat} {a : Automaton} {s : List Char}
    {r : Bool} {caps : List (List Char)} {a' : Automaton}
    (h : globMatchCapt f a s = some (r, caps, a')) :
    caps.length = countWild a := by
  unfold globMatchCapt at h
  cases h1 : execTopA f a s true with
  | none => rw [h1] at h; cases h
  | some x =>
    rw [h1] at h
    obtain ⟨r0, p0, a0⟩ := x
    simp only [Option.map_some'] at h
    cases h
    obtain ⟨hs, _⟩ := execTopA_scrub h1
    rw [getMatchedStrings_length, countWild_scrub_congr hs]

theorem c5_amended_one_capture_per_wildcard_witness :
    globMatchCapt 50 (compileSafeA patAStar) "b".toList =
      some (false, [[]], compileSafeA patAStar) ∧
    ([[]] : List (List Char)).length = countWild (compileSafeA patAStar) :=
  ⟨by rfl, c5_amended_one_capture_per_wildcard
    (show globMatchCapt 50 (compileSafeA patAStar) "b".toList =
      some (false, [[]], compileSafeA patAStar) by rfl)⟩

/-- C10: the boolean verdict of `matches` on a compiled (flag-clear)
pattern object does not depend on scratch left over from an earlier
execution on that same object: after a run on any string `s0`, a run
on `s` returns the same verdict as a run on `s` on the untouched
object — in particular two consecutive calls on the same input return
the same boolean. -/
theorem c10_verdict_independent_of_scratch {a a1 : Automaton} {s0 s : List Char}
    {f1 f2 f3 : Nat} {r1 b b' : Bool} {p1 : Nat}
    (hflags : flagsClearB a = true)
    (h1 : execTopA f1 a s0 true = some (r1, p1, a1))
    (h2 : execBool f2 a1 s = some b)
    (h3 : execBool f3 a s = some b') :
    b = b' := by
  obtain ⟨hscrub, hfl⟩ := execTopA_scrub h1
  have hstr : stripAuto a1 = stripAuto a := by
    rw [stripAuto_eq_scrubAuto_clear a1 (hfl hflags),
        stripAuto_eq_scrubAuto_clear a hflags, hscrub]
  have hcong := execBool_strip_congr hstr f2 s
  rw [h2] at hcong
  exact execBool_det hcong.symm h3

/-- The automaton of `compile("a*")` after one `Exec` over `"ab"`
(C10 copy). -/
def c10A1 : Automaton :=
  .mk [.mk (.schar 'a') [1] ['a'], .mk .sstar [1, 2] ['b'],
    .mk .smatch [] [], .mk .sfail [] []] 2 3

theorem c10_verdict_independent_of_scratch_witness :
    flagsClearB (compileSafeA patAStar) = true ∧
    execTopA 50 (compileSafeA patAStar) "ab".toList true = some (true, 2, c10A1) ∧
    execBool 50 c10A1 "ax".toList = some true ∧
    execBool 50 (compileSafeA patAStar) "ax".toList = some true ∧
    true = true :=
  ⟨by rfl, by rfl, by rfl, by rfl,
    c10_verdict_independent_of_scratch
      (show flagsClearB (compileSafeA patAStar) = true by rfl)
      (show execTopA 50 (compileSafeA patAStar) "ab".toList true =
        some (true, 2, c10A1) by rfl)
      (show execBool 50 c10A1 "ax".toList = some true by rfl)
      (show execBool 50 (compileSafeA patAStar) "ax".toList = some true by rfl)⟩


/-! ## Claim C1: literal-star patterns -/

/-- A pattern character with no syntactic role at all: not one of the
lexer specials, not the range dash, not the concat-breaking comma, and
not the NUL sentinel. -/
def LitChar (c : Char) : Prop :=
  isSpecialChar c = false ∧ c ≠ ',' ∧ c ≠ '-' ∧ c ≠ nul

/-- The token a literal character scans to. -/
def chTok (c : Char) : Tok := ⟨.tChar, c⟩

set_option maxHeartbeats 2000000 in
theorem scanAux_cons_lit {c : Char} (hc : LitChar c) (l : List Char) :
    scanAux (c :: l) = (scanAux l).map (chTok c :: ·) := by
  obtain ⟨hs, hcomma, hdash, hnul⟩ := hc
  conv_lhs => rw [scanAux.eq_def]
  split
  all_goals try rfl
  all_goals try (exfalso; simp_all [isSpecialChar]; done)
  all_goals (rename_i heq; injection heq with h1 h2; subst h1; subst h2; rfl)

theorem scanAux_star_cons (l : List Char) (h : ∀ c, l.head? = some c → LitChar c) :
    scanAux ('*' :: l) = (scanAux l).map (⟨.tStar, nul⟩ :: ·) := by
  cases l with
  | nil => rfl
  | cons c r =>
    have hc : LitChar c := h c rfl
    have hlp : ¬ c = '(' := by
      intro he
      subst he
      simp [LitChar, isSpecialChar] at hc
    conv_lhs => rw [scanAux.eq_def]
    split
    all_goals try rfl
    case h_23 =>
      rename_i heq
      injection heq with h1 h2
      subst h2
      simp_all [h1.symm]
    all_goals simp_all [List.cons.injEq]

theorem scanAux_lit_append (p : List Char) (rest : List Char)
    (h : ∀ c ∈ p, LitChar c) :
    scanAux (p ++ rest) = (scanAux rest).map (p.map chTok ++ ·) := by
  induction p with
  | nil =>
    cases hr : scanAux rest with
    | ok v => simp [hr, Except.map]
    | error e => simp [hr, Except.map]
  | cons c p ih =>
    have hc : LitChar c := h c (List.mem_cons_self c p)
    have hp : ∀ d ∈ p, LitChar d := fun d hd => h d (List.mem_cons_of_mem c hd)
    show scanAux (c :: (p ++ rest)) = _
    rw [scanAux_cons_lit hc, ih hp]
    cases hr : scanAux rest with
    | ok v => simp [Except.map]
    | error e => simp [Except.map]

/-- The EOS token closing every scan. -/
def eosTok : Tok := ⟨.tEOS, nul⟩

/-- The star token. -/
def starTok : Tok := ⟨.tStar, nul⟩

theorem scan_litStar (p1 p2 : List Char)
    (h1 : ∀ c ∈ p1, LitChar c) (h2 : ∀ c ∈ p2, LitChar c) :
    scanAux (p1 ++ '*' :: p2) =
      .ok (p1.map chTok ++ starTok :: (p2.map chTok ++ [eosTok])) := by
  have hhead : ∀ c, p2.head? = some c → LitChar c := by
    intro c hc
    cases p2 with
    | nil => cases hc
    | cons d r =>
      simp only [List.head?] at hc
      rw [Option.some.injEq] at hc
      rw [← hc]
      exact h2 d (List.mem_cons_self d r)
  have hp2 : scanAux p2 = .ok (p2.map chTok ++ [eosTok]) := by
    have h0 := scanAux_lit_append p2 [] h2
    rw [List.append_nil] at h0
    rw [h0]
    simp [scanAux, Except.map, eosTok]
  rw [scanAux_lit_append p1 _ h1, scanAux_star_cons p2 hhead, hp2]
  simp [Except.map, starTok]

/-! ### Running the parser over a literal token stream -/

theorem getTok_append (pre : List Tok) (t : Tok) (l : List Tok) :
    getTok (pre ++ t :: l) pre.length = t := by
  unfold getTok
  rw [List.getD_eq_getElem?_getD, List.getElem?_append_right (Nat.le_refl _)]
  simp

theorem nextTok_mid (pre : List Tok) (t : Tok) (l : List Tok) (hl : l ≠ []) :
    nextTok (pre ++ t :: l) pre.length = (t, pre.length + 1) := by
  unfold nextTok
  have hlen : ¬ (pre ++ t :: l).length ≤ pre.length + 1 := by
    simp [List.length_append]
    cases l with
    | nil => exact absurd rfl hl
    | cons x r => simp
  rw [if_neg hlen]
  rw [show (pre ++ t :: l).getD pre.length dfltTok = getTok (pre ++ t :: l) pre.length from rfl]
  rw [getTok_append]

theorem advanceP_mid (pre : List Tok) (t : Tok) (l : List Tok) (hl : l ≠ []) :
    advanceP (pre ++ t :: l) pre.length = pre.length + 1 := by
  unfold advanceP
  have hlen : ¬ (pre ++ t :: l).length ≤ pre.length + 1 := by
    simp [List.length_append]
    cases l with
    | nil => exact absurd rfl hl
    | cons x r => simp
  rw [if_neg hlen]

theorem checkEndConcat_chTok {c : Char} (hc : LitChar c) :
    checkEndConcat (chTok c) = false := by
  obtain ⟨hs, hcomma, hdash, hnul⟩ := hc
  simp [checkEndConcat, chTok, hcomma]

theorem concatLoop_chars : ∀ (cs : List Char) (pre tail : List Tok)
    (acc : List Ast) (fuel : Nat) (tv : List Tok),
    tv = pre ++ cs.map chTok ++ tail → tail ≠ [] → cs.length < fuel →
    (∀ c ∈ cs, LitChar c) →
    parserGo fuel (.qConcatLoop tv pre.length acc) =
    parserGo (fuel - cs.length)
      (.qConcatLoop tv (pre.length + cs.length) (acc ++ cs.map Ast.achar)) := by
  intro cs
  induction cs with
  | nil =>
    intro pre tail acc fuel tv htv htail hfuel hlit
    simp
  | cons c cs ih =>
    intro pre tail acc fuel tv htv htail hfuel hlit
    have hc : LitChar c := hlit c (List.mem_cons_self c cs)
    have hcs : ∀ d ∈ cs, LitChar d := fun d hd => hlit d (List.mem_cons_of_mem c hd)
    cases fuel with
    | zero => omega
    | succ g =>
      have hg : cs.length < g := by
        simp [List.length_cons] at hfuel
        omega
      have htv2 : tv = pre ++ chTok c :: (cs.map chTok ++ tail) := by
        simp [htv]
      have hget : getTok tv pre.length = chTok c := by
        rw [htv2]; exact getTok_append pre (chTok c) (cs.map chTok ++ tail)
      have htail2 : cs.map chTok ++ tail ≠ [] := by
        cases cs <;> simp_all
      have hnext : nextTok tv pre.length = (chTok c, pre.length + 1) := by
        rw [htv2]; exact nextTok_mid pre (chTok c) (cs.map chTok ++ tail) htail2
      cases g with
      | zero => omega
      | succ g2 =>
        have hbg : parserGo (g2 + 1) (.qBasicGlob tv pre.length) =
            .ok (.rAst (.achar c) (pre.length + 1)) := by
          conv_lhs => rw [parserGo.eq_def]
          simp only []
          rw [hget]
          simp only [chTok]
          unfold pChar
          rw [hnext]
          simp [chTok]
        conv_lhs => rw [parserGo.eq_def]
        simp only []
        rw [hget, checkEndConcat_chTok hc]
        simp only [Bool.false_eq_true, if_false]
        rw [if_neg (show ¬ (chTok c).kind = TokKind.tLBrace from fun h => TokKind.noConfusion h)]
        rw [hbg]
        simp only []
        have hpre1 : pre.length + 1 = (pre ++ [chTok c]).length := by simp
        have htv3 : tv = (pre ++ [chTok c]) ++ cs.map chTok ++ tail := by
          simp [htv]
        rw [hpre1]
        rw [ih (pre ++ [chTok c]) tail (acc ++ [Ast.achar c]) (g2 + 1) tv htv3 htail
          (by omega) hcs]
        have e1 : g2 + 1 - cs.length = g2 + 1 + 1 - (cs.length + 1) := by omega
        have e2 : (pre ++ [chTok c]).length + cs.length = pre.length + (cs.length + 1) := by
          simp
          omega
        have e3 : acc ++ [Ast.achar c] ++ cs.map Ast.achar =
            acc ++ (Ast.achar c :: cs.map Ast.achar) := by simp
        rw [e1, e2, e3]
        rfl

theorem concatLoop_star (pre tail : List Tok) (acc : List Ast) (g : Nat)
    (tv : List Tok) (htv : tv = pre ++ starTok :: tail) (htail : tail ≠ [])
    (hg : 1 ≤ g) :
    parserGo (g + 1) (.qConcatLoop tv pre.length acc) =
    parserGo g (.qConcatLoop tv (pre.length + 1) (acc ++ [Ast.astar])) := by
  have hget : getTok tv pre.length = starTok := by
    rw [htv]; exact getTok_append pre starTok tail
  have hadv : advanceP tv pre.length = pre.length + 1 := by
    rw [htv]; exact advanceP_mid pre starTok tail htail
  cases g with
  | zero => omega
  | succ g2 =>
    have hbg : parserGo (g2 + 1) (.qBasicGlob tv pre.length) =
        .ok (.rAst .astar (pre.length + 1)) := by
      conv_lhs => rw [parserGo.eq_def]
      simp only []
      rw [hget]
      simp only [starTok]
      rw [hadv]
    conv_lhs => rw [parserGo.eq_def]
    simp only []
    rw [hget]
    rw [show checkEndConcat starTok = false from rfl]
    simp only [Bool.false_eq_true, if_false]
    rw [if_neg (show ¬ starTok.kind = TokKind.tLBrace from fun h => TokKind.noConfusion h)]
    rw [hbg]

theorem concatLoop_end (pre : List Tok) (acc : List Ast) (g : Nat)
    (tv : List Tok) (htv : tv = pre ++ [eosTok]) :
    parserGo (g + 1) (.qConcatLoop tv pre.length acc) =
    .ok (.rParts acc pre.length false) := by
  have hget : getTok tv pre.length = eosTok := by
    rw [htv]; exact getTok_append pre eosTok []
  conv_lhs => rw [parserGo.eq_def]
  simp only []
  rw [hget]
  rw [show checkEndConcat eosTok = true from rfl]
  simp only [if_true]

/-- The token stream of a literal-star pattern. -/
def litStarToks (p1 p2 : List Char) : List Tok :=
  p1.map chTok ++ starTok :: (p2.map chTok ++ [eosTok])

/-- The parts of the concatenation node it parses to. -/
def litStarParts (p1 p2 : List Char) : List Ast :=
  p1.map Ast.achar ++ Ast.astar :: p2.map Ast.achar

theorem parse_litStar (p1 p2 : List Char)
    (h1 : ∀ c ∈ p1, LitChar c) (h2 : ∀ c ∈ p2, LitChar c) :
    pGlob (parserFuel (litStarToks p1 p2)) (litStarToks p1 p2) =
      .ok (.aglob (.aconcat (litStarParts p1 p2))) := by
  have hn : (litStarToks p1 p2).length = p1.length + p2.length + 2 := by
    simp [litStarToks]
    omega
  obtain ⟨F, hFF⟩ : ∃ F, 4 * (p1.length + p2.length + 2) + 14 = F := ⟨_, rfl⟩
  rw [show parserFuel (litStarToks p1 p2) = (F + 1) + 1 by rw [parserFuel, hn]; omega]
  simp only [pGlob, pConcat]
  simp only [parserGo]
  conv_lhs => rw [show (0 : Nat) = ([] : List Tok).length from rfl]
  rw [concatLoop_chars p1 [] (starTok :: (p2.map chTok ++ [eosTok])) []
    F (litStarToks p1 p2)
    (by simp [litStarToks]) (by simp) (by omega) h1]
  rw [show ([] : List Tok).length + p1.length = (p1.map chTok).length by simp]
  rw [show F - p1.length = (F - p1.length - 1) + 1 by omega]
  rw [concatLoop_star (p1.map chTok) (p2.map chTok ++ [eosTok])
    ([] ++ p1.map Ast.achar) (F - p1.length - 1)
    (litStarToks p1 p2) (by simp [litStarToks]) (by simp) (by omega)]
  rw [show (p1.map chTok).length + 1 = (p1.map chTok ++ [starTok]).length by simp]
  rw [concatLoop_chars p2 (p1.map chTok ++ [starTok]) [eosTok]
    (([] ++ p1.map Ast.achar) ++ [Ast.astar])
    (F - p1.length - 1) (litStarToks p1 p2)
    (by simp [litStarToks]) (by simp) (by omega) h2]
  rw [show (p1.map chTok ++ [starTok]).length + p2.length =
    (p1.map chTok ++ starTok :: p2.map chTok).length by
      simp
      omega]
  rw [show F - p1.length - 1 - p2.length =
    (F - p1.length - 1 - p2.length - 1) + 1 by omega]
  rw [concatLoop_end (p1.map chTok ++ starTok :: p2.map chTok)
    ((([] ++ p1.map Ast.achar) ++ [Ast.astar]) ++ p2.map Ast.achar)
    (F - p1.length - 1 - p2.length - 1)
    (litStarToks p1 p2) (by simp [litStarToks])]
  have hget : getTok (litStarToks p1 p2) (p1.map chTok ++ starTok :: p2.map chTok).length =
      eosTok := by
    rw [show litStarToks p1 p2 = (p1.map chTok ++ starTok :: p2.map chTok) ++ [eosTok] by
      simp [litStarToks]]
    exact getTok_append _ eosTok []
  simp only [if_true]
  rw [hget]
  rw [if_pos (show eosTok.kind = TokKind.tEOS from rfl)]
  simp [litStarParts]
/-! ### Compiling the literal-star AST into an automaton -/

/-- The fully linked chain of character states for `cs` starting at
state index `off` (each state points to the next index). -/
def chainSts (off : Nat) : List Char → List St
  | [] => []
  | c :: cs => .mk (.schar c) [off + 1] [] :: chainSts (off + 1) cs

/-- What `compile(p1 ++ "*" ++ p2)` produces for literal `p1`, `p2`:
the `p1` chain, a star state with a self loop and the successor edge,
the `p2` chain, the match state and the fail state. -/
def litStarAuto (p1 p2 : List Char) : Automaton :=
  .mk (chainSts 0 p1 ++
      .mk .sstar [p1.length, p1.length + 1] [] ::
      (chainSts (p1.length + 1) p2 ++ [.mk .smatch [] [], .mk .sfail [] []]))
    (p1.length + p2.length + 1) (p1.length + p2.length + 2)

/-- Append a successor edge (`State::AddNextState`). -/
def closeSt (st : St) (j : Nat) : St := .mk st.kind (st.next ++ [j]) st.matchedStr

/-- The closed prefix of the chain the consumer builds for `cs` after
an open state `cur`. -/
def pushNext (cur : St) (i : Nat) : List Char → List St
  | [] => []
  | c :: cs => closeSt cur i :: pushNext (.mk (.schar c) [] []) (i + 1) cs

/-- The state that is still open (no successor yet) after building
`cs` starting from open state `cur`. -/
def lastSt (cur : St) : List Char → St
  | [] => cur
  | c :: cs => lastSt (.mk (.schar c) [] []) cs

theorem getD_append_len (l1 : List St) (x : St) (l2 : List St) (d : St) :
    (l1 ++ x :: l2).getD l1.length d = x := by
  rw [List.getD_eq_getElem?_getD, List.getElem?_append_right (Nat.le_refl _)]
  simp

theorem set_append_len (l1 : List St) (x y : St) (l2 : List St) :
    (l1 ++ x :: l2).set l1.length y = l1 ++ y :: l2 := by
  rw [List.set_append_right _ _ (Nat.le_refl _)]
  simp

theorem addNextTo_append (done : List St) (cur : St) (rest : List St) (tgt : Nat) :
    addNextTo (done ++ cur :: rest) done.length tgt = done ++ closeSt cur tgt :: rest := by
  unfold addNextTo
  rw [getD_append_len, set_append_len]
  rfl

theorem newStateC_step (done : List St) (cur : St) (k : StKind) :
    newStateC (done ++ [cur], some done.length) k =
      ((done ++ [closeSt cur (done.length + 1)]) ++ [.mk k [] []],
        some (done ++ [closeSt cur (done.length + 1)]).length) := by
  unfold newStateC
  simp only []
  rw [show (done ++ [cur]) ++ [St.mk k [] []] = done ++ cur :: [St.mk k [] []] by simp]
  rw [show (done ++ [cur]).length = done.length + 1 by simp]
  rw [addNextTo_append done cur [St.mk k [] []] (done.length + 1)]
  simp

theorem execChars_closed : ∀ (cs : List Char) (done : List St) (cur : St),
    execConcatList (cs.map Ast.achar) (done ++ [cur], some done.length) =
    .ok ((done ++ pushNext cur (done.length + 1) cs) ++ [lastSt cur cs],
      some (done.length + cs.length)) := by
  intro cs
  induction cs with
  | nil =>
    intro done cur
    simp [execConcatList, pushNext, lastSt]
  | cons c cs ih =>
    intro done cur
    show execConcatList (Ast.achar c :: cs.map Ast.achar) (done ++ [cur], some done.length) = _
    unfold execConcatList
    unfold execBasicGlobC
    rw [newStateC_step done cur (.schar c)]
    simp only []
    rw [ih (done ++ [closeSt cur (done.length + 1)]) (.mk (.schar c) [] [])]
    simp only [pushNext, lastSt]
    rw [show (done ++ [closeSt cur (done.length + 1)]).length = done.length + 1 by simp]
    rw [show (done ++ [closeSt cur (done.length + 1)]) ++
        pushNext (.mk (.schar c) [] []) (done.length + 1 + 1) cs =
      done ++ (closeSt cur (done.length + 1) ::
        pushNext (.mk (.schar c) [] []) (done.length + 1 + 1) cs) by simp]
    rw [show done.length + 1 + cs.length = done.length + (cs.length + 1) by omega]
    rfl

theorem chainSts_decomp : ∀ (cs : List Char) (c : Char) (i : Nat),
    chainSts i (c :: cs) =
      pushNext (.mk (.schar c) [] []) (i + 1) cs ++
        [closeSt (lastSt (.mk (.schar c) [] []) cs) (i + cs.length + 1)] := by
  intro cs
  induction cs with
  | nil =>
    intro c i
    simp [chainSts, pushNext, lastSt, closeSt, St.kind, St.next, St.matchedStr]
  | cons d cs ih =>
    intro c i
    show chainSts i (c :: d :: cs) = _
    unfold chainSts
    rw [ih d (i + 1)]
    simp only [pushNext, lastSt]
    rw [show i + 1 + cs.length + 1 = i + (cs.length + 1) + 1 by omega]
    simp [closeSt, St.kind, St.next, St.matchedStr]

theorem pushNext_length (cs : List Char) : ∀ (cur : St) (i : Nat),
    (pushNext cur i cs).length = cs.length := by
  induction cs with
  | nil => intro cur i; rfl
  | cons c cs ih =>
    intro cur i
    show (closeSt cur i :: pushNext (.mk (.schar c) [] []) (i + 1) cs).length = cs.length + 1
    rw [List.length_cons, ih]

theorem chainSts_length (cs : List Char) : ∀ (off : Nat),
    (chainSts off cs).length = cs.length := by
  induction cs with
  | nil => intro off; rfl
  | cons c cs ih =>
    intro off
    show (St.mk (.schar c) [off + 1] [] :: chainSts (off + 1) cs).length = cs.length + 1
    rw [List.length_cons, ih]

theorem execConcatList_append (l1 l2 : List Ast) : ∀ (b : BState),
    execConcatList (l1 ++ l2) b =
      match execConcatList l1 b with
      | .error e => .error e
      | .ok b1 => execConcatList l2 b1 := by
  induction l1 with
  | nil => intro b; rfl
  | cons n l1 ih =>
    intro b
    rw [show execConcatList ((n :: l1) ++ l2) b =
      (match execBasicGlobC n b with
        | .error e => .error e
        | .ok b1 => execConcatList (l1 ++ l2) b1) from rfl]
    rw [show execConcatList (n :: l1) b =
      (match execBasicGlobC n b with
        | .error e => .error e
        | .ok b1 => execConcatList l1 b1) from rfl]
    cases execBasicGlobC n b with
    | error e => rfl
    | ok b1 =>
      simp only []
      exact ih b1

theorem execStar_step (done : List St) (cur : St) :
    execBasicGlobC .astar (done ++ [cur], some done.length) =
      .ok ((done ++ [closeSt cur (done.length + 1)]) ++
          [.mk .sstar [done.length + 1] []],
        some (done ++ [closeSt cur (done.length + 1)]).length) := by
  unfold execBasicGlobC
  rw [newStateC_step done cur .sstar]
  unfold addSelfLoop
  simp only []
  rw [addNextTo_append (done ++ [closeSt cur (done.length + 1)]) (.mk .sstar [] []) []]
  simp [closeSt, St.kind, St.next, St.matchedStr]

theorem closeAutomaton_step (done : List St) (cur : St) :
    closeAutomaton (done ++ [cur], some done.length) =
      .ok (.mk ((done ++ [closeSt cur (done.length + 1)]) ++
          [.mk .smatch [] [], .mk .sfail [] []])
        (done.length + 1) (done.length + 2)) := by
  unfold closeAutomaton
  simp only []
  rw [show (done ++ [cur]).length = done.length + 1 by simp]
  rw [show (done ++ [cur]) ++ [St.mk .smatch [] []] = done ++ cur :: [St.mk .smatch [] []]
    by simp]
  rw [addNextTo_append done cur [St.mk .smatch [] []] (done.length + 1)]
  have hlen : (done ++ closeSt cur (done.length + 1) :: [St.mk .smatch [] []]).length =
      done.length + 2 := by simp
  rw [hlen]
  simp

theorem chainAssemble : ∀ (cs : List Char) (cur : St) (i : Nat),
    pushNext cur (i + 1) cs ++ [closeSt (lastSt cur cs) (i + cs.length + 1)] =
      closeSt cur (i + 1) :: chainSts (i + 1) cs := by
  intro cs
  induction cs with
  | nil =>
    intro cur i
    simp [pushNext, lastSt, chainSts]
  | cons b cs ih =>
    intro cur i
    show closeSt cur (i + 1) :: pushNext (.mk (.schar b) [] []) (i + 1 + 1) cs ++
      [closeSt (lastSt (.mk (.schar b) [] []) cs) (i + (cs.length + 1) + 1)] = _
    rw [show i + (cs.length + 1) + 1 = (i + 1) + cs.length + 1 by omega]
    exact congrArg (List.cons (closeSt cur (i + 1))) (ih (.mk (.schar b) [] []) (i + 1))

theorem genAutomata_litStar (p1 p2 : List Char) :
    genAutomata (.aglob (.aconcat (litStarParts p1 p2))) = .ok (litStarAuto p1 p2) := by
  cases p1 with
  | nil =>
    show genAutomata (.aglob (.aconcat (Ast.astar :: p2.map Ast.achar))) = _
    rw [show genAutomata (.aglob (.aconcat (Ast.astar :: p2.map Ast.achar))) =
      (execConcatList (p2.map Ast.achar) ([.mk .sstar [0] []], some 0) >>= closeAutomaton)
      from rfl]
    rw [show (([.mk .sstar [0] []], some 0) : BState) =
      (([] : List St) ++ [.mk .sstar [0] []], some ([] : List St).length) from rfl]
    rw [execChars_closed p2 [] (.mk .sstar [0] [])]
    rw [show (Except.ok ((([] : List St) ++
        pushNext (.mk .sstar [0] []) (([] : List St).length + 1) p2) ++
        [lastSt (.mk .sstar [0] []) p2], some (([] : List St).length + p2.length)) >>=
        closeAutomaton) =
      closeAutomaton ((([] : List St) ++
        pushNext (.mk .sstar [0] []) (([] : List St).length + 1) p2) ++
        [lastSt (.mk .sstar [0] []) p2], some (([] : List St).length + p2.length)) from rfl]
    rw [show (some (([] : List St).length + p2.length) : Option Nat) =
      some ((([] : List St) ++ pushNext (.mk .sstar [0] []) (([] : List St).length + 1)
        p2).length) by simp [pushNext_length]]
    rw [closeAutomaton_step]
    rw [show ((([] : List St) ++ pushNext (.mk .sstar [0] [])
        (([] : List St).length + 1) p2).length) = p2.length by simp [pushNext_length]]
    unfold litStarAuto
    simp only [List.nil_append, List.length_nil]
    rw [show (0 + 1 : Nat) = 1 from rfl]
    have hasm := chainAssemble p2 (.mk .sstar [0] []) 0
    rw [show (0 + 1 : Nat) = 1 from rfl] at hasm
    rw [show (0 + p2.length + 1 : Nat) = p2.length + 1 by omega] at hasm
    rw [show pushNext (.mk .sstar [0] []) 1 p2 ++
        [closeSt (lastSt (.mk .sstar [0] []) p2) (p2.length + 1)] ++
        [St.mk .smatch [] [], St.mk .sfail [] []] =
      (pushNext (.mk .sstar [0] []) 1 p2 ++
        [closeSt (lastSt (.mk .sstar [0] []) p2) (p2.length + 1)]) ++
        [St.mk .smatch [] [], St.mk .sfail [] []] by simp]
    rw [hasm]
    rw [show closeSt (.mk .sstar [0] []) 1 = .mk .sstar [0, 1] [] from rfl]
    simp [chainSts]
  | cons c p1' =>
    show genAutomata (.aglob (.aconcat (Ast.achar c :: (p1'.map Ast.achar ++
      Ast.astar :: p2.map Ast.achar)))) = _
    rw [show genAutomata (.aglob (.aconcat (Ast.achar c :: (p1'.map Ast.achar ++
        Ast.astar :: p2.map Ast.achar)))) =
      (execConcatList (p1'.map Ast.achar ++ Ast.astar :: p2.map Ast.achar)
        ([.mk (.schar c) [] []], some 0) >>= closeAutomaton) from rfl]
    rw [execConcatList_append]
    rw [show (([.mk (.schar c) [] []], some 0) : BState) =
      (([] : List St) ++ [.mk (.schar c) [] []], some ([] : List St).length) from rfl]
    rw [execChars_closed p1' [] (.mk (.schar c) [] [])]
    simp only []
    rw [show execConcatList (Ast.astar :: p2.map Ast.achar)
        ((([] : List St) ++ pushNext (.mk (.schar c) [] [])
          (([] : List St).length + 1) p1') ++ [lastSt (.mk (.schar c) [] []) p1'],
          some (([] : List St).length + p1'.length)) =
      (match execBasicGlobC Ast.astar
        ((([] : List St) ++ pushNext (.mk (.schar c) [] [])
          (([] : List St).length + 1) p1') ++ [lastSt (.mk (.schar c) [] []) p1'],
          some (([] : List St).length + p1'.length)) with
        | .error e => .error e
        | .ok b1 => execConcatList (p2.map Ast.achar) b1) from rfl]
    rw [show (some (([] : List St).length + p1'.length) : Option Nat) =
      some ((([] : List St) ++ pushNext (.mk (.schar c) [] [])
        (([] : List St).length + 1) p1').length) by simp [pushNext_length]]
    rw [execStar_step]
    simp only []
    generalize hP : ([] ++ pushNext (.mk (.schar c) [] [])
      (([] : List St).length + 1) p1' : List St) = P
    have hPlen : P.length = p1'.length := by
      rw [← hP]
      simp [pushNext_length]
    rw [execChars_closed p2
      (P ++ [closeSt (lastSt (.mk (.schar c) [] []) p1') (P.length + 1)])
      (.mk .sstar [P.length + 1] [])]
    generalize hQ : (P ++ [closeSt (lastSt (.mk (.schar c) [] []) p1')
      (P.length + 1)] : List St) = Q
    have hQlen : Q.length = p1'.length + 1 := by
      rw [← hQ]
      simp [hPlen]
    rw [show (Except.ok ((Q ++ pushNext (.mk .sstar [P.length + 1] [])
        (Q.length + 1) p2) ++ [lastSt (.mk .sstar [P.length + 1] []) p2],
        some (Q.length + p2.length)) >>= closeAutomaton) =
      closeAutomaton ((Q ++ pushNext (.mk .sstar [P.length + 1] [])
        (Q.length + 1) p2) ++ [lastSt (.mk .sstar [P.length + 1] []) p2],
        some (Q.length + p2.length)) from rfl]
    rw [show (some (Q.length + p2.length) : Option Nat) =
      some ((Q ++ pushNext (.mk .sstar [P.length + 1] []) (Q.length + 1) p2).length) by
        simp [pushNext_length]]
    rw [closeAutomaton_step]
    rw [show ((Q ++ pushNext (.mk .sstar [P.length + 1] []) (Q.length + 1) p2).length) =
      Q.length + p2.length by simp [pushNext_length]]
    rw [show (Q ++ pushNext (.mk .sstar [P.length + 1] []) (Q.length + 1) p2) ++
        [closeSt (lastSt (.mk .sstar [P.length + 1] []) p2) (Q.length + p2.length + 1)] =
      Q ++ (pushNext (.mk .sstar [P.length + 1] []) (Q.length + 1) p2 ++
        [closeSt (lastSt (.mk .sstar [P.length + 1] []) p2) (Q.length + p2.length + 1)])
      by simp]
    rw [chainAssemble p2 (.mk .sstar [P.length + 1] []) Q.length]
    rw [show closeSt (.mk .sstar [P.length + 1] []) (Q.length + 1) =
      .mk .sstar [P.length + 1, Q.length + 1] [] from rfl]
    have hchain : Q = chainSts 0 (c :: p1') := by
      rw [← hQ, ← hP]
      rw [show (([] : List St).length + 1) = 0 + 1 from rfl]
      rw [show ([] ++ pushNext (.mk (.schar c) [] []) (0 + 1) p1' : List St) =
        pushNext (.mk (.schar c) [] []) (0 + 1) p1' by simp]
      rw [show (pushNext (.mk (.schar c) [] []) (0 + 1) p1').length + 1 =
        0 + p1'.length + 1 by simp [pushNext_length]]
      rw [chainAssemble p1' (.mk (.schar c) [] []) 0]
      rfl
    unfold litStarAuto
    rw [hPlen, hQlen, hchain]
    rw [show (c :: p1').length = p1'.length + 1 by simp]
    simp

theorem compileStrict_litStar (p1 p2 : List Char)
    (h1 : ∀ c ∈ p1, LitChar c) (h2 : ∀ c ∈ p2, LitChar c) :
    compileStrict (p1 ++ '*' :: p2) = .ok (litStarAuto p1 p2) := by
  unfold compileStrict
  rw [scan_litStar p1 p2 h1 h2]
  show (do
    let ast ← pGlob (parserFuel (litStarToks p1 p2)) (litStarToks p1 p2)
    genAutomata ast) = _
  rw [parse_litStar p1 p2 h1 h2]
  show genAutomata (.aglob (.aconcat (litStarParts p1 p2))) = _
  exact genAutomata_litStar p1 p2

theorem compileSafeA_litStar (p1 p2 : List Char)
    (h1 : ∀ c ∈ p1, LitChar c) (h2 : ∀ c ∈ p2, LitChar c) :
    compileSafeA (p1 ++ '*' :: p2) = litStarAuto p1 p2 := by
  unfold compileSafeA
  rw [compileStrict_litStar p1 p2 h1 h2]











/-! ### Single steps of the interpreter -/

theorem qRun_exit {B : Automaton} {s : List Char} {sp pp g : Nat}
    (hexit : sp = B.failIdx ∨ sp = B.matchIdx ∨ s.length ≤ pp) :
    engine (g + 1) (.qRun B s sp pp) = some (.rTrip sp pp B) := by
  conv_lhs => rw [engine.eq_def]
  simp only []
  rw [if_pos hexit]

theorem qRun_step {B B2 : Automaton} {s : List Char} {sp pp sp2 pp2 g : Nat}
    (hnotexit : ¬(sp = B.failIdx ∨ sp = B.matchIdx ∨ s.length ≤ pp))
    (hnext : engine g (.qNext B sp s pp) = some (.rTrip sp2 pp2 B2)) :
    engine (g + 1) (.qRun B s sp pp) = engine g (.qRun B2 s sp2 pp2) := by
  conv_lhs => rw [engine.eq_def]
  simp only []
  rw [if_neg hnotexit, hnext]

theorem qNext_char_hit {B : Automaton} {s : List Char} {sp pp nxt : Nat} {c : Char} {g : Nat}
    (hk : (B.getSt sp).kind = .schar c) (hn : (B.getSt sp).next = [nxt])
    (hc : c = charAt s pp) :
    engine (g + 1) (.qNext B sp s pp) = some (.rTrip nxt (pp + 1) (B.putStr sp [c])) := by
  conv_lhs => rw [engine.eq_def]
  simp only []
  rw [hk]
  simp only []
  rw [if_pos hc, hn]
  rfl

theorem qNext_char_miss {B : Automaton} {s : List Char} {sp pp : Nat} {c : Char} {g : Nat}
    (hk : (B.getSt sp).kind = .schar c) (hc : ¬ c = charAt s pp) :
    engine (g + 1) (.qNext B sp s pp) = some (.rTrip B.failIdx (pp + 1) B) := by
  conv_lhs => rw [engine.eq_def]
  simp only []
  rw [hk]
  simp only []
  rw [if_neg hc]

theorem qCheck_char {B : Automaton} {s : List Char} {idx pos : Nat} {c : Char} {g : Nat}
    (hk : (B.getSt idx).kind = .schar c) :
    engine (g + 1) (.qCheck B idx s pos) = some (.rChk (decide (c = charAt s pos)) B) := by
  conv_lhs => rw [engine.eq_def]
  simp only []
  rw [hk]

theorem qCheck_match {B : Automaton} {s : List Char} {idx pos : Nat} {g : Nat}
    (hk : (B.getSt idx).kind = .smatch) :
    engine (g + 1) (.qCheck B idx s pos) = some (.rChk true B) := by
  conv_lhs => rw [engine.eq_def]
  simp only []
  rw [hk]

theorem qNext_star_endmatch {B : Automaton} {s : List Char} {sp pp m : Nat} {g : Nat}
    (hk : (B.getSt sp).kind = .sstar) (hn : (B.getSt sp).next = [m, m + 1])
    (htag : (B.getSt (m + 1)).kind.tag = .tmatch) :
    engine (g + 1) (.qNext B sp s pp) =
      some (.rTrip (m + 1) s.length (B.putStr sp (s.drop pp))) := by
  conv_lhs => rw [engine.eq_def]
  simp only []
  rw [hk]
  simp only []
  rw [hn]
  rw [show ([m, m + 1] : List Nat).getD 1 0 = m + 1 from rfl]
  rw [if_pos htag]

theorem qNext_star_hit {B : Automaton} {s : List Char} {sp pp m : Nat} {c : Char} {g : Nat}
    (hk : (B.getSt sp).kind = .sstar) (hn : (B.getSt sp).next = [m, m + 1])
    (hsucc : (B.getSt (m + 1)).kind = .schar c)
    (hc : c = charAt s pp) :
    engine (g + 2) (.qNext B sp s pp) = some (.rTrip (m + 1) pp B) := by
  conv_lhs => rw [engine.eq_def]
  simp only []
  rw [hk]
  simp only []
  rw [hn]
  rw [show ([m, m + 1] : List Nat).getD 1 0 = m + 1 from rfl]
  rw [if_neg (show ¬ (B.getSt (m + 1)).kind.tag = StTag.tmatch by
    rw [hsucc]; intro h; cases h)]
  rw [qCheck_char hsucc]
  simp only []
  rw [if_pos (show (decide (c = charAt s pp) = true) by rw [decide_eq_true_eq]; exact hc)]

theorem qNext_star_miss {B : Automaton} {s : List Char} {sp pp m : Nat} {c : Char} {g : Nat}
    (hk : (B.getSt sp).kind = .sstar) (hn : (B.getSt sp).next = [m, m + 1])
    (hsucc : (B.getSt (m + 1)).kind = .schar c)
    (hc : ¬ c = charAt s pp) :
    engine (g + 2) (.qNext B sp s pp) =
      some (.rTrip m (pp + 1)
        (B.putStr sp ((B.getSt sp).matchedStr ++ [charAt s pp]))) := by
  conv_lhs => rw [engine.eq_def]
  simp only []
  rw [hk]
  simp only []
  rw [hn]
  rw [show ([m, m + 1] : List Nat).getD 1 0 = m + 1 from rfl]
  rw [show ([m, m + 1] : List Nat).getD 0 0 = m from rfl]
  rw [if_neg (show ¬ (B.getSt (m + 1)).kind.tag = StTag.tmatch by
    rw [hsucc]; intro h; cases h)]
  rw [qCheck_char hsucc]
  simp only []
  rw [if_neg (show ¬ (decide (c = charAt s pp) = true) by simp [hc])]

/-! ### The state layout of `litStarAuto` -/

theorem chainSts_getD : ∀ (cs : List Char) (off j : Nat), j < cs.length →
    (chainSts off cs).getD j dfltSt = .mk (.schar (cs.getD j nul)) [off + j + 1] [] := by
  intro cs
  induction cs with
  | nil => intro off j hj; cases hj
  | cons c cs ih =>
    intro off j hj
    cases j with
    | zero => rfl
    | succ j2 =>
      show (chainSts (off + 1) cs).getD j2 dfltSt = _
      rw [ih (off + 1) j2 (by simp at hj; omega)]
      rw [show off + 1 + j2 + 1 = off + (j2 + 1) + 1 by omega]
      rfl

theorem litStar_getSt_char1 (p1 p2 : List Char) {j : Nat} (hj : j < p1.length) :
    (litStarAuto p1 p2).getSt j = .mk (.schar (p1.getD j nul)) [j + 1] [] := by
  show ((chainSts 0 p1 ++ _ :: _).getD j dfltSt) = _
  rw [List.getD_append _ _ _ _ (by rw [chainSts_length]; exact hj)]
  rw [chainSts_getD p1 0 j hj]
  rw [Nat.zero_add]

theorem litStar_getSt_star (p1 p2 : List Char) :
    (litStarAuto p1 p2).getSt p1.length =
      .mk .sstar [p1.length, p1.length + 1] [] := by
  show ((chainSts 0 p1 ++ _ :: _).getD p1.length dfltSt) = _
  rw [List.getD_eq_getElem?_getD, List.getElem?_append_right (by rw [chainSts_length])]
  rw [chainSts_length]
  simp

theorem litStar_getSt_char2 (p1 p2 : List Char) {j : Nat} (hj : j < p2.length) :
    (litStarAuto p1 p2).getSt (p1.length + 1 + j) =
      .mk (.schar (p2.getD j nul)) [p1.length + 1 + j + 1] [] := by
  show ((chainSts 0 p1 ++ _ :: (chainSts (p1.length + 1) p2 ++ _)).getD
    (p1.length + 1 + j) dfltSt) = _
  rw [List.getD_eq_getElem?_getD,
    List.getElem?_append_right (by rw [chainSts_length]; omega)]
  rw [chainSts_length]
  rw [show p1.length + 1 + j - p1.length = j + 1 by omega]
  rw [List.getElem?_cons_succ]
  rw [List.getElem?_append_left (by rw [chainSts_length]; exact hj)]
  rw [show (chainSts (p1.length + 1) p2)[j]? =
    some ((chainSts (p1.length + 1) p2).getD j dfltSt) by
      rw [List.getD_eq_getElem?_getD]
      cases he : (chainSts (p1.length + 1) p2)[j]? with
      | none =>
        rw [List.getElem?_eq_none_iff] at he
        rw [chainSts_length] at he
        omega
      | some v => rfl]
  rw [chainSts_getD p2 (p1.length + 1) j hj]
  rfl

theorem litStar_getSt_match (p1 p2 : List Char) :
    (litStarAuto p1 p2).getSt (p1.length + p2.length + 1) = .mk .smatch [] [] := by
  show ((chainSts 0 p1 ++ _ :: (chainSts (p1.length + 1) p2 ++ _)).getD
    (p1.length + p2.length + 1) dfltSt) = _
  rw [List.getD_eq_getElem?_getD,
    List.getElem?_append_right (by rw [chainSts_length]; omega)]
  rw [chainSts_length]
  rw [show p1.length + p2.length + 1 - p1.length = p2.length + 1 by omega]
  rw [List.getElem?_cons_succ]
  rw [List.getElem?_append_right (by rw [chainSts_length])]
  rw [chainSts_length]
  simp

theorem litStar_failIdx (p1 p2 : List Char) :
    (litStarAuto p1 p2).failIdx = p1.length + p2.length + 2 := rfl

theorem litStar_matchIdx (p1 p2 : List Char) :
    (litStarAuto p1 p2).matchIdx = p1.length + p2.length + 1 := rfl

/-! ### Facts about any automaton strip-equal to `litStarAuto` -/

theorem stripB_kind_next {B A : Automaton} (hB : stripAuto B = stripAuto A) {i : Nat}
    {k : StKind} {n : List Nat}
    (hA : A.getSt i = .mk k [] [] → False) : True := trivial

theorem stripB_char {B A : Automaton} (hB : stripAuto B = stripAuto A) {i : Nat}
    {c : Char} {n : List Nat} {ms : List Char}
    (hA : A.getSt i = .mk (.schar c) n ms) :
    (B.getSt i).kind = .schar c ∧ (B.getSt i).next = n := by
  have hss := stripSt_getSt hB i
  rw [hA] at hss
  constructor
  · have hk := congrArg St.kind hss
    rw [stripSt_kind, stripSt_kind] at hk
    exact stripKind_schar (by rw [hk]; rfl)
  · have hn := congrArg St.next hss
    rw [stripSt_next, stripSt_next] at hn
    exact hn

theorem stripB_star {B A : Automaton} (hB : stripAuto B = stripAuto A) {i : Nat}
    {n : List Nat} {ms : List Char}
    (hA : A.getSt i = .mk .sstar n ms) :
    (B.getSt i).kind = .sstar ∧ (B.getSt i).next = n := by
  have hss := stripSt_getSt hB i
  rw [hA] at hss
  constructor
  · have hk := congrArg St.kind hss
    rw [stripSt_kind, stripSt_kind] at hk
    exact stripKind_sstar (by rw [hk]; rfl)
  · have hn := congrArg St.next hss
    rw [stripSt_next, stripSt_next] at hn
    exact hn

theorem stripB_smatch {B A : Automaton} (hB : stripAuto B = stripAuto A) {i : Nat}
    {n : List Nat} {ms : List Char}
    (hA : A.getSt i = .mk .smatch n ms) :
    (B.getSt i).kind = .smatch := by
  have hss := stripSt_getSt hB i
  rw [hA] at hss
  have hk := congrArg St.kind hss
  rw [stripSt_kind, stripSt_kind] at hk
  exact stripKind_smatch (by rw [hk]; rfl)

/-! ### Running a chain of character states -/

theorem runChainOk (s : List Char) (p1 p2 : List Char) :
    ∀ (cs : List Char) (off pos : Nat) (B : Automaton) (f : Nat),
    stripAuto B = stripAuto (litStarAuto p1 p2) →
    (∀ j, j < cs.length → (litStarAuto p1 p2).getSt (off + j) =
      .mk (.schar (cs.getD j nul)) [off + j + 1] []) →
    (∀ j, j < cs.length → charAt s (pos + j) = cs.getD j nul) →
    pos + cs.length ≤ s.length →
    off + cs.length ≤ p1.length + p2.length + 1 →
    cs.length < f →
    ∃ B', stripAuto B' = stripAuto (litStarAuto p1 p2) ∧
      engine f (.qRun B s off pos) =
        engine (f - cs.length) (.qRun B' s (off + cs.length) (pos + cs.length)) := by
  intro cs
  induction cs with
  | nil =>
    intro off pos B f hB hchain hchar hslen hoff hf
    exact ⟨B, hB, by simp⟩
  | cons c cs ih =>
    intro off pos B f hB hchain hchar hslen hoff hf
    obtain ⟨hfail, hmatch, _, _, _⟩ := strip_pack hB
    rw [litStar_failIdx] at hfail
    rw [litStar_matchIdx] at hmatch
    have hlen : (c :: cs).length = cs.length + 1 := rfl
    rw [hlen] at hslen hoff hf
    cases f with
    | zero => omega
    | succ g =>
      cases g with
      | zero => omega
      | succ g2 =>
        have hk := stripB_char hB (hchain 0 (by simp))
        have hk1 : (B.getSt off).kind = .schar c := hk.1
        have hk2 : (B.getSt off).next = [off + 1] := hk.2
        have hc0 : charAt s pos = c := hchar 0 (by simp)
        have hstep : engine (g2 + 1 + 1) (.qRun B s off pos) =
            engine (g2 + 1) (.qRun (B.putStr off [c]) s (off + 1) (pos + 1)) := by
          apply qRun_step
          · push_neg
            rw [hfail, hmatch]
            exact ⟨by omega, by omega, by omega⟩
          · exact qNext_char_hit hk1 hk2 hc0.symm
        rw [hstep]
        have hres := ih (off + 1) (pos + 1) (B.putStr off [c]) (g2 + 1)
          (by rw [stripAuto_putStr]; exact hB)
          (fun j hj => by
            have h3 := hchain (j + 1) (by rw [hlen]; omega)
            rw [show off + (j + 1) = off + 1 + j by omega] at h3
            rw [show off + 1 + j + 1 = off + 1 + j + 1 from rfl]
            exact h3)
          (fun j hj => by
            have h3 := hchar (j + 1) (by rw [hlen]; omega)
            rw [show pos + (j + 1) = pos + 1 + j by omega] at h3
            exact h3)
          (by omega)
          (by omega)
          (by omega)
        obtain ⟨B', hB', heq⟩ := hres
        refine ⟨B', hB', ?_⟩
        rw [heq, hlen]
        rw [show g2 + 1 + 1 - (cs.length + 1) = g2 + 1 - cs.length by omega]
        rw [show off + (cs.length + 1) = off + 1 + cs.length by omega]
        rw [show pos + (cs.length + 1) = pos + 1 + cs.length by omega]

/-! ### From a finished run to the `glob_match` verdict -/

theorem execBool_true_of_match {B B' : Automaton} {s : List Char} {f sp pp : Nat}
    (hrun : engine f (.qRun B s 0 0) = some (.rTrip sp pp B'))
    (hsp : sp = B'.matchIdx) (hpp : pp = s.length) :
    execBool (f + 1) B s = some true := by
  unfold execBool execTopA execAuxA
  conv_lhs => rw [engine.eq_def]
  simp only []
  rw [hrun]
  simp only []
  rw [if_neg (show ¬(pp = s.length ∧ ¬sp = B'.failIdx ∧ ¬sp = B'.matchIdx ∧
      (B'.getSt sp).kind.tag = .tmult ∧ 1 < (B'.getSt sp).next.length ∧
      (B'.getSt ((B'.getSt sp).next.getD 1 0)).kind.tag = .tmatch)
    from fun h => h.2.2.1 hsp)]
  rw [if_pos (show sp = B'.matchIdx ∧ pp = s.length from ⟨hsp, hpp⟩)]
  rfl

theorem execBool_false_of_fail {B B' : Automaton} {s : List Char} {f sp pp : Nat}
    (hrun : engine f (.qRun B s 0 0) = some (.rTrip sp pp B'))
    (hsp : sp = B'.failIdx) (hne : B'.failIdx ≠ B'.matchIdx) :
    execBool (f + 1) B s = some false := by
  unfold execBool execTopA execAuxA
  conv_lhs => rw [engine.eq_def]
  simp only []
  rw [hrun]
  simp only []
  rw [if_neg (show ¬(pp = s.length ∧ ¬sp = B'.failIdx ∧ ¬sp = B'.matchIdx ∧
      (B'.getSt sp).kind.tag = .tmult ∧ 1 < (B'.getSt sp).next.length ∧
      (B'.getSt ((B'.getSt sp).next.getD 1 0)).kind.tag = .tmatch)
    from fun h => h.2.1 hsp)]
  rw [if_neg (show ¬(sp = B'.matchIdx ∧ pp = s.length)
    from fun h => hne (hsp ▸ h.1))]
  rfl

theorem execBool_false_of_match_early {B B' : Automaton} {s : List Char} {f sp pp : Nat}
    (hrun : engine f (.qRun B s 0 0) = some (.rTrip sp pp B'))
    (hsp : sp = B'.matchIdx) (hpp : ¬ pp = s.length) :
    execBool (f + 1) B s = some false := by
  unfold execBool execTopA execAuxA
  conv_lhs => rw [engine.eq_def]
  simp only []
  rw [hrun]
  simp only []
  rw [if_neg (show ¬(pp = s.length ∧ ¬sp = B'.failIdx ∧ ¬sp = B'.matchIdx ∧
      (B'.getSt sp).kind.tag = .tmult ∧ 1 < (B'.getSt sp).next.length ∧
      (B'.getSt ((B'.getSt sp).next.getD 1 0)).kind.tag = .tmatch)
    from fun h => h.2.2.1 hsp)]
  rw [if_neg (show ¬(sp = B'.matchIdx ∧ pp = s.length) from fun h => hpp h.2)]
  rfl

theorem execBool_false_of_nonmult {B B' : Automaton} {s : List Char} {f sp pp : Nat}
    (hrun : engine f (.qRun B s 0 0) = some (.rTrip sp pp B'))
    (htag : ¬ (B'.getSt sp).kind.tag = .tmult) (hsp : ¬ sp = B'.matchIdx) :
    execBool (f + 1) B s = some false := by
  unfold execBool execTopA execAuxA
  conv_lhs => rw [engine.eq_def]
  simp only []
  rw [hrun]
  simp only []
  rw [if_neg (show ¬(pp = s.length ∧ ¬sp = B'.failIdx ∧ ¬sp = B'.matchIdx ∧
      (B'.getSt sp).kind.tag = .tmult ∧ 1 < (B'.getSt sp).next.length ∧
      (B'.getSt ((B'.getSt sp).next.getD 1 0)).kind.tag = .tmatch)
    from fun h => htag h.2.2.2.1)]
  rw [if_neg (show ¬(sp = B'.matchIdx ∧ pp = s.length) from fun h => hsp h.1)]
  rfl

theorem execBool_false_of_star_nosucc {B B' : Automaton} {s : List Char} {f sp pp : Nat}
    (hrun : engine f (.qRun B s 0 0) = some (.rTrip sp pp B'))
    (htag : ¬ (B'.getSt ((B'.getSt sp).next.getD 1 0)).kind.tag = .tmatch)
    (hsp : ¬ sp = B'.matchIdx) :
    execBool (f + 1) B s = some false := by
  unfold execBool execTopA execAuxA
  conv_lhs => rw [engine.eq_def]
  simp only []
  rw [hrun]
  simp only []
  rw [if_neg (show ¬(pp = s.length ∧ ¬sp = B'.failIdx ∧ ¬sp = B'.matchIdx ∧
      (B'.getSt sp).kind.tag = .tmult ∧ 1 < (B'.getSt sp).next.length ∧
      (B'.getSt ((B'.getSt sp).next.getD 1 0)).kind.tag = .tmatch)
    from fun h => htag h.2.2.2.2.2)]
  rw [if_neg (show ¬(sp = B'.matchIdx ∧ pp = s.length) from fun h => hsp h.1)]
  rfl

/-! ### Exits that yield the verdict `false` -/

/-- The ways a finished run fails the `comp_end` verdict check of
`ExecAux`. -/
def FalseExitP (s : List Char) (B' : Automaton) (SP PP : Nat) : Prop :=
  (SP = B'.failIdx ∧ B'.failIdx ≠ B'.matchIdx) ∨
  (¬ (B'.getSt SP).kind.tag = .tmult ∧ ¬ SP = B'.matchIdx) ∨
  (¬ (B'.getSt ((B'.getSt SP).next.getD 1 0)).kind.tag = .tmatch ∧ ¬ SP = B'.matchIdx) ∨
  (SP = B'.matchIdx ∧ ¬ PP = s.length)

theorem execBool_false_of_falseExit {B B' : Automaton} {s : List Char} {f SP PP : Nat}
    (hrun : engine f (.qRun B s 0 0) = some (.rTrip SP PP B'))
    (hfe : FalseExitP s B' SP PP) :
    execBool (f + 1) B s = some false := by
  rcases hfe with ⟨h1, h2⟩ | ⟨h1, h2⟩ | ⟨h1, h2⟩ | ⟨h1, h2⟩
  · exact execBool_false_of_fail hrun h1 h2
  · exact execBool_false_of_nonmult hrun h1 h2
  · exact execBool_false_of_star_nosucc hrun h1 h2
  · exact execBool_false_of_match_early hrun h1 h2

/-- The one-char-lookahead scan of `StateStar::Next`: consume until the
first occurrence of `h` (the head of the trailing literal), then
require the remainder to be exactly `p2`. -/
def starScan (h : Char) (p2 : List Char) : List Char → Bool
  | [] => false
  | c :: r => if c = h then decide (c :: r = p2) else starScan h p2 r

theorem runChainFalse (s : List Char) (p1 p2 : List Char) :
    ∀ (cs : List Char) (off pos : Nat) (B : Automaton),
    stripAuto B = stripAuto (litStarAuto p1 p2) →
    (∀ j, j < cs.length → (litStarAuto p1 p2).getSt (off + j) =
      .mk (.schar (cs.getD j nul)) [off + j + 1] []) →
    off + cs.length ≤ p1.length + p2.length + 1 →
    pos ≤ s.length →
    ¬((∀ j, j < cs.length → charAt s (pos + j) = cs.getD j nul) ∧
      pos + cs.length ≤ s.length) →
    ∃ f B' SP PP, stripAuto B' = stripAuto (litStarAuto p1 p2) ∧
      engine f (.qRun B s off pos) = some (.rTrip SP PP B') ∧
      FalseExitP s B' SP PP := by
  intro cs
  induction cs with
  | nil =>
    intro off pos B hB hchain hoff hpos hbad
    exact absurd ⟨fun j hj => absurd hj (Nat.not_lt_zero j), by simpa using hpos⟩ hbad
  | cons c cs ih =>
    intro off pos B hB hchain hoff hpos hbad
    obtain ⟨hfail, hmatch, _, _, _⟩ := strip_pack hB
    rw [litStar_failIdx] at hfail
    rw [litStar_matchIdx] at hmatch
    have hk := stripB_char hB (hchain 0 (by simp))
    have hk1 : (B.getSt off).kind = .schar c := hk.1
    have hk2 : (B.getSt off).next = [off + 1] := hk.2
    have hlen : (c :: cs).length = cs.length + 1 := rfl
    rw [hlen] at hoff
    by_cases hps : pos = s.length
    · -- the input is exhausted at a character state: exit, not MULT
      refine ⟨1, B, off, pos, hB, qRun_exit (Or.inr (Or.inr (by omega))), ?_⟩
      refine Or.inr (Or.inl ⟨?_, by omega⟩)
      rw [hk1]
      intro h
      cases h
    · have hpos2 : pos < s.length := by omega
      by_cases hc : charAt s pos = c
      · -- the character matches: step into the tail of the chain
        have hbad2 : ¬((∀ j, j < cs.length → charAt s (pos + 1 + j) = cs.getD j nul) ∧
            pos + 1 + cs.length ≤ s.length) := by
          intro ⟨ha, hb⟩
          apply hbad
          constructor
          · intro j hj
            cases j with
            | zero => exact hc
            | succ j2 =>
              have := ha j2 (by rw [hlen] at hj; omega)
              rw [show pos + 1 + j2 = pos + (j2 + 1) by omega] at this
              exact this
          · rw [hlen]
            omega
        obtain ⟨f2, B', SP, PP, hB', hrun, hfe⟩ :=
          ih (off + 1) (pos + 1) (B.putStr off [c])
            (by rw [stripAuto_putStr]; exact hB)
            (fun j hj => by
              have h3 := hchain (j + 1) (by rw [hlen]; omega)
              rw [show off + (j + 1) = off + 1 + j by omega] at h3
              exact h3)
            (by omega) (by omega) hbad2
        refine ⟨f2 + 2 + 1, B', SP, PP, hB', ?_, hfe⟩
        rw [qRun_step (by push_neg; rw [hfail, hmatch]; exact ⟨by omega, by omega, by omega⟩)
          (qNext_char_hit hk1 hk2 hc.symm)]
        exact engineMono f2 (f2 + 2) (by omega) _ _ hrun
      · -- mismatch: step to the fail state and exit there
        refine ⟨3, B, B.failIdx, pos + 1, hB, ?_, Or.inl ⟨rfl, by rw [hfail, hmatch]; omega⟩⟩
        rw [qRun_step (by push_neg; rw [hfail, hmatch]; exact ⟨by omega, by omega, by omega⟩)
          (qNext_char_miss hk1 (fun h => hc h.symm))]
        exact qRun_exit (Or.inl rfl)

theorem drop_cons_charAt {s : List Char} {pos : Nat} (h : pos < s.length) :
    s.drop pos = charAt s pos :: s.drop (pos + 1) := by
  rw [List.drop_eq_getElem_cons h]
  congr 1
  rw [charAt, List.getD_eq_getElem?_getD, List.getElem?_eq_getElem h]
  rfl

theorem drop_eq_of_agree : ∀ (cs : List Char) (s : List Char) (pos : Nat),
    (∀ j, j < cs.length → charAt s (pos + j) = cs.getD j nul) →
    pos + cs.length = s.length →
    s.drop pos = cs := by
  intro cs
  induction cs with
  | nil =>
    intro s pos hagree hlen
    simp at hlen
    exact List.drop_eq_nil_of_le (by omega)
  | cons c cs ih =>
    intro s pos hagree hlen
    have hpos : pos < s.length := by simp at hlen; omega
    rw [drop_cons_charAt hpos]
    have h0 : charAt s pos = c := hagree 0 (by simp)
    rw [h0]
    congr 1
    apply ih s (pos + 1)
    · intro j hj
      have := hagree (j + 1) (by simp; omega)
      rw [show pos + (j + 1) = pos + 1 + j by omega] at this
      exact this
    · simp at hlen
      omega

theorem agree_of_drop_eq : ∀ (cs : List Char) (s : List Char) (pos : Nat),
    pos ≤ s.length → s.drop pos = cs →
    (∀ j, j < cs.length → charAt s (pos + j) = cs.getD j nul) ∧
      pos + cs.length = s.length := by
  intro cs
  induction cs with
  | nil =>
    intro s pos hpos hdrop
    refine ⟨fun j hj => absurd hj (Nat.not_lt_zero j), ?_⟩
    have := congrArg List.length hdrop
    rw [List.length_drop] at this
    simp at this ⊢
    omega
  | cons c cs ih =>
    intro s pos hpos hdrop
    have hpos2 : pos < s.length := by
      by_contra hcon
      rw [List.drop_eq_nil_of_le (by omega)] at hdrop
      cases hdrop
    rw [drop_cons_charAt hpos2] at hdrop
    injection hdrop with hd ht
    obtain ⟨ha, hl⟩ := ih s (pos + 1) (by omega) ht
    constructor
    · intro j hj
      cases j with
      | zero => exact hd
      | succ j2 =>
        have := ha j2 (by simp at hj; omega)
        rw [show pos + 1 + j2 = pos + (j2 + 1) by omega] at this
        exact this
    · simp
      omega

theorem runStarLoop (s p1 : List Char) (c2 : Char) (p2' : List Char) :
    ∀ (k pos : Nat) (B : Automaton),
    s.length - pos = k → pos ≤ s.length →
    stripAuto B = stripAuto (litStarAuto p1 (c2 :: p2')) →
    ∃ f B' SP PP, stripAuto B' = stripAuto (litStarAuto p1 (c2 :: p2')) ∧
      engine f (.qRun B s p1.length pos) = some (.rTrip SP PP B') ∧
      (if starScan c2 (c2 :: p2') (s.drop pos) = true
       then SP = B'.matchIdx ∧ PP = s.length
       else FalseExitP s B' SP PP) := by
  intro k
  induction k with
  | zero =>
    intro pos B hk hpos hB
    obtain ⟨hfail, hmatch, _, _, _⟩ := strip_pack hB
    rw [litStar_failIdx] at hfail
    rw [litStar_matchIdx] at hmatch
    have hstar := stripB_star hB (litStar_getSt_star p1 (c2 :: p2'))
    have hsucc := stripB_char hB (litStar_getSt_char2 p1 (c2 :: p2')
      (show 0 < (c2 :: p2').length by simp))
    have hsucc1 : (B.getSt (p1.length + 1)).kind = .schar c2 := hsucc.1
    have hdrop : s.drop pos = [] := List.drop_eq_nil_of_le (by omega)
    rw [hdrop]
    rw [show starScan c2 (c2 :: p2') [] = false from rfl]
    simp only [Bool.false_eq_true, if_false]
    refine ⟨1, B, p1.length, pos, hB, qRun_exit (Or.inr (Or.inr (by omega))), ?_⟩
    refine Or.inr (Or.inr (Or.inl ⟨?_, by rw [hmatch]; simp; omega⟩))
    rw [hstar.2]
    rw [show ([p1.length, p1.length + 1] : List Nat).getD 1 0 = p1.length + 1 from rfl]
    rw [hsucc1]
    intro h
    cases h
  | succ k ih =>
    intro pos B hk hpos hB
    obtain ⟨hfail, hmatch, _, _, _⟩ := strip_pack hB
    rw [litStar_failIdx] at hfail
    rw [litStar_matchIdx] at hmatch
    have hstar := stripB_star hB (litStar_getSt_star p1 (c2 :: p2'))
    have hsucc := stripB_char hB (litStar_getSt_char2 p1 (c2 :: p2')
      (show 0 < (c2 :: p2').length by simp))
    have hsucc1 : (B.getSt (p1.length + 1)).kind = .schar c2 := hsucc.1
    have hpos2 : pos < s.length := by omega
    have hdrop := drop_cons_charAt hpos2
    have hnotexit : ¬(p1.length = B.failIdx ∨ p1.length = B.matchIdx ∨
        s.length ≤ pos) := by
      push_neg
      rw [hfail, hmatch]
      exact ⟨by simp; omega, by simp; omega, by omega⟩
    by_cases hc : charAt s pos = c2
    · -- the lookahead succeeds: commit to the successor, position kept
      by_cases hgood : (∀ j, j < (c2 :: p2').length →
          charAt s (pos + j) = (c2 :: p2').getD j nul) ∧
          pos + (c2 :: p2').length ≤ s.length
      · -- the whole trailing literal is present here
        obtain ⟨B1, hB1, hchain⟩ := runChainOk s p1 (c2 :: p2') (c2 :: p2')
          (p1.length + 1) pos B ((c2 :: p2').length + 1) hB
          (fun j hj => litStar_getSt_char2 p1 (c2 :: p2') hj)
          hgood.1 hgood.2 (by simp; omega) (by omega)
        obtain ⟨hfail1, hmatch1, _, _, _⟩ := strip_pack hB1
        rw [litStar_matchIdx] at hmatch1
        have hexit : engine 1 (.qRun B1 s (p1.length + 1 + (c2 :: p2').length)
            (pos + (c2 :: p2').length)) =
            some (.rTrip (p1.length + 1 + (c2 :: p2').length)
              (pos + (c2 :: p2').length) B1) :=
          qRun_exit (Or.inr (Or.inl (by rw [hmatch1]; simp; omega)))
        rw [show ((c2 :: p2').length + 1) - (c2 :: p2').length = 1 by omega] at hchain
        rw [hexit] at hchain
        by_cases hend : pos + (c2 :: p2').length = s.length
        · -- exact fit: the run accepts
          have hscan : starScan c2 (c2 :: p2') (s.drop pos) = true := by
            rw [drop_eq_of_agree (c2 :: p2') s pos hgood.1 hend]
            show starScan c2 (c2 :: p2') (c2 :: p2') = true
            unfold starScan
            rw [if_pos rfl]
            simp
          rw [hscan]
          simp only [if_true]
          refine ⟨(c2 :: p2').length + 1 + 2 + 1, B1, p1.length + 1 + (c2 :: p2').length,
            pos + (c2 :: p2').length, hB1, ?_,
            ⟨by rw [hmatch1]; simp; omega, hend⟩⟩
          rw [qRun_step hnotexit (qNext_star_hit hstar.1 hstar.2 hsucc1 hc.symm)]
          exact engineMono ((c2 :: p2').length + 1) ((c2 :: p2').length + 1 + 2)
            (by omega) _ _ hchain
        · -- the literal fits but the input continues: match state too early
          have hscan : starScan c2 (c2 :: p2') (s.drop pos) = false := by
            rw [hdrop, hc]
            show (if c2 = c2 then decide (c2 :: s.drop (pos + 1) = c2 :: p2') else _) = false
            rw [if_pos rfl, decide_eq_false_iff_not]
            intro heq
            have := agree_of_drop_eq (c2 :: p2') s pos (by omega) (by rw [hdrop, hc, heq])
            exact hend this.2
          rw [hscan]
          simp only [Bool.false_eq_true, if_false]
          refine ⟨(c2 :: p2').length + 1 + 2 + 1, B1, p1.length + 1 + (c2 :: p2').length,
            pos + (c2 :: p2').length, hB1, ?_, Or.inr (Or.inr (Or.inr
              ⟨by rw [hmatch1]; simp; omega, hend⟩))⟩
          rw [qRun_step hnotexit (qNext_star_hit hstar.1 hstar.2 hsucc1 hc.symm)]
          exact engineMono ((c2 :: p2').length + 1) ((c2 :: p2').length + 1 + 2)
            (by omega) _ _ hchain
      · -- the trailing literal does not fit here: the chain fails
        obtain ⟨f2, B', SP, PP, hB', hrun, hfe⟩ := runChainFalse s p1 (c2 :: p2')
          (c2 :: p2') (p1.length + 1) pos B hB
          (fun j hj => litStar_getSt_char2 p1 (c2 :: p2') hj)
          (by simp; omega) (by omega) hgood
        have hscan : starScan c2 (c2 :: p2') (s.drop pos) = false := by
          rw [hdrop, hc]
          show (if c2 = c2 then decide (c2 :: s.drop (pos + 1) = c2 :: p2') else _) = false
          rw [if_pos rfl, decide_eq_false_iff_not]
          intro heq
          exact hgood ⟨(agree_of_drop_eq (c2 :: p2') s pos (by omega)
            (by rw [hdrop, hc, heq])).1,
            by have := (agree_of_drop_eq (c2 :: p2') s pos (by omega)
                (by rw [hdrop, hc, heq])).2
               omega⟩
        rw [hscan]
        simp only [Bool.false_eq_true, if_false]
        refine ⟨f2 + 2 + 1, B', SP, PP, hB', ?_, hfe⟩
        rw [qRun_step hnotexit (qNext_star_hit hstar.1 hstar.2 hsucc1 hc.symm)]
        exact engineMono f2 (f2 + 2) (by omega) _ _ hrun
    · -- the lookahead fails: the star consumes one character
      obtain ⟨f2, B', SP, PP, hB', hrun, hres⟩ := ih (pos + 1)
        (B.putStr p1.length ((B.getSt p1.length).matchedStr ++ [charAt s pos]))
        (by omega) (by omega) (by rw [stripAuto_putStr]; exact hB)
      have hscan : starScan c2 (c2 :: p2') (s.drop pos) =
          starScan c2 (c2 :: p2') (s.drop (pos + 1)) := by
        rw [hdrop]
        show (if charAt s pos = c2 then _ else starScan c2 (c2 :: p2') (s.drop (pos + 1)))
          = _
        rw [if_neg hc]
      rw [hscan]
      refine ⟨f2 + 2 + 1, B', SP, PP, hB', ?_, hres⟩
      rw [qRun_step hnotexit (qNext_star_miss hstar.1 hstar.2 hsucc1
        (fun h => hc h.symm))]
      exact engineMono f2 (f2 + 2) (by omega) _ _ hrun

/-! ### The verdict of `glob_match` on a literal-star pattern -/

/-- What the interpreter actually computes for `p1*p2`: the input must
start with `p1`; a trailing `*` then accepts everything, while a
nonempty `p2` is searched by committing to the *first* position whose
character equals the head of `p2`. -/
def litStarMatch (p1 p2 s : List Char) : Bool :=
  if s.take p1.length = p1 then
    match p2 with
    | [] => true
    | c2 :: _ => starScan c2 p2 (s.drop p1.length)
  else false

theorem charAt_lt {s : List Char} {j : Nat} (h : j < s.length) :
    charAt s j = s[j] := by
  rw [charAt, List.getD_eq_getElem?_getD, List.getElem?_eq_getElem h]
  rfl

theorem take_agree {s cs : List Char} (h : s.take cs.length = cs) :
    (∀ j, j < cs.length → charAt s (0 + j) = cs.getD j nul) ∧ cs.length ≤ s.length := by
  have hlen : cs.length ≤ s.length := by
    have := congrArg List.length h
    rw [List.length_take] at this
    omega
  refine ⟨?_, hlen⟩
  intro j hj
  rw [show 0 + j = j by omega]
  rw [charAt_lt (by omega)]
  have h2 : (s.take cs.length)[j]? = cs[j]? := by rw [h]
  rw [List.getElem?_take_of_lt hj,
    List.getElem?_eq_getElem (show j < s.length by omega),
    List.getElem?_eq_getElem hj] at h2
  injection h2 with h3
  rw [h3, List.getD_eq_getElem?_getD, List.getElem?_eq_getElem hj]
  rfl

theorem take_of_agree {s cs : List Char}
    (hag : ∀ j, j < cs.length → charAt s (0 + j) = cs.getD j nul)
    (hlen : cs.length ≤ s.length) :
    s.take cs.length = cs := by
  apply List.ext_getElem?
  intro j
  by_cases hj : j < cs.length
  · rw [List.getElem?_take_of_lt hj, List.getElem?_eq_getElem (by omega),
      List.getElem?_eq_getElem hj]
    have := hag j hj
    rw [show 0 + j = j by omega, charAt_lt (by omega)] at this
    rw [this, List.getD_eq_getElem?_getD, List.getElem?_eq_getElem hj]
    rfl
  · rw [List.getElem?_eq_none_iff.mpr (by rw [List.length_take]; omega),
      List.getElem?_eq_none_iff.mpr (by omega)]

theorem execBool_true_of_trailing {B B' : Automaton} {s : List Char} {f sp pp : Nat}
    (hrun : engine f (.qRun B s 0 0) = some (.rTrip sp pp B'))
    (hpp : pp = s.length) (hf : ¬ sp = B'.failIdx) (hm : ¬ sp = B'.matchIdx)
    (htag : (B'.getSt sp).kind.tag = .tmult)
    (hlen2 : 1 < (B'.getSt sp).next.length)
    (hsucc : (B'.getSt ((B'.getSt sp).next.getD 1 0)).kind.tag = .tmatch)
    (hspf : (B'.getSt sp).next.getD 1 0 = B'.matchIdx) :
    execBool (f + 1) B s = some true := by
  unfold execBool execTopA execAuxA
  conv_lhs => rw [engine.eq_def]
  simp only []
  rw [hrun]
  simp only []
  rw [if_pos (show pp = s.length ∧ ¬sp = B'.failIdx ∧ ¬sp = B'.matchIdx ∧
      (B'.getSt sp).kind.tag = .tmult ∧ 1 < (B'.getSt sp).next.length ∧
      (B'.getSt ((B'.getSt sp).next.getD 1 0)).kind.tag = .tmatch
    from ⟨hpp, hf, hm, htag, hlen2, hsucc⟩)]
  rw [if_pos (show (B'.getSt sp).next.getD 1 0 = B'.matchIdx ∧ pp = s.length
    from ⟨hspf, hpp⟩)]
  rfl

theorem litStarMatch_nil_take {p1 s : List Char} (hpre : s.take p1.length = p1) :
    litStarMatch p1 [] s = true := by
  unfold litStarMatch
  rw [if_pos hpre]

theorem litStarMatch_cons_take {p1 : List Char} {c2 : Char} {p2' : List Char}
    {s : List Char} (hpre : s.take p1.length = p1) :
    litStarMatch p1 (c2 :: p2') s = starScan c2 (c2 :: p2') (s.drop p1.length) := by
  unfold litStarMatch
  rw [if_pos hpre]

theorem litStarMatch_neg {p1 p2 s : List Char} (h : ¬ s.take p1.length = p1) :
    litStarMatch p1 p2 s = false := by
  unfold litStarMatch
  rw [if_neg h]

/-- The ways a run can exit so that `ExecAux` reports success (either the
match state was reached with the input consumed, or the run stopped on a
trailing `MULT` state whose second successor is the match state and the
`comp_end` adjustment promotes it). -/
def TrueExitP (s : List Char) (B' : Automaton) (SP PP : Nat) : Prop :=
  (SP = B'.matchIdx ∧ PP = s.length) ∨
  (PP = s.length ∧ ¬ SP = B'.failIdx ∧ ¬ SP = B'.matchIdx ∧
    (B'.getSt SP).kind.tag = .tmult ∧ 1 < (B'.getSt SP).next.length ∧
    (B'.getSt ((B'.getSt SP).next.getD 1 0)).kind.tag = .tmatch ∧
    (B'.getSt SP).next.getD 1 0 = B'.matchIdx)

theorem execBool_true_of_trueExit {B B' : Automaton} {s : List Char} {f SP PP : Nat}
    (hrun : engine f (.qRun B s 0 0) = some (.rTrip SP PP B'))
    (hte : TrueExitP s B' SP PP) :
    execBool (f + 1) B s = some true := by
  rcases hte with ⟨h1, h2⟩ | ⟨h1, h2, h3, h4, h5, h6, h7⟩
  · exact execBool_true_of_match hrun h1 h2
  · exact execBool_true_of_trailing hrun h1 h2 h3 h4 h5 h6 h7

theorem trueExit_strip {s : List Char} {B1 B2 : Automaton} {SP PP : Nat}
    (h : stripAuto B1 = stripAuto B2) (ht : TrueExitP s B2 SP PP) :
    TrueExitP s B1 SP PP := by
  obtain ⟨hfail, hmatch, hnext, _, htag⟩ := strip_pack h
  rcases ht with ⟨h1, h2⟩ | ⟨h1, h2, h3, h4, h5, h6, h7⟩
  · exact Or.inl ⟨by rw [hmatch]; exact h1, h2⟩
  · refine Or.inr ⟨h1, by rw [hfail]; exact h2, by rw [hmatch]; exact h3,
      by rw [htag SP]; exact h4, by rw [hnext SP]; exact h5, ?_, ?_⟩
    · rw [hnext SP, htag]
      exact h6
    · rw [hnext SP, hmatch]
      exact h7

theorem falseExit_strip {s : List Char} {B1 B2 : Automaton} {SP PP : Nat}
    (h : stripAuto B1 = stripAuto B2) (ht : FalseExitP s B2 SP PP) :
    FalseExitP s B1 SP PP := by
  obtain ⟨hfail, hmatch, hnext, _, htag⟩ := strip_pack h
  rcases ht with ⟨h1, h2⟩ | ⟨h1, h2⟩ | ⟨h1, h2⟩ | ⟨h1, h2⟩
  · exact Or.inl ⟨by rw [hfail]; exact h1, by rw [hfail, hmatch]; exact h2⟩
  · exact Or.inr (Or.inl ⟨by rw [htag SP]; exact h1, by rw [hmatch]; exact h2⟩)
  · refine Or.inr (Or.inr (Or.inl ⟨?_, by rw [hmatch]; exact h2⟩))
    rw [hnext SP, htag]
    exact h1
  · exact Or.inr (Or.inr (Or.inr ⟨by rw [hmatch]; exact h1, h2⟩))

theorem qRun_strip_transfer {B1 B2 B' : Automaton} {s : List Char}
    {off pos f SP PP : Nat}
    (hB : stripAuto B2 = stripAuto B1)
    (h : engine f (.qRun B1 s off pos) = some (.rTrip SP PP B')) :
    ∃ B3, engine f (.qRun B2 s off pos) = some (.rTrip SP PP B3) ∧
      stripAuto B3 = stripAuto B' := by
  have hq : stripQ (.qRun B2 s off pos) = stripQ (.qRun B1 s off pos) := by
    simp only [stripQ, hB]
  have hmap := engineStrip f _ _ hq
  rw [h] at hmap
  rcases relOpt_cases hmap with ⟨h1, h2⟩ | ⟨r1, r2, h1, h2, h3⟩
  · exact Option.noConfusion h2
  · injection h2 with h2e
    subst h2e
    rcases stripR_rel h3 with ⟨sp, pp, a1, a2, he1, he2, hstrip⟩ |
      ⟨b, a1, a2, he1, he2, hst⟩ | ⟨b, q, l1, l2, he1, he2, hst⟩ |
      ⟨b, q, a1, a2, he1, he2, hst⟩
    · injection he2 with e1 e2 e3
      subst e1
      subst e2
      subst e3
      exact ⟨a1, by rw [h1, he1], hstrip⟩
    · exact EngR.noConfusion he2
    · exact EngR.noConfusion he2
    · exact EngR.noConfusion he2

/-- The star phase: starting on the `MULT` state with the prefix already
consumed, the run exits true exactly when the scan-commit semantics of
`StateStar::Next` accepts the rest of the input. -/
theorem starPhase (s p1 p2 : List Char) (B : Automaton)
    (hB : stripAuto B = stripAuto (litStarAuto p1 p2))
    (hpre : s.take p1.length = p1) :
    ∃ f B' SP PP, stripAuto B' = stripAuto (litStarAuto p1 p2) ∧
      engine f (.qRun B s p1.length p1.length) = some (.rTrip SP PP B') ∧
      (if litStarMatch p1 p2 s = true then TrueExitP s B' SP PP
       else FalseExitP s B' SP PP) := by
  have hpos : p1.length ≤ s.length := (take_agree hpre).2
  cases p2 with
  | nil =>
    obtain ⟨hfail, hmatch, _, _, _⟩ := strip_pack hB
    rw [litStar_failIdx] at hfail
    rw [litStar_matchIdx] at hmatch
    simp only [List.length_nil, Nat.add_zero] at hfail hmatch
    have hstar := stripB_star hB (litStar_getSt_star p1 [])
    have hmSt : (litStarAuto p1 []).getSt (p1.length + 1) = .mk .smatch [] [] := by
      have h0 := litStar_getSt_match p1 []
      simpa using h0
    have hsuccK := stripB_smatch hB hmSt
    have hsuccTag : (B.getSt (p1.length + 1)).kind.tag = .tmatch := by
      rw [hsuccK]
      rfl
    by_cases hend : p1.length = s.length
    · refine ⟨1, B, p1.length, p1.length, hB,
        qRun_exit (Or.inr (Or.inr (by omega))), ?_⟩
      rw [litStarMatch_nil_take hpre, if_pos rfl]
      refine Or.inr ⟨hend, by omega, by omega, by rw [hstar.1]; rfl, ?_, ?_, ?_⟩
      · rw [hstar.2]
        simp
      · rw [hstar.2,
          show ([p1.length, p1.length + 1] : List Nat).getD 1 0 = p1.length + 1
            from rfl]
        exact hsuccTag
      · rw [hstar.2,
          show ([p1.length, p1.length + 1] : List Nat).getD 1 0 = p1.length + 1
            from rfl]
        omega
    · have hne : ¬(p1.length = B.failIdx ∨ p1.length = B.matchIdx ∨
          s.length ≤ p1.length) := by
        rintro (h | h | h) <;> omega
      have hstep := qRun_step (g := 1) hne
        (qNext_star_endmatch hstar.1 hstar.2 hsuccTag)
      refine ⟨2, B.putStr p1.length (s.drop p1.length), p1.length + 1, s.length,
        by rw [stripAuto_putStr]; exact hB, ?_, ?_⟩
      · rw [hstep]
        exact qRun_exit (Or.inr (Or.inr (le_refl _)))
      · rw [litStarMatch_nil_take hpre, if_pos rfl]
        refine Or.inl ⟨?_, rfl⟩
        have hput : (B.putStr p1.length (s.drop p1.length)).matchIdx =
            B.matchIdx := rfl
        rw [hput]
        omega
  | cons c2 p2' =>
    obtain ⟨f, B', SP, PP, hB', hrun, hcond⟩ :=
      runStarLoop s p1 c2 p2' (s.length - p1.length) p1.length B rfl hpos hB
    refine ⟨f, B', SP, PP, hB', hrun, ?_⟩
    rw [litStarMatch_cons_take hpre]
    by_cases hsc : starScan c2 (c2 :: p2') (s.drop p1.length) = true
    · rw [if_pos hsc] at hcond ⊢
      exact Or.inl hcond
    · rw [if_neg hsc] at hcond ⊢
      exact hcond

/-- What `glob_match` returns on the automaton of `p1*p2`: exactly
`litStarMatch`. -/
theorem execBool_litStar (p1 p2 s : List Char) :
    ∃ f, execBool f (litStarAuto p1 p2) s = some (litStarMatch p1 p2 s) := by
  have hchain : ∀ j, j < p1.length → (litStarAuto p1 p2).getSt (0 + j) =
      .mk (.schar (p1.getD j nul)) [0 + j + 1] [] := by
    intro j hj
    simp only [Nat.zero_add]
    exact litStar_getSt_char1 p1 p2 hj
  by_cases hpre : s.take p1.length = p1
  · obtain ⟨hag, hlen⟩ := take_agree hpre
    obtain ⟨f2, B2, SP, PP, hB2, hrun2, hcond⟩ :=
      starPhase s p1 p2 (litStarAuto p1 p2) rfl hpre
    obtain ⟨B1, hB1, heq⟩ := runChainOk s p1 p2 p1 0 0 (litStarAuto p1 p2)
      (f2 + 1 + p1.length) rfl hchain hag (by omega) (by omega) (by omega)
    rw [show f2 + 1 + p1.length - p1.length = f2 + 1 by omega] at heq
    simp only [Nat.zero_add] at heq
    obtain ⟨B3, hrun3, hB3⟩ := qRun_strip_transfer hB1 hrun2
    have hrun3m := engineMono f2 (f2 + 1) (by omega) _ _ hrun3
    have hfull : engine (f2 + 1 + p1.length)
        (.qRun (litStarAuto p1 p2) s 0 0) = some (.rTrip SP PP B3) :=
      heq.trans hrun3m
    by_cases hm : litStarMatch p1 p2 s = true
    · rw [if_pos hm] at hcond
      refine ⟨f2 + 1 + p1.length + 1, ?_⟩
      rw [hm]
      exact execBool_true_of_trueExit hfull (trueExit_strip hB3 hcond)
    · rw [if_neg hm] at hcond
      refine ⟨f2 + 1 + p1.length + 1, ?_⟩
      rw [Bool.not_eq_true] at hm
      rw [hm]
      exact execBool_false_of_falseExit hfull (falseExit_strip hB3 hcond)
  · have hbad : ¬((∀ j, j < p1.length → charAt s (0 + j) = p1.getD j nul) ∧
        0 + p1.length ≤ s.length) := by
      rintro ⟨hag2, hlen2⟩
      exact hpre (take_of_agree hag2 (by omega))
    obtain ⟨f, B', SP, PP, hB', hrun, hfe⟩ :=
      runChainFalse s p1 p2 p1 0 0 (litStarAuto p1 p2) rfl hchain
        (by omega) (Nat.zero_le _) hbad
    refine ⟨f + 1, ?_⟩
    rw [litStarMatch_neg hpre]
    exact execBool_false_of_falseExit hrun hfe

theorem matchesE_litStar (p1 p2 s : List Char)
    (h1 : ∀ c ∈ p1, LitChar c) (h2 : ∀ c ∈ p2, LitChar c) :
    MatchesE (compileSafeA (p1 ++ '*' :: p2)) s ↔ litStarMatch p1 p2 s = true := by
  rw [compileSafeA_litStar p1 p2 h1 h2]
  obtain ⟨f, hf⟩ := execBool_litStar p1 p2 s
  constructor
  · rintro ⟨g, hg⟩
    exact (execBool_det hg hf).symm
  · intro hm
    rw [hm] at hf
    exact ⟨f, hf⟩

theorem starScan_iff (c2 : Char) (p2' : List Char) :
    ∀ r : List Char, starScan c2 (c2 :: p2') r = true ↔
      ∃ w, r = w ++ c2 :: p2' ∧ ¬ c2 ∈ w := by
  intro r
  induction r with
  | nil =>
    constructor
    · intro h
      simp [starScan] at h
    · rintro ⟨w, hw, -⟩
      exact absurd hw (by simp)
  | cons c r ih =>
    by_cases hc : c = c2
    · constructor
      · intro h
        simp only [starScan] at h
        rw [if_pos hc, decide_eq_true_eq] at h
        injection h with h1 h2
        exact ⟨[], by rw [hc, h2]; rfl, by simp⟩
      · rintro ⟨w, hw, hn⟩
        cases w with
        | nil =>
          rw [List.nil_append] at hw
          injection hw with h1 h2
          simp only [starScan]
          rw [if_pos hc, decide_eq_true_eq, hc, h2]
        | cons cw w =>
          rw [List.cons_append] at hw
          injection hw with h1 h2
          exact absurd (show c2 ∈ cw :: w by
            rw [← h1, hc]
            exact List.mem_cons_self _ _) hn
    · constructor
      · intro h
        simp only [starScan] at h
        rw [if_neg hc] at h
        obtain ⟨w, hw, hn⟩ := ih.mp h
        refine ⟨c :: w, by rw [List.cons_append, hw], ?_⟩
        intro hmem
        rcases List.mem_cons.mp hmem with h1 | h1
        · exact hc h1.symm
        · exact hn h1
      · rintro ⟨w, hw, hn⟩
        cases w with
        | nil =>
          rw [List.nil_append] at hw
          injection hw with h1 h2
          exact absurd h1 hc
        | cons cw w =>
          rw [List.cons_append] at hw
          injection hw with h1 h2
          simp only [starScan]
          rw [if_neg hc]
          exact ih.mpr ⟨w, h2, fun hmem => hn (List.mem_cons.mpr (Or.inr hmem))⟩

theorem litStarMatch_iff (p1 p2 s : List Char) :
    litStarMatch p1 p2 s = true ↔
      ∃ w, s = p1 ++ w ++ p2 ∧ ∀ c, p2.head? = some c → ¬ c ∈ w := by
  by_cases hpre : s.take p1.length = p1
  · have hsplit : s = p1 ++ s.drop p1.length := by
      conv_lhs => rw [← List.take_append_drop p1.length s]
      rw [hpre]
    cases p2 with
    | nil =>
      rw [litStarMatch_nil_take hpre]
      constructor
      · intro _
        refine ⟨s.drop p1.length, ?_, ?_⟩
        · rw [List.append_nil]
          exact hsplit
        · intro c hc
          exact absurd hc (by simp)
      · intro _
        rfl
    | cons c2 p2' =>
      rw [litStarMatch_cons_take hpre, starScan_iff]
      constructor
      · rintro ⟨w, hd, hn⟩
        refine ⟨w, ?_, ?_⟩
        · rw [List.append_assoc, ← hd]
          exact hsplit
        · intro c hc
          have h2 : c2 = c := Option.some.inj hc
          rw [← h2]
          exact hn
      · rintro ⟨w, hs, hcond⟩
        refine ⟨w, ?_, hcond c2 rfl⟩
        rw [hs, List.append_assoc, List.drop_left]
  · rw [litStarMatch_neg hpre]
    constructor
    · intro h
      cases h
    · rintro ⟨w, hs, -⟩
      exact absurd (by rw [hs, List.append_assoc, List.take_left]) hpre

/-- C1 (amended): for literal fragments `p1`, `p2` (no glob
metacharacters and no `,`, `-`, or NUL), the compiled pattern
`p1*p2` matches `s` iff `s = p1 ++ w ++ p2` for some `w` that avoids
the first character of `p2`: `StateStar::Next` commits to the char
chain at the first occurrence of that character and never backtracks,
so splits whose `w` contains it are not tried. -/
theorem c1_amended_litstar_matches_iff (p1 p2 s : List Char)
    (h1 : ∀ c ∈ p1, LitChar c) (h2 : ∀ c ∈ p2, LitChar c) :
    MatchesE (compileSafeA (p1 ++ '*' :: p2)) s ↔
      ∃ w, s = p1 ++ w ++ p2 ∧ ∀ c, p2.head? = some c → ¬ c ∈ w := by
  rw [matchesE_litStar p1 p2 s h1 h2]
  exact litStarMatch_iff p1 p2 s

theorem c1_amended_litstar_matches_iff_witness :
    (∀ c ∈ ['t', 'e'], LitChar c) ∧ (∀ c ∈ ['s', 't'], LitChar c) ∧
    MatchesE (compileSafeA (['t', 'e'] ++ '*' :: ['s', 't']))
      ['t', 'e', 'X', 's', 't'] :=
  ⟨by intro c hc; fin_cases hc <;> exact ⟨by decide, by decide, by decide, by decide⟩,
    by intro c hc; fin_cases hc <;> exact ⟨by decide, by decide, by decide, by decide⟩,
    (c1_amended_litstar_matches_iff ['t', 'e'] ['s', 't']
      ['t', 'e', 'X', 's', 't']
      (by intro c hc; fin_cases hc <;> exact ⟨by decide, by decide, by decide, by decide⟩)
      (by intro c hc; fin_cases hc <;> exact ⟨by decide, by decide, by decide, by decide⟩)).mpr
      ⟨['X'], by decide, fun c hc => by
        have h2 : 's' = c := Option.some.inj (show some 's' = some c from hc)
        rw [← h2]
        decide⟩⟩

end GlobCpp











